import Mathlib

/-! # Dining philosophers (task3_dining_philosophers): embedding and verification

Shallow embedding of `dining_philosophers.c` / `dining_philosophers.h`.

* The `philosophers[NUM_PHILOSOPHERS]` array is a map from `Fin NUM_PHILOSOPHERS`. A
  `Philosopher *phil` argument is passed as its index `phil_id`: `init_dining_table` sets
  `philosophers[i].id = i` and no function changes the field, so `phil->id` is that index.
* The `int` counters are natural numbers: they start at 0 and are only incremented.
* The `dining_room` semaphore is its counter.
* The critical sections guarded by `state_mutex` and `stats_mutex` are atomic functions on
  the table; the interleaving of the threads running `philosopher_life` is the step function
  `step` on `Sys`, one program location (`Loc`) per thread.
-/

namespace DiningPhilosophers

/-! ## Constants (dining_philosophers.h) -/

/-- Constant `#define NUM_PHILOSOPHERS 5`. -/
abbrev NUM_PHILOSOPHERS : Nat := 5

/-- Constant `#define MAX_EATING_CYCLES 5`. -/
def MAX_EATING_CYCLES : Nat := 5

/-- Constant `#define THINKING_TIME_MS 1000`. -/
def THINKING_TIME_MS : Nat := 1000

/-- Constant `#define EATING_TIME_MS 800`. -/
def EATING_TIME_MS : Nat := 800

/-! ## Data model (dining_philosophers.h) -/

/-- Enumeration `typedef enum { THINKING, HUNGRY, EATING } PhilosopherState;`. -/
inductive PhilosopherState where
  | THINKING
  | HUNGRY
  | EATING
  deriving DecidableEq, Repr

/-- Record `typedef struct { int id; PhilosopherState state; int eating_count;
int total_thinking_time; int total_eating_time; pthread_t thread; } Philosopher;`
(the thread handle carries no data of the protocol). -/
structure Philosopher where
  id : Nat
  state : PhilosopherState
  eating_count : Nat
  total_thinking_time : Nat
  total_eating_time : Nat
  deriving DecidableEq, Repr

/-- Index of a philosopher in `philosophers[NUM_PHILOSOPHERS]`. -/
abbrev PhilId : Type := Fin NUM_PHILOSOPHERS

/-- Table `DiningTable`: the philosophers, the counter of the `dining_room` semaphore, the
`simulation_running` flag and `total_meals_served`. The state and statistics mutexes are
represented by the atomicity of the functions that run under them. -/
structure DiningTable where
  philosophers : PhilId → Philosopher
  dining_room : Nat
  simulation_running : Bool
  total_meals_served : Nat

/-- Contents of the table after a successful `init_dining_table` (lines 17-24, 64, 87-88). -/
def init_dining_table : DiningTable where
  philosophers := fun i =>
    { id := i.val, state := .THINKING, eating_count := 0,
      total_thinking_time := 0, total_eating_time := 0 }
  dining_room := NUM_PHILOSOPHERS - 1
  simulation_running := true
  total_meals_served := 0

/-! ## Auxiliary functions (lines 250-256) -/

/-- Source: `int left_fork(int phil_id) { return phil_id; }`. -/
def left_fork (phil_id : PhilId) : PhilId := phil_id

/-- Source: `int right_fork(int phil_id) { return (phil_id + 1) % NUM_PHILOSOPHERS; }`. -/
def right_fork (phil_id : PhilId) : PhilId :=
  ⟨(phil_id.val + 1) % NUM_PHILOSOPHERS, Nat.mod_lt _ (by decide)⟩

/-- The ring neighbour `(id - 1 + N) % N` used by the specification. -/
def left_neighbour (phil_id : PhilId) : PhilId :=
  ⟨(phil_id.val + NUM_PHILOSOPHERS - 1) % NUM_PHILOSOPHERS, Nat.mod_lt _ (by decide)⟩

/-- The ring neighbour `(id + 1) % N` used by the specification. -/
def right_neighbour (phil_id : PhilId) : PhilId :=
  ⟨(phil_id.val + 1) % NUM_PHILOSOPHERS, Nat.mod_lt _ (by decide)⟩

/-! ## Monitor operations -/

/-- State of philosopher `i` in the table. -/
def DiningTable.stateOf (table : DiningTable) (i : PhilId) : PhilosopherState :=
  (table.philosophers i).state

/-- Assignment `table->philosophers[i].state = s`. -/
def DiningTable.setState (table : DiningTable) (i : PhilId) (s : PhilosopherState) :
    DiningTable :=
  { table with
    philosophers := Function.update table.philosophers i { table.philosophers i with state := s } }

/-- Function `test_philosopher` (lines 201-213): with `left = left_fork(phil_id)` and
`right = right_fork(phil_id)`, promote `phil_id` to EATING when it is HUNGRY and
`philosophers[left]` and `philosophers[right]` are not EATING. -/
def test_philosopher (phil_id : PhilId) (table : DiningTable) : DiningTable :=
  let left := left_fork phil_id
  let right := right_fork phil_id
  if table.stateOf phil_id = .HUNGRY ∧ table.stateOf left ≠ .EATING ∧
      table.stateOf right ≠ .EATING then
    table.setState phil_id .EATING
  else
    table

/-- Critical section of `think` (lines 142-144): `phil->state = THINKING`. -/
def think_state (phil_id : PhilId) (table : DiningTable) : DiningTable :=
  table.setState phil_id .THINKING

/-- Rest of `think` (lines 148-151): `thinking_time = THINKING_TIME_MS + (rand() % THINKING_TIME_MS)`
and `phil->total_thinking_time += thinking_time`; `r` is the value returned by `rand()`. -/
def think_time (phil_id : PhilId) (r : Nat) (table : DiningTable) : DiningTable :=
  { table with
    philosophers := Function.update table.philosophers phil_id
      { table.philosophers phil_id with
        total_thinking_time :=
          (table.philosophers phil_id).total_thinking_time +
            (THINKING_TIME_MS + r % THINKING_TIME_MS) } }

/-- Function `think` (lines 141-152). -/
def think (phil_id : PhilId) (r : Nat) (table : DiningTable) : DiningTable :=
  think_time phil_id r (think_state phil_id table)

/-- First part of the critical section of `pickup_forks` (lines 156-161):
`phil->state = HUNGRY; test_philosopher(phil->id, table);`. -/
def pickup_forks_enter (phil_id : PhilId) (table : DiningTable) : DiningTable :=
  test_philosopher phil_id (table.setState phil_id .HUNGRY)

/-- Condition of the wait loop of `pickup_forks` (line 163):
`phil->state != EATING && table->simulation_running`. -/
def pickup_must_wait (phil_id : PhilId) (table : DiningTable) : Bool :=
  decide (table.stateOf phil_id ≠ .EATING) && table.simulation_running

/-- Wait loop of `pickup_forks` (lines 163-165). Each `pthread_cond_wait` releases the state
mutex and returns with the mutex held again; `wakes` lists the table found at each return.
The result is `none` when the thread is still blocked after the last wake-up. -/
def pickup_wait_loop (phil_id : PhilId) : DiningTable → List DiningTable → Option DiningTable
  | table, wakes =>
    if pickup_must_wait phil_id table then
      match wakes with
      | [] => none
      | w :: ws => pickup_wait_loop phil_id w ws
    else
      some table

/-- Function `pickup_forks` (lines 155-168). -/
def pickup_forks (phil_id : PhilId) (table : DiningTable) (wakes : List DiningTable) :
    Option DiningTable :=
  pickup_wait_loop phil_id (pickup_forks_enter phil_id table) wakes

/-- First part of `eat` (lines 175-179): `phil->eating_count++` and
`phil->total_eating_time += EATING_TIME_MS + (rand() % EATING_TIME_MS)`; `r` is the value
returned by `rand()`. -/
def eat_count (phil_id : PhilId) (r : Nat) (table : DiningTable) : DiningTable :=
  { table with
    philosophers := Function.update table.philosophers phil_id
      { table.philosophers phil_id with
        eating_count := (table.philosophers phil_id).eating_count + 1
        total_eating_time :=
          (table.philosophers phil_id).total_eating_time +
            (EATING_TIME_MS + r % EATING_TIME_MS) } }

/-- Second part of `eat` (lines 181-183), under the statistics mutex:
`table->total_meals_served++`. -/
def eat_stats (table : DiningTable) : DiningTable :=
  { table with total_meals_served := table.total_meals_served + 1 }

/-- Function `eat` (lines 171-184). -/
def eat (phil_id : PhilId) (r : Nat) (table : DiningTable) : DiningTable :=
  eat_stats (eat_count phil_id r table)

/-- Function `putdown_forks` (lines 187-198): `phil->state = THINKING;
test_philosopher(left_fork(phil->id), table); test_philosopher(right_fork(phil->id), table);`. -/
def putdown_forks (phil_id : PhilId) (table : DiningTable) : DiningTable :=
  test_philosopher (right_fork phil_id)
    (test_philosopher (left_fork phil_id) (table.setState phil_id .THINKING))

/-- Call `sem_wait(&table->dining_room)`: takes a permit when the counter is positive, blocks
(`none`) when it is zero. -/
def sem_wait (table : DiningTable) : Option DiningTable :=
  if 0 < table.dining_room then some { table with dining_room := table.dining_room - 1 }
  else none

/-- Call `sem_post(&table->dining_room)`. -/
def sem_post (table : DiningTable) : DiningTable :=
  { table with dining_room := table.dining_room + 1 }

/-- Function `semaphore_solution` (lines 216-226) run by one thread; `r` is the value of `rand()` in
`eat`, `wakes` the tables found at the wake-ups inside `pickup_forks`. `none` when the thread
blocks for ever. -/
def semaphore_solution (phil_id : PhilId) (r : Nat) (wakes : List DiningTable)
    (table : DiningTable) : Option DiningTable :=
  match sem_wait table with
  | none => none
  | some t1 =>
    match pickup_forks phil_id t1 wakes with
    | none => none
    | some t2 => some (sem_post (putdown_forks phil_id (eat phil_id r t2)))

/-! ## Threads running `philosopher_life` (lines 119-138)

Each thread executes `philosopher_life`; its program location is a `Loc`. A step of a thread
is one of the atomic actions of the source: a read of the loop condition, a critical section,
a semaphore operation or an unprotected update of the thread's own counters. -/

/-- Program locations of a thread inside `philosopher_life`, `think`, `semaphore_solution`,
`pickup_forks`, `eat` and `putdown_forks`. -/
inductive Loc where
  /-- At the loop condition of `philosopher_life` (line 126); also the location before the
  thread has executed anything. -/
  | loopHead
  /-- In `think`, before its critical section (line 142). -/
  | thinkState
  /-- In `think`, sleeping before `total_thinking_time` is updated (lines 148-151). -/
  | thinkTime
  /-- At `if (!table->simulation_running) break;` (line 130). -/
  | checkStop
  /-- At `sem_wait(&table->dining_room)` (line 218). -/
  | semWait
  /-- In `pickup_forks`, before `pthread_mutex_lock` (line 156). -/
  | pickupEnter
  /-- In `pickup_forks`, blocked in `pthread_cond_wait` (line 164). -/
  | pickupWait
  /-- In `eat`, before `eating_count++` (lines 172-179). -/
  | eatCount
  /-- In `eat`, before `total_meals_served++` (lines 181-183). -/
  | eatStats
  /-- Before `putdown_forks` (line 222). -/
  | putdown
  /-- Before `sem_post(&table->dining_room)` (line 225). -/
  | semPost
  /-- After the loop of `philosopher_life`: the thread has returned (line 137). -/
  | done
  deriving DecidableEq, Repr

/-- Locations between the return of `sem_wait` and the call of `sem_post` in
`semaphore_solution`. -/
def Loc.inside : Loc → Bool
  | .pickupEnter | .pickupWait | .eatCount | .eatStats | .putdown | .semPost => true
  | _ => false

/-- Locations inside `eat` after `eating_count++` and before `total_meals_served++`. -/
def Loc.midEat : Loc → Bool
  | .eatStats => true
  | _ => false

/-- Locations inside `eat` (between its call and its return). -/
def Loc.inEat : Loc → Bool
  | .eatCount | .eatStats => true
  | _ => false

/-- Global state: the shared table and the location of every thread. -/
structure Sys where
  table : DiningTable
  loc : PhilId → Loc

/-- Actions of the interleaving: thread `i` executes its next atomic action (`r` is the value
of `rand()` where the action calls it), or the stop flag is set from outside
(`simulation_running = false`, as the signal handler and the tests do). -/
inductive Action where
  | run (i : PhilId) (r : Nat)
  | stop
  deriving DecidableEq, Repr

/-- State after `init_dining_table` and the creation of the threads. -/
def Sys.init : Sys where
  table := init_dining_table
  loc := fun _ => .loopHead

/-- Setting the stop flag: `table->simulation_running = false`. -/
def request_stop (table : DiningTable) : DiningTable :=
  { table with simulation_running := false }

/-- Next atomic action of thread `i`; `none` when the thread is blocked (`sem_wait` with no
permit) or has returned. -/
def threadStep (i : PhilId) (r : Nat) (s : Sys) : Option Sys :=
  match s.loc i with
  | .loopHead =>
    -- while (table->simulation_running && phil->eating_count < MAX_EATING_CYCLES)
    if s.table.simulation_running ∧ (s.table.philosophers i).eating_count < MAX_EATING_CYCLES then
      some { s with loc := Function.update s.loc i .thinkState }
    else
      some { s with loc := Function.update s.loc i .done }
  | .thinkState =>
    some { table := think_state i s.table, loc := Function.update s.loc i .thinkTime }
  | .thinkTime =>
    some { table := think_time i r s.table, loc := Function.update s.loc i .checkStop }
  | .checkStop =>
    -- if (!table->simulation_running) break;
    if s.table.simulation_running then
      some { s with loc := Function.update s.loc i .semWait }
    else
      some { s with loc := Function.update s.loc i .done }
  | .semWait =>
    match sem_wait s.table with
    | none => none
    | some t => some { table := t, loc := Function.update s.loc i .pickupEnter }
  | .pickupEnter =>
    let t := pickup_forks_enter i s.table
    if pickup_must_wait i t then
      some { table := t, loc := Function.update s.loc i .pickupWait }
    else
      some { table := t, loc := Function.update s.loc i .eatCount }
  | .pickupWait =>
    -- return from pthread_cond_wait (signal, broadcast or spurious), loop condition again
    if pickup_must_wait i s.table then
      some s
    else
      some { s with loc := Function.update s.loc i .eatCount }
  | .eatCount =>
    some { table := eat_count i r s.table, loc := Function.update s.loc i .eatStats }
  | .eatStats =>
    some { table := eat_stats s.table, loc := Function.update s.loc i .putdown }
  | .putdown =>
    some { table := putdown_forks i s.table, loc := Function.update s.loc i .semPost }
  | .semPost =>
    some { table := sem_post s.table, loc := Function.update s.loc i .loopHead }
  | .done => none

/-- One step of the system. -/
def step (s : Sys) : Action → Option Sys
  | .run i r => threadStep i r s
  | .stop => some { s with table := request_stop s.table }

/-- Execution of a schedule (a list of actions) from `s`; `none` when some action of the
schedule is not enabled. -/
def exec (s : Sys) : List Action → Option Sys
  | [] => some s
  | a :: rest =>
    match step s a with
    | none => none
    | some s1 => exec s1 rest

/-- States reachable from `s0` by some schedule. -/
def ReachableFrom (s0 s : Sys) : Prop := ∃ sched : List Action, exec s0 sched = some s

/-- States reachable from the initialised table. -/
def Reachable (s : Sys) : Prop := ReachableFrom Sys.init s

/-- Number of threads whose location satisfies `p`. -/
def countLoc (p : Loc → Bool) (s : Sys) : Nat :=
  ∑ i : PhilId, if p (s.loc i) then 1 else 0

/-- Sum of `eating_count` over all philosophers. -/
def sumEatingCount (table : DiningTable) : Nat :=
  ∑ i : PhilId, (table.philosophers i).eating_count

/-- Two philosophers adjacent on the ring are both EATING. -/
def adjacentEating (table : DiningTable) : Prop :=
  ∃ i : PhilId, table.stateOf i = .EATING ∧ table.stateOf (right_neighbour i) = .EATING

/-! ## Sequential runs of one thread -/

/-- One iteration of the loop body of `philosopher_life` (lines 128-133) in which the stop
flag is not seen at line 130: `think(phil, table); semaphore_solution(phil, table);`. Here
`r1` and `r2` are the values of `rand()` in `think` and `eat`. -/
def life_cycle (phil_id : PhilId) (r1 r2 : Nat) (wakes : List DiningTable)
    (table : DiningTable) : Option DiningTable :=
  semaphore_solution phil_id r2 wakes (think phil_id r1 table)

/-- Successive iterations of the loop body, one per pair of `rand()` values. -/
def life_cycles (phil_id : PhilId) : List (Nat × Nat) → DiningTable → Option DiningTable
  | [], table => some table
  | (r1, r2) :: rest, table =>
    match life_cycle phil_id r1 r2 [] table with
    | none => none
    | some t => life_cycles phil_id rest t

/-! ## Concrete tables and schedules used as test inputs -/

/-- Thread `i` executes `n` consecutive atomic actions (with `rand()` returning 0). -/
def runs (i : PhilId) (n : Nat) : List Action := List.replicate n (.run i 0)

/-- Schedule: philosopher 0 goes through `think`, `sem_wait` and `pickup_forks`, then
philosopher 1 does the same. -/
def sched_both_pickup : List Action := runs 0 6 ++ runs 1 6

/-- Table in which philosopher 0 is EATING and philosopher 1 has just become HUNGRY (the
table on which `pickup_forks` of philosopher 1 calls `test_philosopher(1)` while
philosopher 0 eats). -/
def table_left_eating : DiningTable :=
  (init_dining_table.setState 0 .EATING).setState 1 .HUNGRY

/-- Schedule: philosopher 1 becomes EATING, philosopher 0 then blocks HUNGRY in
`pickup_forks`, philosopher 1 finishes `eat` and stands before `putdown_forks`. -/
def sched_before_putdown : List Action := runs 1 6 ++ runs 0 6 ++ runs 1 2

/-- Table with the stop flag set in which philosopher 1 is EATING. -/
def table_stopped_neighbour_eating : DiningTable :=
  request_stop (init_dining_table.setState 1 .EATING)

/-- Schedule: philosopher 1 becomes EATING, philosopher 0 blocks HUNGRY in `pickup_forks`,
the stop flag is set, philosopher 0 is woken and runs until `philosopher_life` returns. -/
def sched_stop_while_blocked : List Action := runs 1 6 ++ runs 0 6 ++ [.stop] ++ runs 0 6

/-- Schedule from `Sys.stoppedInit`: every thread evaluates its loop condition once. -/
def sched_all_start : List Action := [.run 0 0, .run 1 0, .run 2 0, .run 3 0, .run 4 0]


/-! ## Invariants of the interleaving -/

/-- Permit conservation: the permits left in `dining_room` plus the number of threads between
their `sem_wait` and their `sem_post` make `NUM_PHILOSOPHERS - 1`. -/
def InvPermits (s : Sys) : Prop :=
  s.table.dining_room + countLoc Loc.inside s = NUM_PHILOSOPHERS - 1

/-- Meal accounting: `total_meals_served` plus the number of threads that have incremented
their `eating_count` in `eat` and not yet `total_meals_served` is the sum of `eating_count`. -/
def InvMeals (s : Sys) : Prop :=
  s.table.total_meals_served + countLoc Loc.midEat s = sumEatingCount s.table

/-- State reached from `Sys.init` by a schedule (`Sys.init` when the schedule is not
executable). -/
def after (sched : List Action) : Sys := (exec Sys.init sched).getD Sys.init

/-- Schedule: philosophers 0, 1, 2 and 3 each go through `think` and `sem_wait`. -/
def sched_four_admitted : List Action := runs 0 5 ++ runs 1 5 ++ runs 2 5 ++ runs 3 5

/-- Schedule: philosopher 0 executes one complete iteration of its loop (10 atomic actions)
and evaluates the loop condition again. -/
def sched_one_meal : List Action := runs 0 11

/-- Schedule: philosopher 1 becomes EATING, philosopher 0 blocks HUNGRY in `pickup_forks`. -/
def sched_blocked : List Action := runs 1 6 ++ runs 0 6

/-- Invariant of the runs that start with the stop flag set: the flag stays set, every
philosopher is THINKING with `eating_count == 0`, every thread is at the loop condition or has
returned, no meal was served and all permits are in the semaphore. -/
def InvStopped (s : Sys) : Prop :=
  s.table.simulation_running = false ∧
  (∀ i, s.table.stateOf i = .THINKING ∧ (s.table.philosophers i).eating_count = 0 ∧
    (s.loc i = .loopHead ∨ s.loc i = .done)) ∧
  s.table.total_meals_served = 0 ∧
  s.table.dining_room = NUM_PHILOSOPHERS - 1

/-- State after `init_dining_table` followed by the setting of the stop flag, before any
thread has run. -/
def Sys.stoppedInit : Sys where
  table := request_stop init_dining_table
  loc := fun _ => .loopHead

/-! ## Initialisation with failing primitives (`init_dining_table`, lines 11-92) -/

/-- Synchronisation primitives owned by the table: `forks[i]`, `state_mutex`,
`condition[i]`, `dining_room` and `stats_mutex`. -/
inductive Prim where
  | fork (i : Nat)
  | state_mutex
  | condition (i : Nat)
  | dining_room
  | stats_mutex
  deriving DecidableEq, Repr

/-- Calls made by `init_dining_table` on the primitives: a successful `*_init` and a
`*_destroy`. -/
inductive PrimEvent where
  | init (p : Prim)
  | destroy (p : Prim)
  deriving DecidableEq, Repr

/-- Result of a call of `init_dining_table`: the returned value, the calls made on the
primitives in program order, and the contents of the table. -/
structure InitOutcome where
  ret : Int
  events : List PrimEvent
  table : DiningTable

/-- Primitives successfully initialised, in program order. -/
def initialised (events : List PrimEvent) : List Prim :=
  events.filterMap fun e => match e with
    | .init p => some p
    | .destroy _ => none

/-- Primitives destroyed, in program order. -/
def destroyed (events : List PrimEvent) : List Prim :=
  events.filterMap fun e => match e with
    | .init _ => none
    | .destroy p => some p

/-- Successful initialisations `init (p 0), ..., init (p (n-1))` of a `for` loop. -/
def inits (p : Nat → Prim) (n : Nat) : List PrimEvent :=
  (List.range n).map fun j => .init (p j)

/-- Cleanup loop `for (j = 0; j < n; j++) destroy(p j)`. -/
def destroys (p : Nat → Prim) (n : Nat) : List PrimEvent :=
  (List.range n).map fun j => .destroy (p j)

/-- Cleanup loop `for (i = 0; i < NUM_PHILOSOPHERS; i++) { pthread_cond_destroy(&condition[i]);
pthread_mutex_destroy(&forks[i]); }` (lines 67-70 and 79-82). -/
def destroy_conds_forks : List PrimEvent :=
  (List.range NUM_PHILOSOPHERS).flatMap fun i =>
    [.destroy (.condition i), .destroy (.fork i)]

/-- All the primitives of the table, in the order in which `init_dining_table` initialises
them. -/
def all_prims : List Prim :=
  (List.range NUM_PHILOSOPHERS).map .fork ++ [.state_mutex] ++
    (List.range NUM_PHILOSOPHERS).map .condition ++ [.dining_room, .stats_mutex]

/-- Function `init_dining_table` (lines 11-92) called with a non-null table whose previous
contents are `t0`; `fails p` tells whether the initialisation call of primitive `p` returns
a non-zero value. A `for` loop over the primitives `p 0 .. p (N-1)` stops at the first index
whose initialisation fails (`List.find?`). -/
def init_dining_table_run (fails : Prim → Bool) (t0 : DiningTable) : InitOutcome :=
  -- lines 18-24
  let t1 : DiningTable := { t0 with philosophers := init_dining_table.philosophers }
  -- lines 27-36
  match (List.range NUM_PHILOSOPHERS).find? (fun i => fails (.fork i)) with
  | some i =>
    { ret := -1, events := inits .fork i ++ destroys .fork i, table := t1 }
  | none =>
    let ev1 := inits .fork NUM_PHILOSOPHERS
    -- lines 39-45
    if fails .state_mutex then
      { ret := -1, events := ev1 ++ destroys .fork NUM_PHILOSOPHERS, table := t1 }
    else
      let ev2 := ev1 ++ [.init .state_mutex]
      -- lines 48-61
      match (List.range NUM_PHILOSOPHERS).find? (fun i => fails (.condition i)) with
      | some i =>
        { ret := -1
          events := ev2 ++ inits .condition i ++ destroys .condition i ++
            [.destroy .state_mutex] ++ destroys .fork NUM_PHILOSOPHERS
          table := t1 }
      | none =>
        let ev3 := ev2 ++ inits .condition NUM_PHILOSOPHERS
        -- lines 64-73
        if fails .dining_room then
          { ret := -1
            events := ev3 ++ destroy_conds_forks ++ [.destroy .state_mutex]
            table := t1 }
        else
          let ev4 := ev3 ++ [.init .dining_room]
          let t2 : DiningTable := { t1 with dining_room := NUM_PHILOSOPHERS - 1 }
          -- lines 76-85
          if fails .stats_mutex then
            { ret := -1
              events := ev4 ++ [.destroy .dining_room] ++ destroy_conds_forks ++
                [.destroy .state_mutex]
              table := t2 }
          else
            -- lines 87-91
            { ret := 0
              events := ev4 ++ [.init .stats_mutex]
              table := { t2 with simulation_running := true, total_meals_served := 0 } }

/-- Failure pattern in which only the initialisation of `condition[2]` fails. -/
def fails_condition_2 : Prim → Bool := fun p => decide (p = .condition 2)

/-- Failure pattern in which no initialisation fails. -/
def fails_never : Prim → Bool := fun _ => false

/-- Table with arbitrary previous contents, used as the memory handed to
`init_dining_table`. -/
def table_garbage : DiningTable where
  philosophers := fun _ =>
    { id := 9, state := .EATING, eating_count := 7, total_thinking_time := 3,
      total_eating_time := 4 }
  dining_room := 17
  simulation_running := false
  total_meals_served := 42

/-! ## State assignments and further invariants of the interleaving -/

/-- Locations at which the philosopher of the thread is THINKING: everywhere except between
the critical section of `pickup_forks` and the one of `putdown_forks`. -/
def Loc.thinking : Loc → Bool
  | .pickupWait | .eatCount | .eatStats | .putdown => false
  | _ => true

/-- Locations after the return of `pickup_forks` and before `putdown_forks`. -/
def Loc.eating : Loc → Bool
  | .eatCount | .eatStats | .putdown => true
  | _ => false

/-- Locations inside a loop iteration before `eating_count++`. -/
def Loc.beforeEat : Loc → Bool
  | .thinkState | .thinkTime | .checkStop | .semWait | .pickupEnter | .pickupWait
  | .eatCount => true
  | _ => false

/-- Invariant relating the location of every thread to the state and the meal count of its
philosopher. -/
def InvStates (s : Sys) : Prop :=
  ∀ i,
    ((s.loc i).thinking = true → s.table.stateOf i = .THINKING) ∧
    ((s.loc i).thinking = false → s.table.stateOf i ≠ .THINKING) ∧
    (s.table.simulation_running = true → (s.loc i).eating = true →
      s.table.stateOf i = .EATING) ∧
    (s.table.philosophers i).eating_count ≤ MAX_EATING_CYCLES ∧
    ((s.loc i).beforeEat = true → (s.table.philosophers i).eating_count < MAX_EATING_CYCLES) ∧
    (s.table.simulation_running = true → s.loc i = .done →
      (s.table.philosophers i).eating_count = MAX_EATING_CYCLES)

/-- An assignment `table->philosophers[j].state = x`. -/
abbrev Assign : Type := PhilId × PhilosopherState

/-- Table after a sequence of assignments to the `state` fields. -/
def applyAssigns : DiningTable → List Assign → DiningTable
  | t, [] => t
  | t, (j, x) :: rest => applyAssigns (t.setState j x) rest

/-- Assignments made by `test_philosopher(j)` on table `t` (line 209). -/
def test_assigns (j : PhilId) (t : DiningTable) : List Assign :=
  if t.stateOf j = .HUNGRY ∧ t.stateOf (left_fork j) ≠ .EATING ∧
      t.stateOf (right_fork j) ≠ .EATING then
    [(j, .EATING)]
  else
    []

/-- Assignments to `state` fields made by the next atomic action of thread `i`, in program
order: line 143 in `think`; line 158 and the test in `pickup_forks`; line 190 and the two
tests in `putdown_forks`. The other actions assign no `state` field. -/
def stepAssigns (i : PhilId) (s : Sys) : List Assign :=
  match s.loc i with
  | .thinkState => [(i, .THINKING)]
  | .pickupEnter => (i, .HUNGRY) :: test_assigns i (s.table.setState i .HUNGRY)
  | .putdown =>
    let t1 := s.table.setState i .THINKING
    let a1 := test_assigns (left_fork i) t1
    (i, .THINKING) :: (a1 ++ test_assigns (right_fork i) (applyAssigns t1 a1))
  | _ => []

/-- A change of state: the philosopher, its state before and its state after. -/
abbrev Change : Type := PhilId × PhilosopherState × PhilosopherState

/-- The changes of state (assignments of a value different from the current one) made by a
sequence of assignments executed from table `t`. -/
def changes : DiningTable → List Assign → List Change
  | _, [] => []
  | t, (j, x) :: rest =>
    if t.stateOf j = x then changes (t.setState j x) rest
    else (j, t.stateOf j, x) :: changes (t.setState j x) rest

/-- The transitions of the cycle THINKING, HUNGRY, EATING, THINKING. -/
def allowedChange : PhilosopherState → PhilosopherState → Bool
  | .THINKING, .HUNGRY => true
  | .HUNGRY, .EATING => true
  | .EATING, .THINKING => true
  | _, _ => false

/-- Schedule: philosopher 1 becomes EATING, philosopher 0 blocks HUNGRY, the stop flag is
set, philosopher 0 is woken, runs `eat` and stands before `putdown_forks`. -/
def sched_stopped_before_putdown : List Action := sched_blocked ++ [.stop] ++ runs 0 3

/-- Schedule in which the five threads run one after the other, each for
`MAX_EATING_CYCLES` complete iterations (10 atomic actions each) followed by the last
evaluation of the loop condition. -/
def sched_all_complete : List Action :=
  runs 0 51 ++ runs 1 51 ++ runs 2 51 ++ runs 3 51 ++ runs 4 51

/-- Counters of two tables agree: `total_meals_served` and, for every philosopher,
`eating_count`, `total_thinking_time` and `total_eating_time`. -/
def sameCounters (a b : DiningTable) : Prop :=
  a.total_meals_served = b.total_meals_served ∧
  ∀ j, (a.philosophers j).eating_count = (b.philosophers j).eating_count ∧
    (a.philosophers j).total_thinking_time = (b.philosophers j).total_thinking_time ∧
    (a.philosophers j).total_eating_time = (b.philosophers j).total_eating_time

/-! ## Fixed-order acquisition (`asymmetric_solution`, lines 229-247) -/

/-- State of the fork mutexes `forks[NUM_PHILOSOPHERS]`: for each fork the thread that holds
it, if any. -/
abbrev Forks : Type := PhilId → Option PhilId

/-- Call `pthread_mutex_lock(&table->forks[f])` by thread `owner`: takes the mutex when it
is free, blocks (`none`) when it is held. -/
def mutex_lock (f : PhilId) (owner : PhilId) (forks : Forks) : Option Forks :=
  if forks f = none then some (Function.update forks f (some owner)) else none

/-- Call `pthread_mutex_unlock(&table->forks[f])`. -/
def mutex_unlock (f : PhilId) (forks : Forks) : Forks :=
  Function.update forks f none

/-- Operations of `asymmetric_solution` on the forks, and its call of `eat`. -/
inductive ForkEvent where
  | lock (f : PhilId)
  | eat
  | unlock (f : PhilId)
  deriving DecidableEq, Repr

/-- Result of a call of `asymmetric_solution` that returns: the fork mutexes and the table
at the return, the operations made, in program order, and the fork mutexes and table after
each of these operations. -/
structure AsymResult where
  forks : Forks
  table : DiningTable
  events : List ForkEvent
  trace : List (Forks × DiningTable)

/-- Outcome of a call of `asymmetric_solution` by a thread running alone. -/
inductive AsymOutcome where
  /-- The call is blocked in `pthread_mutex_lock(&table->forks[f])`, the fork mutexes being
  `forks` at that point. -/
  | blocked (f : PhilId) (forks : Forks)
  /-- The call returns. -/
  | returned (res : AsymResult)

/-- Function `asymmetric_solution` (lines 229-247) run by one thread, `r` being the value of
`rand()` in `eat`. -/
def asymmetric_solution (phil_id : PhilId) (r : Nat) (forks : Forks) (table : DiningTable) :
    AsymOutcome :=
  let left := left_fork phil_id
  let right := right_fork phil_id
  -- lines 243-246, with the fork mutexes `f1` after the first lock and `f2` after the second
  let rest (ev : List ForkEvent) (f1 f2 : Forks) : AsymOutcome :=
    let t1 := eat phil_id r table
    let f3 := mutex_unlock left f2
    let f4 := mutex_unlock right f3
    .returned
      { forks := f4
        table := t1
        events := ev ++ [.eat, .unlock left, .unlock right]
        trace := [(f1, table), (f2, table), (f2, t1), (f3, t1), (f4, t1)] }
  if phil_id.val % 2 = 0 then
    -- even id: left first
    match mutex_lock left phil_id forks with
    | none => .blocked left forks
    | some f1 =>
      match mutex_lock right phil_id f1 with
      | none => .blocked right f1
      | some f2 => rest [.lock left, .lock right] f1 f2
  else
    -- odd id: right first
    match mutex_lock right phil_id forks with
    | none => .blocked right forks
    | some f1 =>
      match mutex_lock left phil_id f1 with
      | none => .blocked left f1
      | some f2 => rest [.lock right, .lock left] f1 f2

/-- Fork locked first by `asymmetric_solution`: the left one for an even id, the right one
for an odd id (lines 233-241). -/
def first_fork (phil_id : PhilId) : PhilId :=
  if phil_id.val % 2 = 0 then left_fork phil_id else right_fork phil_id

/-- Fork locked second by `asymmetric_solution`. -/
def second_fork (phil_id : PhilId) : PhilId :=
  if phil_id.val % 2 = 0 then right_fork phil_id else left_fork phil_id

/-- Program locations of a thread that runs `asymmetric_solution` repeatedly. -/
inductive ALoc where
  /-- Before the first `pthread_mutex_lock` of a call (lines 235, 239). -/
  | start
  /-- Holding the first fork, before the second `pthread_mutex_lock` (lines 236, 240). -/
  | haveFirst
  /-- Holding both forks, in `eat` before `eating_count++`. -/
  | eatCount
  /-- Holding both forks, in `eat` before `total_meals_served++`. -/
  | eatStats
  /-- Before `pthread_mutex_unlock(&table->forks[left])` (line 245). -/
  | unlockLeft
  /-- Before `pthread_mutex_unlock(&table->forks[right])` (line 246). -/
  | unlockRight
  /-- The thread has stopped calling `asymmetric_solution`. -/
  | finished
  deriving DecidableEq, Repr

/-- Global state of the threads running `asymmetric_solution`. -/
structure ASys where
  table : DiningTable
  forks : Forks
  loc : PhilId → ALoc

/-- Initial state: initialised table, all forks free, no thread has started. -/
def ASys.init : ASys where
  table := init_dining_table
  forks := fun _ => none
  loc := fun _ => .start

/-- Next atomic action of thread `i` running `asymmetric_solution`; `none` when the thread
is blocked in `pthread_mutex_lock` or has finished. -/
def athreadStep (i : PhilId) (r : Nat) (s : ASys) : Option ASys :=
  match s.loc i with
  | .start =>
    match mutex_lock (if i.val % 2 = 0 then left_fork i else right_fork i) i s.forks with
    | none => none
    | some f => some { s with forks := f, loc := Function.update s.loc i .haveFirst }
  | .haveFirst =>
    match mutex_lock (if i.val % 2 = 0 then right_fork i else left_fork i) i s.forks with
    | none => none
    | some f => some { s with forks := f, loc := Function.update s.loc i .eatCount }
  | .eatCount =>
    some { s with table := eat_count i r s.table, loc := Function.update s.loc i .eatStats }
  | .eatStats =>
    some { s with table := eat_stats s.table, loc := Function.update s.loc i .unlockLeft }
  | .unlockLeft =>
    some { s with
      forks := mutex_unlock (left_fork i) s.forks
      loc := Function.update s.loc i .unlockRight }
  | .unlockRight =>
    some { s with
      forks := mutex_unlock (right_fork i) s.forks
      loc := Function.update s.loc i .start }
  | .finished => none

/-- Actions of the interleaving: thread `i` executes its next atomic action, or thread `i`,
between two calls, stops calling `asymmetric_solution`. -/
inductive AAction where
  | run (i : PhilId) (r : Nat)
  | quit (i : PhilId)
  deriving DecidableEq, Repr

/-- One step of the system of threads running `asymmetric_solution`. -/
def astep (s : ASys) : AAction → Option ASys
  | .run i r => athreadStep i r s
  | .quit i =>
    if s.loc i = .start then some { s with loc := Function.update s.loc i .finished }
    else none

/-- Execution of a schedule from `s`. -/
def aexec (s : ASys) : List AAction → Option ASys
  | [] => some s
  | a :: rest =>
    match astep s a with
    | none => none
    | some s1 => aexec s1 rest

/-- States reachable from `ASys.init`. -/
def AReachable (s : ASys) : Prop := ∃ sched : List AAction, aexec ASys.init sched = some s

/-- Fork that thread `i` is about to lock, if its next action is a `pthread_mutex_lock`. -/
def waitsFor (s : ASys) (i : PhilId) : Option PhilId :=
  match s.loc i with
  | .start => some (first_fork i)
  | .haveFirst => some (second_fork i)
  | _ => none

/-- Thread `i` is blocked: its next action is the lock of a fork that is held. -/
def blocked (s : ASys) (i : PhilId) : Bool :=
  match waitsFor s i with
  | some f => (s.forks f).isSome
  | none => false

/-- Deadlock: some thread has not finished and every thread that has not finished is
blocked. -/
def deadlocked (s : ASys) : Prop :=
  (∃ i, s.loc i ≠ .finished) ∧ ∀ i, s.loc i ≠ .finished → blocked s i = true

/-- Forks that thread `i` holds at location `l`. -/
def holds (l : ALoc) (i f : PhilId) : Bool :=
  match l with
  | .start => false
  | .haveFirst => decide (f = first_fork i)
  | .eatCount => decide (f = left_fork i) || decide (f = right_fork i)
  | .eatStats => decide (f = left_fork i) || decide (f = right_fork i)
  | .unlockLeft => decide (f = left_fork i) || decide (f = right_fork i)
  | .unlockRight => decide (f = right_fork i)
  | .finished => false

/-- Invariant of the fork mutexes: fork `f` is held by thread `i` exactly when the location
of `i` says so. -/
def InvForks (s : ASys) : Prop :=
  ∀ f i, s.forks f = some i ↔ holds (s.loc i) i f = true

/-- A ranking of the forks along which every thread locks in increasing order. -/
def fork_rank (f : PhilId) : Nat :=
  match f.val with
  | 4 => 0
  | 2 => 1
  | 0 => 2
  | 1 => 3
  | _ => 4

/-- Fork mutexes with fork 0 held by thread 0 and the others free. -/
def forks_zero_held : Forks := Function.update (fun _ => none) 0 (some 0)

/-- State after a schedule of the threads running `asymmetric_solution` (`ASys.init` when
the schedule is not executable). -/
def aafter (sched : List AAction) : ASys := (aexec ASys.init sched).getD ASys.init

/-- Schedule: every thread attempts its first lock in the order 0, 1, 3; threads 2 and 4
then find their first fork held. -/
def asched_first_locks : List AAction := [.run 0 0, .run 1 0, .run 3 0]

/-- Schedule: `sched_before_putdown` followed by `putdown_forks` of philosopher 1
(philosopher 0 is blocked HUNGRY in `pickup_forks` meanwhile). -/
def sched_after_putdown : List Action := sched_before_putdown ++ runs 1 1

end DiningPhilosophers

/-! # Thread-safe queue (task1_queue): embedding

Shallow embedding of `thread_safe_queue.c` / `thread_safe_queue.h`. A pointer argument is
an `Option` (`none` is `NULL`). The functions run under the queue mutex; a blocking function
takes the list of queue contents found at the successive returns of `pthread_cond_wait` and
yields `none` when it is still blocked after the last of them. -/

namespace TSQueue

/-- Structure `ThreadSafeQueue` (thread_safe_queue.h, lines 19-28): `items` gives the
contents of the allocated array by index; `front`, `rear`, `size` and `capacity` are the
`int` fields, which are set to 0 or to a positive capacity and only move inside
`0..capacity`, hence natural numbers. The mutex and the condition variables are represented
by the atomicity of the functions and by the wake-up lists. -/
structure ThreadSafeQueue where
  items : Nat → Int
  front : Nat
  rear : Nat
  size : Nat
  capacity : Nat

/-- Environment of `queue_init`: the array returned by `malloc` (`none` when it returns
`NULL`) and whether each primitive initialisation succeeds. -/
structure InitEnv where
  malloc : Option (Nat → Int)
  lock_ok : Bool
  not_empty_ok : Bool
  not_full_ok : Bool

/-- Function `queue_init` (lines 11-49): the returned value and the queue structure after
the call. The `items` pointer itself is not represented: after a failed `malloc` the
structure is left as it was. -/
def queue_init (q : Option ThreadSafeQueue) (capacity : Int) (env : InitEnv) :
    Int × Option ThreadSafeQueue :=
  match q with
  | none => (-1, none)
  | some q0 =>
    if capacity ≤ 0 then (-1, some q0)
    else
      match env.malloc with
      | none => (-1, some q0)
      | some mem =>
        let q1 : ThreadSafeQueue :=
          { items := mem, front := 0, rear := 0, size := 0, capacity := capacity.toNat }
        if !env.lock_ok then (-1, some q1)
        else if !env.not_empty_ok then (-1, some q1)
        else if !env.not_full_ok then (-1, some q1)
        else (0, some q1)

/-- Lines 81-83 (and 130-132): `q->items[q->rear] = item;
q->rear = (q->rear + 1) % q->capacity; q->size++;`. -/
def enqueue_store (q : ThreadSafeQueue) (item : Int) : ThreadSafeQueue :=
  { q with
    items := Function.update q.items q.rear item
    rear := (q.rear + 1) % q.capacity
    size := q.size + 1 }

/-- Lines 105-107 (and 155-157): `*item = q->items[q->front];
q->front = (q->front + 1) % q->capacity; q->size--;`. The first component is the value
written to `*item`. -/
def dequeue_take (q : ThreadSafeQueue) : Int × ThreadSafeQueue :=
  (q.items q.front, { q with front := (q.front + 1) % q.capacity, size := q.size - 1 })

/-- Wait loop of `enqueue` (lines 76-78): `while (q->size == q->capacity)
pthread_cond_wait(...)`; `wakes` lists the queue found at each return of the wait. -/
def enqueue_wait : ThreadSafeQueue → List ThreadSafeQueue → Option ThreadSafeQueue
  | q, wakes =>
    if q.size = q.capacity then
      match wakes with
      | [] => none
      | w :: ws => enqueue_wait w ws
    else
      some q

/-- Wait loop of `dequeue` (lines 100-102): `while (q->size == 0)
pthread_cond_wait(...)`. -/
def dequeue_wait : ThreadSafeQueue → List ThreadSafeQueue → Option ThreadSafeQueue
  | q, wakes =>
    if q.size = 0 then
      match wakes with
      | [] => none
      | w :: ws => dequeue_wait w ws
    else
      some q

/-- Function `enqueue` (lines 68-90): `none` when the call never returns, otherwise the
returned value and the queue. -/
def enqueue (q : Option ThreadSafeQueue) (item : Int) (wakes : List ThreadSafeQueue) :
    Option (Int × Option ThreadSafeQueue) :=
  match q with
  | none => some (-1, none)
  | some q0 =>
    match enqueue_wait q0 wakes with
    | none => none
    | some q1 => some (0, some (enqueue_store q1 item))

/-- Function `dequeue` (lines 92-114); `item` is the cell pointed to by the second argument
(`none` for `NULL`). The result is `none` when the call never returns, otherwise the
returned value, the queue and the cell. -/
def dequeue (q : Option ThreadSafeQueue) (item : Option Int) (wakes : List ThreadSafeQueue) :
    Option (Int × Option ThreadSafeQueue × Option Int) :=
  match q, item with
  | none, _ => some (-1, none, item)
  | some q0, none => some (-1, some q0, none)
  | some q0, some _ =>
    match dequeue_wait q0 wakes with
    | none => none
    | some q1 => some (0, some (dequeue_take q1).2, some (dequeue_take q1).1)

/-- Function `enqueue_nonblocking` (lines 116-139): the returned value and the queue. -/
def enqueue_nonblocking (q : Option ThreadSafeQueue) (item : Int) :
    Int × Option ThreadSafeQueue :=
  match q with
  | none => (-1, none)
  | some q0 =>
    if q0.size = q0.capacity then (-1, some q0)
    else (0, some (enqueue_store q0 item))

/-- Function `dequeue_nonblocking` (lines 141-164): the returned value, the queue and the
cell pointed to by `item`. -/
def dequeue_nonblocking (q : Option ThreadSafeQueue) (item : Option Int) :
    Int × Option ThreadSafeQueue × Option Int :=
  match q, item with
  | none, _ => (-1, none, item)
  | some q0, none => (-1, some q0, none)
  | some q0, some v =>
    if q0.size = 0 then (-1, some q0, some v)
    else (0, some (dequeue_take q0).2, some (dequeue_take q0).1)

/-- Representation invariant of the circular buffer. -/
def WF (q : ThreadSafeQueue) : Prop :=
  0 < q.capacity ∧ q.size ≤ q.capacity ∧ q.front < q.capacity ∧
    q.rear = (q.front + q.size) % q.capacity

/-- Items stored in the queue, oldest first: the `size` slots starting at `front`, modulo
`capacity`. -/
def contents (q : ThreadSafeQueue) : List Int :=
  (List.range q.size).map fun k => q.items ((q.front + k) % q.capacity)

/-- Successive calls `enqueue(q, x)` for the items of a list, none of which waits: the
returned values and the final queue (`none` when a call blocks). -/
def enqueue_all : ThreadSafeQueue → List Int → Option (List Int × ThreadSafeQueue)
  | q, [] => some ([], q)
  | q, x :: xs =>
    match enqueue (some q) x [] with
    | some (ret, some q1) =>
      match enqueue_all q1 xs with
      | some (rets, q2) => some (ret :: rets, q2)
      | none => none
    | _ => none

/-- Successive calls `dequeue(q, &item)`, `n` times, none of which waits: the returned
values, the items delivered and the final queue (`none` when a call blocks). -/
def dequeue_n : ThreadSafeQueue → Nat → Option (List Int × List Int × ThreadSafeQueue)
  | q, 0 => some ([], [], q)
  | q, n + 1 =>
    match dequeue (some q) (some 0) [] with
    | some (ret, some q1, some v) =>
      match dequeue_n q1 n with
      | some (rets, vs, q2) => some (ret :: rets, v :: vs, q2)
      | none => none
    | _ => none

/-- Array contents used in the examples. -/
def mem_zero : Nat → Int := fun _ => 0

/-- Queue of capacity 3 on which two enqueue/dequeue pairs were done: it is empty with
`front == rear == 2`, so the next items wrap around the end of the array. -/
def queue_wrapped : ThreadSafeQueue :=
  { items := mem_zero, front := 2, rear := 2, size := 0, capacity := 3 }

/-- Full queue of capacity 2 holding 5 and 6, with `front == rear == 1`. -/
def queue_full : ThreadSafeQueue :=
  { items := fun k => if k = 1 then 5 else 6, front := 1, rear := 1, size := 2,
    capacity := 2 }

/-- Function `queue_size` (lines 166-176): -1 for a null queue, otherwise `q->size`. -/
def queue_size (q : Option ThreadSafeQueue) : Int :=
  match q with
  | none => -1
  | some q0 => q0.size

/-- Function `queue_is_empty` (lines 178-188): `true` for a null queue, otherwise
`q->size == 0`. -/
def queue_is_empty (q : Option ThreadSafeQueue) : Bool :=
  match q with
  | none => true
  | some q0 => decide (q0.size = 0)

/-- Function `queue_is_full` (lines 190-200): `false` for a null queue, otherwise
`q->size == q->capacity`. -/
def queue_is_full (q : Option ThreadSafeQueue) : Bool :=
  match q with
  | none => false
  | some q0 => decide (q0.size = q0.capacity)

/-- Environment of `queue_init` in which the allocation and the three primitive
initialisations succeed; `mem` is the content of the allocated array. -/
def env_ok (mem : Nat → Int) : InitEnv :=
  { malloc := some mem, lock_ok := true, not_empty_ok := true, not_full_ok := true }

/-- Operations on a queue: the four functions that change it. -/
inductive QOp where
  | enqueue (item : Int)
  | dequeue
  | enqueue_nonblocking (item : Int)
  | dequeue_nonblocking
  deriving DecidableEq, Repr

/-- Effect of one operation on the queue. A blocking operation is taken only when it is
enabled: `enqueue` and `dequeue` are run with no wake-up, so they yield `none` when they
would wait. -/
def qstep (q : ThreadSafeQueue) : QOp → Option ThreadSafeQueue
  | .enqueue item =>
    match enqueue (some q) item [] with
    | some (_, some q1) => some q1
    | _ => none
  | .dequeue =>
    match dequeue (some q) (some 0) [] with
    | some (_, some q1, _) => some q1
    | _ => none
  | .enqueue_nonblocking item => (enqueue_nonblocking (some q) item).2
  | .dequeue_nonblocking => (dequeue_nonblocking (some q) (some 0)).2.1

/-- Effect of a sequence of operations (`none` when a blocking one is not enabled). -/
def qexec (q : ThreadSafeQueue) : List QOp → Option ThreadSafeQueue
  | [] => some q
  | op :: rest =>
    match qstep q op with
    | none => none
    | some q1 => qexec q1 rest

/-- Queue holding one item, 41, in slot 0 of an array of capacity 3. -/
def queue_one_item : ThreadSafeQueue :=
  { items := fun k => if k = 0 then 41 else 0, front := 0, rear := 1, size := 1,
    capacity := 3 }

/-- A sequence of operations on a queue of capacity 2 that fills it, tries to add to the
full queue, empties it and tries to take from the empty queue. -/
def ops_sample : List QOp :=
  [.enqueue 1, .enqueue_nonblocking 2, .enqueue_nonblocking 3, .dequeue,
    .dequeue_nonblocking, .dequeue_nonblocking, .enqueue 4]

/-- Queue of capacity 2 as `queue_init` leaves it on the array `mem_zero`. -/
def queue_fresh2 : ThreadSafeQueue :=
  { items := mem_zero, front := 0, rear := 0, size := 0, capacity := 2 }

end TSQueue

/-! # Producer-consumer (task2_producer_consumer): embedding

Shallow embedding of `producer_consumer.c` / `producer_consumer.h`. The semaphores `empty`
and `full` are their counters; the threads running `producer` and `consumer` are
interleaved by the step function `pcStep`, one program location per thread. The counters
`items_produced` and `items_consumed` and the indices are natural numbers: they start at 0
and are only incremented or reduced modulo `BUFFER_SIZE`. -/

namespace ProducerConsumer

/-- Constant `#define BUFFER_SIZE 10`. -/
abbrev BUFFER_SIZE : Nat := 10

/-- Constant `#define MAX_ITEMS 100`. -/
def MAX_ITEMS : Nat := 100

/-- Value of a mathematical integer as a 32-bit two's-complement `int`. -/
def int32 (x : Int) : Int := (x + 2 ^ 31) % 2 ^ 32 - 2 ^ 31

/-- Function `produce_item` (lines 178-182): `(thread_id * 1000) + item_number` in `int`
arithmetic. -/
def produce_item (thread_id item_number : Int) : Int :=
  int32 (int32 (thread_id * 1000) + item_number)

/-- Structure `ProducerConsumerBuffer` (producer_consumer.h, lines 12-22); the field `in`
of the source is `in_`. The array `buffer[BUFFER_SIZE]` is given by index, `empty` and
`full` are the counters of the semaphores, and the mutex is represented by the atomicity
of the critical sections. The `int` counters `items_produced` and `items_consumed` only
count upwards from 0 and are natural numbers here: they are bounded by the number of items
requested from the producers (`items_produced_le_requested`), taken within `int`. -/
structure ProducerConsumerBuffer where
  buffer : Nat → Int
  in_ : Nat
  out : Nat
  empty : Nat
  full : Nat
  items_produced : Nat
  items_consumed : Nat
  shutdown : Bool

/-- Function `init_buffer` (lines 11-51): the returned value and the structure after the
call; the three flags tell whether `sem_init(empty)`, `sem_init(full)` and
`pthread_mutex_init` succeed. -/
def init_buffer (b : Option ProducerConsumerBuffer) (empty_ok full_ok mutex_ok : Bool) :
    Int × Option ProducerConsumerBuffer :=
  match b with
  | none => (-1, none)
  | some b0 =>
    let b1 : ProducerConsumerBuffer :=
      { b0 with in_ := 0, out := 0, items_produced := 0, items_consumed := 0,
                shutdown := false }
    if !empty_ok then (-1, some b1)
    else
      let b2 : ProducerConsumerBuffer := { b1 with empty := BUFFER_SIZE }
      if !full_ok then (-1, some b2)
      else
        let b3 : ProducerConsumerBuffer := { b2 with full := 0 }
        if !mutex_ok then (-1, some b3)
        else
          (0, some { b3 with buffer := fun i => if i < BUFFER_SIZE then -1 else b3.buffer i })

/-- Function `is_buffer_full` (lines 224-226): `((in + 1) % BUFFER_SIZE) == out`. -/
def is_buffer_full (b : ProducerConsumerBuffer) : Bool :=
  decide ((b.in_ + 1) % BUFFER_SIZE = b.out)

/-- Function `is_buffer_empty` (lines 228-230): `in == out`. -/
def is_buffer_empty (b : ProducerConsumerBuffer) : Bool :=
  decide (b.in_ = b.out)

/-- Structure `ThreadData` (lines 25-29), without the pointer to the shared buffer. -/
structure ThreadData where
  thread_id : Int
  items_to_produce : Int

/-- Critical section of `producer` (lines 98-103): `buffer[in] = item;
in = (in + 1) % BUFFER_SIZE; items_produced++`. -/
def insert_item (item : Int) (b : ProducerConsumerBuffer) : ProducerConsumerBuffer :=
  { b with
    buffer := Function.update b.buffer b.in_ item
    in_ := (b.in_ + 1) % BUFFER_SIZE
    items_produced := b.items_produced + 1 }

/-- Extraction in the critical section of `consumer` (lines 152-158):
`item = buffer[out]; buffer[out] = -1; out = (out + 1) % BUFFER_SIZE; items_consumed++`.
The first component is `item`. -/
def extract_item (b : ProducerConsumerBuffer) : Int × ProducerConsumerBuffer :=
  (b.buffer b.out,
    { b with
      buffer := Function.update b.buffer b.out (-1)
      out := (b.out + 1) % BUFFER_SIZE
      items_consumed := b.items_consumed + 1 })

/-- Program locations of a thread running `producer` (lines 70-117). -/
inductive PLoc where
  /-- At the loop condition `i < items_to_produce && !buffer->shutdown` (line 78). -/
  | loop
  /-- At `sem_wait(&buffer->empty)` (line 83). -/
  | wait
  /-- At `if (buffer->shutdown)` (line 89), holding a permit of `empty`. -/
  | check
  /-- At `sem_post(&buffer->empty); break;` (lines 90-91). -/
  | repost
  /-- Before the critical section (lines 95-106), holding a permit of `empty`. -/
  | insert
  /-- At `sem_post(&buffer->full)` (line 109). -/
  | postFull
  /-- After the loop: the thread returns. -/
  | done
  deriving DecidableEq, Repr

/-- Program locations of a thread running `consumer` (lines 120-175). -/
inductive CLoc where
  /-- At the loop condition `!buffer->shutdown` (line 127). -/
  | loop
  /-- At `sem_wait(&buffer->full)` (line 129). -/
  | wait
  /-- At `if (buffer->shutdown)` (line 136). -/
  | check
  /-- At `sem_post(&buffer->full); break;` (lines 137-138). -/
  | repostBreak
  /-- Before the critical section (lines 142-161). -/
  | crit
  /-- At `sem_post(&buffer->full); continue;` of the double check (lines 147-148). -/
  | repost
  /-- At `sem_post(&buffer->empty)` (line 164), after an extraction. -/
  | postEmpty
  /-- After the loop: the thread returns. -/
  | done
  deriving DecidableEq, Repr

/-- Global state of `np` producer threads and `nc` consumer threads: the shared buffer, the
arguments of the producers, and for every thread its location and local variables (`i` and
`item` of a producer, `item` of a consumer). -/
structure PCSys (np nc : Nat) where
  buf : ProducerConsumerBuffer
  pdata : Fin np → ThreadData
  ploc : Fin np → PLoc
  pi : Fin np → Nat
  pitem : Fin np → Int
  cloc : Fin nc → CLoc
  citem : Fin nc → Int

/-- Actions of the interleaving: the next atomic action of a producer or of a consumer; a
`sem_wait` that returns an error (for a consumer with `errno == EINTR` or with another
error); the setting of the `shutdown` flag from outside (signal handler, tests); and a
`sem_post(&buffer.full)` from outside (the tests post it to wake the consumers). -/
inductive PCAction (np nc : Nat) where
  | prod (p : Fin np)
  | cons (c : Fin nc)
  | prod_wait_fails (p : Fin np)
  | cons_wait_eintr (c : Fin nc)
  | cons_wait_fails (c : Fin nc)
  | set_shutdown
  | post_full
  deriving DecidableEq, Repr

/-- Next atomic action of producer `p`; `none` when it is blocked in `sem_wait` or has
returned. -/
def producerStep {np nc : Nat} (p : Fin np) (s : PCSys np nc) : Option (PCSys np nc) :=
  match s.ploc p with
  | .loop =>
    -- for (...; i < items_to_produce && !buffer->shutdown; ...) item = produce_item(...)
    if (s.pi p : Int) < (s.pdata p).items_to_produce ∧ s.buf.shutdown = false then
      some { s with
        pitem := Function.update s.pitem p (produce_item (s.pdata p).thread_id (s.pi p))
        ploc := Function.update s.ploc p .wait }
    else
      some { s with ploc := Function.update s.ploc p .done }
  | .wait =>
    if 0 < s.buf.empty then
      some { s with
        buf := { s.buf with empty := s.buf.empty - 1 }
        ploc := Function.update s.ploc p .check }
    else none
  | .check =>
    if s.buf.shutdown then some { s with ploc := Function.update s.ploc p .repost }
    else some { s with ploc := Function.update s.ploc p .insert }
  | .repost =>
    some { s with
      buf := { s.buf with empty := s.buf.empty + 1 }
      ploc := Function.update s.ploc p .done }
  | .insert =>
    some { s with
      buf := insert_item (s.pitem p) s.buf
      ploc := Function.update s.ploc p .postFull }
  | .postFull =>
    some { s with
      buf := { s.buf with full := s.buf.full + 1 }
      pi := Function.update s.pi p (s.pi p + 1)
      ploc := Function.update s.ploc p .loop }
  | .done => none

/-- Next atomic action of consumer `c`; `none` when it is blocked in `sem_wait` or has
returned. -/
def consumerStep {np nc : Nat} (c : Fin nc) (s : PCSys np nc) : Option (PCSys np nc) :=
  match s.cloc c with
  | .loop =>
    if s.buf.shutdown then some { s with cloc := Function.update s.cloc c .done }
    else some { s with cloc := Function.update s.cloc c .wait }
  | .wait =>
    if 0 < s.buf.full then
      some { s with
        buf := { s.buf with full := s.buf.full - 1 }
        cloc := Function.update s.cloc c .check }
    else none
  | .check =>
    if s.buf.shutdown then some { s with cloc := Function.update s.cloc c .repostBreak }
    else some { s with cloc := Function.update s.cloc c .crit }
  | .repostBreak =>
    some { s with
      buf := { s.buf with full := s.buf.full + 1 }
      cloc := Function.update s.cloc c .done }
  | .crit =>
    -- if (buffer->items_produced == buffer->items_consumed) { unlock; sem_post(full); continue; }
    if s.buf.items_produced = s.buf.items_consumed then
      some { s with cloc := Function.update s.cloc c .repost }
    else
      some { s with
        buf := (extract_item s.buf).2
        citem := Function.update s.citem c (extract_item s.buf).1
        cloc := Function.update s.cloc c .postEmpty }
  | .repost =>
    some { s with
      buf := { s.buf with full := s.buf.full + 1 }
      cloc := Function.update s.cloc c .loop }
  | .postEmpty =>
    some { s with
      buf := { s.buf with empty := s.buf.empty + 1 }
      cloc := Function.update s.cloc c .loop }
  | .done => none

/-- One step of the system. -/
def pcStep {np nc : Nat} (s : PCSys np nc) : PCAction np nc → Option (PCSys np nc)
  | .prod p => producerStep p s
  | .cons c => consumerStep c s
  | .prod_wait_fails p =>
    -- if (sem_wait(&buffer->empty) != 0) { perror(...); break; }
    if s.ploc p = .wait then some { s with ploc := Function.update s.ploc p .done } else none
  | .cons_wait_eintr c =>
    -- if (errno == EINTR) continue;
    if s.cloc c = .wait then some { s with cloc := Function.update s.cloc c .loop } else none
  | .cons_wait_fails c =>
    if s.cloc c = .wait then some { s with cloc := Function.update s.cloc c .done } else none
  | .set_shutdown => some { s with buf := { s.buf with shutdown := true } }
  | .post_full => some { s with buf := { s.buf with full := s.buf.full + 1 } }

/-- Execution of a schedule from `s`; `none` when some action is not enabled. -/
def pcExec {np nc : Nat} (s : PCSys np nc) : List (PCAction np nc) → Option (PCSys np nc)
  | [] => some s
  | a :: rest =>
    match pcStep s a with
    | none => none
    | some s1 => pcExec s1 rest

/-- Buffer structure with arbitrary previous contents, used as the memory handed to
`init_buffer` in the examples. -/
def buffer_garbage : ProducerConsumerBuffer where
  buffer := fun _ => 77
  in_ := 7
  out := 3
  empty := 1
  full := 2
  items_produced := 5
  items_consumed := 9
  shutdown := true

/-- State after a successful `init_buffer` on a structure with previous contents `b0` and
the creation of the threads with arguments `data`. -/
def PCSys.init {np : Nat} (nc : Nat) (data : Fin np → ThreadData)
    (b0 : ProducerConsumerBuffer) : PCSys np nc where
  buf := ((init_buffer (some b0) true true true).2).getD b0
  pdata := data
  ploc := fun _ => .loop
  pi := fun _ => 0
  pitem := fun _ => 0
  cloc := fun _ => .loop
  citem := fun _ => 0

/-- States reachable from the initial state by some schedule. -/
def PCReachable {np nc : Nat} (data : Fin np → ThreadData) (b0 : ProducerConsumerBuffer)
    (s : PCSys np nc) : Prop :=
  ∃ sched : List (PCAction np nc), pcExec (PCSys.init nc data b0) sched = some s

/-- Number of producers whose location satisfies `f`. -/
def countP {np nc : Nat} (f : PLoc → Bool) (s : PCSys np nc) : Nat :=
  ∑ p : Fin np, if f (s.ploc p) then 1 else 0

/-- Number of consumers whose location satisfies `f`. -/
def countC {np nc : Nat} (f : CLoc → Bool) (s : PCSys np nc) : Nat :=
  ∑ c : Fin nc, if f (s.cloc c) then 1 else 0

/-- Locations at which a producer holds a permit of `empty` that it has not used yet. -/
def PLoc.holdsEmpty : PLoc → Bool
  | .check | .repost | .insert => true
  | _ => false

/-- Location at which a consumer has extracted an item and not yet posted `empty`. -/
def CLoc.owesEmpty : CLoc → Bool
  | .postEmpty => true
  | _ => false

/-- Invariant of the bounded buffer. -/
def PCInv {np nc : Nat} (s : PCSys np nc) : Prop :=
  s.buf.in_ = s.buf.items_produced % BUFFER_SIZE ∧
  s.buf.out = s.buf.items_consumed % BUFFER_SIZE ∧
  s.buf.items_consumed ≤ s.buf.items_produced ∧
  s.buf.empty + countP PLoc.holdsEmpty s + s.buf.items_produced + countC CLoc.owesEmpty s =
    BUFFER_SIZE + s.buf.items_consumed

/-- Arguments of a single producer with `thread_id == 0` that produces 10 items. -/
def data_one : Fin 1 → ThreadData := fun _ => { thread_id := 0, items_to_produce := 10 }

/-- Schedule: the producer inserts `n` items (5 atomic actions each). -/
def sched_produce (n : Nat) : List (PCAction 1 1) := List.replicate (5 * n) (.prod 0)

/-- Initial state of one producer and one consumer on the memory `buffer_garbage`. -/
def pcInit : PCSys 1 1 := PCSys.init 1 data_one buffer_garbage

/-- State of one producer and one consumer after a schedule (`pcInit` when the schedule is
not executable). -/
def pcAfter (sched : List (PCAction 1 1)) : PCSys 1 1 := (pcExec pcInit sched).getD pcInit

/-- Schedule: three items are produced, the consumer extracts one, `shutdown` is set while
the consumer waits, the tests post `full`, the consumer re-posts `full` and returns. -/
def sched_shutdown : List (PCAction 1 1) :=
  sched_produce 3 ++ [.cons 0, .cons 0, .cons 0, .cons 0, .cons 0, .cons 0, .cons 0,
    .set_shutdown, .post_full, .cons 0, .cons 0, .prod 0]

/-- Locations at which a producer has started the iteration numbered `i`. -/
def PLoc.started : PLoc → Bool
  | .wait | .check | .repost | .insert | .postFull => true
  | _ => false

/-- Number of insertions made so far by producer `p`: its loop counter `i`, plus one between
the insertion and the increment of `i`. -/
def producedBy {np nc : Nat} (s : PCSys np nc) (p : Fin np) : Nat :=
  s.pi p + if s.ploc p = .postFull then 1 else 0

/-- Counting invariant: `items_produced` is the number of insertions made by the producers,
and no producer goes beyond its `items_to_produce`. -/
def PCCount {np nc : Nat} (data : Fin np → ThreadData) (s : PCSys np nc) : Prop :=
  s.pdata = data ∧
  s.buf.items_produced = ∑ p : Fin np, producedBy s p ∧
  ∀ p : Fin np,
    s.pi p + (if (s.ploc p).started then 1 else 0) ≤ ((data p).items_to_produce).toNat

end ProducerConsumer

namespace DiningPhilosophers

/-! ## Elementary facts about the table operations -/

@[simp]
theorem setState_dining_room (t : DiningTable) (i : PhilId) (x : PhilosopherState) :
    (t.setState i x).dining_room = t.dining_room := rfl

@[simp]
theorem setState_simulation_running (t : DiningTable) (i : PhilId)
    (x : PhilosopherState) : (t.setState i x).simulation_running = t.simulation_running := rfl

@[simp]
theorem setState_total_meals_served (t : DiningTable) (i : PhilId)
    (x : PhilosopherState) : (t.setState i x).total_meals_served = t.total_meals_served := rfl

@[simp]
theorem setState_stateOf_same (t : DiningTable) (i : PhilId) (x : PhilosopherState) :
    (t.setState i x).stateOf i = x := by
  simp [DiningTable.setState, DiningTable.stateOf]

theorem setState_stateOf_ne (t : DiningTable) (i j : PhilId) (x : PhilosopherState)
    (h : j ≠ i) : (t.setState i x).stateOf j = t.stateOf j := by
  simp [DiningTable.setState, DiningTable.stateOf, Function.update_noteq h]

theorem setState_stateOf (t : DiningTable) (i j : PhilId) (x : PhilosopherState) :
    (t.setState i x).stateOf j = if j = i then x else t.stateOf j := by
  by_cases h : j = i
  · subst h; simp
  · simp [h, setState_stateOf_ne t i j x h]

@[simp]
theorem setState_eating_count (t : DiningTable) (i j : PhilId) (x : PhilosopherState) :
    ((t.setState i x).philosophers j).eating_count = (t.philosophers j).eating_count := by
  by_cases h : j = i
  · subst h; simp [DiningTable.setState]
  · simp [DiningTable.setState, Function.update_noteq h]

@[simp]
theorem setState_total_thinking_time (t : DiningTable) (i j : PhilId)
    (x : PhilosopherState) :
    ((t.setState i x).philosophers j).total_thinking_time =
      (t.philosophers j).total_thinking_time := by
  by_cases h : j = i
  · subst h; simp [DiningTable.setState]
  · simp [DiningTable.setState, Function.update_noteq h]

@[simp]
theorem setState_total_eating_time (t : DiningTable) (i j : PhilId)
    (x : PhilosopherState) :
    ((t.setState i x).philosophers j).total_eating_time =
      (t.philosophers j).total_eating_time := by
  by_cases h : j = i
  · subst h; simp [DiningTable.setState]
  · simp [DiningTable.setState, Function.update_noteq h]

/-- What `test_philosopher` computes: it promotes exactly when `phil_id` is HUNGRY and the
philosopher at index `right_fork phil_id` is not EATING (the test of index
`left_fork phil_id = phil_id` is implied by HUNGRY). -/
theorem test_philosopher_eq (i : PhilId) (t : DiningTable) :
    test_philosopher i t =
      if t.stateOf i = .HUNGRY ∧ t.stateOf (right_fork i) ≠ .EATING then
        t.setState i .EATING
      else t := by
  unfold test_philosopher left_fork
  by_cases h : t.stateOf i = .HUNGRY
  · simp [h]
  · simp [h]

@[simp]
theorem test_philosopher_dining_room (i : PhilId) (t : DiningTable) :
    (test_philosopher i t).dining_room = t.dining_room := by
  rw [test_philosopher_eq]; split <;> rfl

@[simp]
theorem test_philosopher_simulation_running (i : PhilId) (t : DiningTable) :
    (test_philosopher i t).simulation_running = t.simulation_running := by
  rw [test_philosopher_eq]; split <;> rfl

@[simp]
theorem test_philosopher_total_meals_served (i : PhilId) (t : DiningTable) :
    (test_philosopher i t).total_meals_served = t.total_meals_served := by
  rw [test_philosopher_eq]; split <;> rfl

@[simp]
theorem test_philosopher_eating_count (i j : PhilId) (t : DiningTable) :
    ((test_philosopher i t).philosophers j).eating_count = (t.philosophers j).eating_count := by
  rw [test_philosopher_eq]; split <;> simp

theorem test_philosopher_stateOf_ne (i j : PhilId) (t : DiningTable) (h : j ≠ i) :
    (test_philosopher i t).stateOf j = t.stateOf j := by
  rw [test_philosopher_eq]; split
  · exact setState_stateOf_ne t i j _ h
  · rfl

/-! ## Reachability of the states after a schedule -/

theorem reachable_after (sched : List Action) (h : (exec Sys.init sched).isSome = true) :
    Reachable (after sched) := by
  refine ⟨sched, ?_⟩
  unfold after
  cases hx : exec Sys.init sched with
  | none => rw [hx] at h; cases h
  | some x => rfl

/-! ## Adjacency, transition test and release (C1, C2, C3) -/

/-- C1 (adjacency safety) evaluated on the code: after the schedule `sched_both_pickup`
(philosopher 0 runs `think`, `sem_wait`, `pickup_forks`; then philosopher 1 does the same)
both threads have returned from `pickup_forks` and stand at the beginning of `eat`, and the
adjacent philosophers 0 and 1 are both EATING: `test_philosopher(1)` reads
`philosophers[left_fork(1)] = philosophers[1]` and never the state of philosopher 0. Hence a
state with two adjacent philosophers EATING is reachable from the initialised table. -/
theorem adjacent_philosophers_both_eating :
    (exec Sys.init sched_both_pickup).map
        (fun s => (s.table.stateOf 0, s.table.stateOf (right_neighbour 0), s.loc 0, s.loc 1)) =
      some (.EATING, .EATING, .eatCount, .eatCount) ∧
    right_neighbour 0 = 1 ∧
    (∃ s, Reachable s ∧ adjacentEating s.table) := by
  refine ⟨by decide, by decide, after sched_both_pickup, reachable_after _ (by decide), 0, ?_, ?_⟩
  · decide
  · decide

/-- C2 (transition test) evaluated on the code: on `table_left_eating` philosopher 1 is
HUNGRY and its neighbour `(1 - 1 + N) % N = 0` is EATING, so the stated condition is false,
yet `test_philosopher(1)` changes the state of philosopher 1 to EATING. -/
theorem test_philosopher_ignores_left_neighbour :
    table_left_eating.stateOf 1 = .HUNGRY ∧
    left_neighbour 1 = 0 ∧
    table_left_eating.stateOf (left_neighbour 1) = .EATING ∧
    table_left_eating.stateOf (right_neighbour 1) = .THINKING ∧
    (test_philosopher 1 table_left_eating).stateOf 1 = .EATING := by
  decide

/-- C3 (release re-checks both neighbours) evaluated on the code: after
`sched_before_putdown` philosopher 1 stands before `putdown_forks`, its neighbour
`(1 - 1 + N) % N = 0` is HUNGRY (blocked in `pickup_forks`) and the other neighbour of
philosopher 0, philosopher 4, is THINKING; after `putdown_forks(1)` philosopher 0 is still
HUNGRY: the calls are `test_philosopher(left_fork(1)) = test_philosopher(1)` and
`test_philosopher(right_fork(1)) = test_philosopher(2)`, never `test_philosopher(0)`. -/
theorem putdown_forks_skips_left_neighbour :
    (exec Sys.init sched_before_putdown).map
        (fun s => (s.loc 1, s.loc 0, s.table.stateOf 1, s.table.stateOf (left_neighbour 1),
          s.table.stateOf (left_neighbour (left_neighbour 1)),
          (putdown_forks 1 s.table).stateOf 1,
          (putdown_forks 1 s.table).stateOf (left_neighbour 1))) =
      some (.putdown, .pickupWait, .EATING, .HUNGRY, .THINKING, .THINKING, .HUNGRY) ∧
    left_neighbour 1 = 0 ∧ left_neighbour (left_neighbour 1) = 4 ∧
    left_fork 1 = 1 ∧ right_fork 1 = 2 := by
  refine ⟨rfl, ?_, ?_, ?_, ?_⟩ <;> decide

/-! ## Postcondition of `pickup_forks` (C4) -/

theorem pickup_wait_loop_some (i : PhilId) (wakes : List DiningTable) :
    ∀ (t t1 : DiningTable), pickup_wait_loop i t wakes = some t1 →
      pickup_must_wait i t1 = false ∧ t1 ∈ t :: wakes := by
  induction wakes with
  | nil =>
    intro t t1 h
    unfold pickup_wait_loop at h
    by_cases hw : pickup_must_wait i t = true
    · simp [hw] at h
    · simp [hw] at h
      subst h
      simp [hw]
  | cons w ws ih =>
    intro t t1 h
    unfold pickup_wait_loop at h
    by_cases hw : pickup_must_wait i t = true
    · simp [hw] at h
      have := ih w t1 h
      exact ⟨this.1, List.mem_cons_of_mem _ this.2⟩
    · simp [hw] at h
      subst h
      simp [hw]

theorem pickup_wait_loop_returns (i : PhilId) (wakes : List DiningTable) :
    ∀ (t : DiningTable), (∃ w ∈ t :: wakes, pickup_must_wait i w = false) →
      ∃ t1, pickup_wait_loop i t wakes = some t1 := by
  induction wakes with
  | nil =>
    intro t h
    obtain ⟨w, hw, hf⟩ := h
    simp at hw
    subst hw
    exact ⟨w, by unfold pickup_wait_loop; simp [hf]⟩
  | cons w ws ih =>
    intro t h
    by_cases ht : pickup_must_wait i t = true
    · obtain ⟨x, hx, hf⟩ := h
      have hx1 : x ∈ w :: ws := by
        rcases List.mem_cons.1 hx with hx0 | hx0
        · subst hx0; rw [ht] at hf; cases hf
        · exact hx0
      obtain ⟨t1, h1⟩ := ih w ⟨x, hx1, hf⟩
      exact ⟨t1, by unfold pickup_wait_loop; simp [ht, h1]⟩
    · exact ⟨t, by unfold pickup_wait_loop; simp [ht]⟩

theorem pickup_must_wait_false_iff (i : PhilId) (t : DiningTable) :
    pickup_must_wait i t = false ↔ (t.stateOf i = .EATING ∨ t.simulation_running = false) := by
  unfold pickup_must_wait
  cases hr : t.simulation_running <;> simp

/-- C4 as stated fails: on `table_stopped_neighbour_eating` (stop flag set, philosopher 1
EATING) `pickup_forks(0)` returns at once, without any wake-up, and philosopher 0 is
HUNGRY, not EATING, at the return. -/
theorem pickup_forks_returns_hungry_when_stopped :
    (pickup_forks 0 table_stopped_neighbour_eating []).map
        (fun t => (t.stateOf 0, t.simulation_running)) =
      some (.HUNGRY, false) := by
  decide

/-- C4 (amended): `pickup_forks(id)` sets `state[id]` to HUNGRY and runs the transition test
for `id` (its result is the wait loop run on `test_philosopher id (setState id HUNGRY)`); the
table it returns is the first one, among the table after the test and the tables found at the
wake-ups, in which `state[id] == EATING` or the stop flag is set, so whenever it returns,
`state[id] == EATING` or `simulation_running` is false; and it does return as soon as such a
table occurs. -/
theorem pickup_forks_post (id : PhilId) (table : DiningTable) (wakes : List DiningTable) :
    pickup_forks id table wakes =
      pickup_wait_loop id (test_philosopher id (table.setState id .HUNGRY)) wakes ∧
    (∀ t1, pickup_forks id table wakes = some t1 →
      (t1.stateOf id = .EATING ∨ t1.simulation_running = false) ∧
      t1 ∈ test_philosopher id (table.setState id .HUNGRY) :: wakes) ∧
    ((∃ w ∈ test_philosopher id (table.setState id .HUNGRY) :: wakes,
        w.stateOf id = .EATING ∨ w.simulation_running = false) →
      ∃ t1, pickup_forks id table wakes = some t1) := by
  refine ⟨rfl, ?_, ?_⟩
  · intro t1 h
    have := pickup_wait_loop_some id wakes _ t1 h
    exact ⟨(pickup_must_wait_false_iff id t1).1 this.1, this.2⟩
  · rintro ⟨w, hw, hf⟩
    exact pickup_wait_loop_returns id wakes _ ⟨w, hw, (pickup_must_wait_false_iff id w).2 hf⟩

/-- Witness for C4: from the initial table `pickup_forks(0)` returns, with philosopher 0
EATING; on a table where philosopher 1 eats it returns after a wake-up that finds the stop
flag set. -/
theorem pickup_forks_post_witness :
    (∃ t1, pickup_forks 0 init_dining_table [] = some t1 ∧ t1.stateOf 0 = .EATING) ∧
    (∃ t1, pickup_forks 0 (init_dining_table.setState 1 .EATING)
        [table_stopped_neighbour_eating] = some t1 ∧ t1.simulation_running = false) := by
  constructor
  · obtain ⟨t1, h1⟩ := (pickup_forks_post 0 init_dining_table []).2.2
      ⟨_, List.mem_cons_self _ _, Or.inl (by decide)⟩
    refine ⟨t1, h1, ?_⟩
    have h2 := ((pickup_forks_post 0 init_dining_table []).2.1 t1 h1).1
    rcases h2 with h2 | h2
    · exact h2
    · have h3 := ((pickup_forks_post 0 init_dining_table []).2.1 t1 h1).2
      simp at h3
      subst h3
      simp at h2
      exact absurd h2 (by decide)
  · obtain ⟨t1, h1⟩ := (pickup_forks_post 0 (init_dining_table.setState 1 .EATING)
      [table_stopped_neighbour_eating]).2.2
      ⟨table_stopped_neighbour_eating, by simp, Or.inr rfl⟩
    refine ⟨t1, h1, ?_⟩
    have h3 := ((pickup_forks_post 0 (init_dining_table.setState 1 .EATING)
      [table_stopped_neighbour_eating]).2.1 t1 h1)
    rcases h3.1 with h2 | h2
    · have hm := h3.2
      simp at hm
      rcases hm with hm | hm
      · subst hm
        exact absurd h2 (by decide)
      · subst hm; rfl
    · exact h2

/-! ## Invariants of the interleaving (C5, C6, C7) -/

theorem sum_update_aux {α : Type} (g : α → Nat) (f : PhilId → α) (i : PhilId) (v : α) :
    (∑ j : PhilId, g (Function.update f i v j)) + g (f i) = (∑ j : PhilId, g (f j)) + g v := by
  have h1 := Finset.add_sum_erase Finset.univ (fun j => g (Function.update f i v j))
    (Finset.mem_univ i)
  have h2 := Finset.add_sum_erase Finset.univ (fun j => g (f j)) (Finset.mem_univ i)
  have h3 : ∑ x ∈ Finset.univ.erase i, g (Function.update f i v x) =
      ∑ x ∈ Finset.univ.erase i, g (f x) := by
    apply Finset.sum_congr rfl
    intro x hx
    rw [Function.update_noteq (Finset.ne_of_mem_erase hx)]
  beta_reduce at h1 h2
  rw [Function.update_same] at h1
  omega

theorem countLoc_update (p : Loc → Bool) (t : DiningTable) (s : Sys) (i : PhilId) (l : Loc) :
    countLoc p { table := t, loc := Function.update s.loc i l } +
        (if p (s.loc i) then 1 else 0) =
      countLoc p s + (if p l then 1 else 0) := by
  unfold countLoc
  exact sum_update_aux (fun x => if p x then 1 else 0) s.loc i l

theorem countLoc_table (p : Loc → Bool) (t : DiningTable) (s : Sys) :
    countLoc p { table := t, loc := s.loc } = countLoc p s := rfl

theorem countLoc_le (p : Loc → Bool) (s : Sys) : countLoc p s ≤ NUM_PHILOSOPHERS := by
  unfold countLoc
  have h : ∀ i ∈ (Finset.univ : Finset PhilId), (if p (s.loc i) then 1 else 0) ≤ 1 := by
    intro i _
    split <;> simp
  have := Finset.sum_le_sum h
  simpa using this

theorem countLoc_eq_zero_iff (p : Loc → Bool) (s : Sys) :
    countLoc p s = 0 ↔ ∀ i, p (s.loc i) = false := by
  unfold countLoc
  rw [Finset.sum_eq_zero_iff]
  constructor
  · intro h i
    have := h i (Finset.mem_univ i)
    by_cases hp : p (s.loc i) = true
    · simp [hp] at this
    · simpa using hp
  · intro h i _
    simp [h i]

@[simp]
theorem sumEatingCount_setState (t : DiningTable) (i : PhilId) (x : PhilosopherState) :
    sumEatingCount (t.setState i x) = sumEatingCount t := by
  simp [sumEatingCount]

@[simp]
theorem sumEatingCount_test_philosopher (t : DiningTable) (i : PhilId) :
    sumEatingCount (test_philosopher i t) = sumEatingCount t := by
  simp [sumEatingCount]

@[simp]
theorem sumEatingCount_think_time (t : DiningTable) (i : PhilId) (r : Nat) :
    sumEatingCount (think_time i r t) = sumEatingCount t := by
  unfold sumEatingCount think_time
  apply Finset.sum_congr rfl
  intro j _
  by_cases h : j = i
  · subst h; simp
  · simp [Function.update_noteq h]

theorem sumEatingCount_eat_count (t : DiningTable) (i : PhilId) (r : Nat) :
    sumEatingCount (eat_count i r t) = sumEatingCount t + 1 := by
  unfold sumEatingCount eat_count
  have h := sum_update_aux (fun x : Philosopher => x.eating_count) t.philosophers i
    { t.philosophers i with
      eating_count := (t.philosophers i).eating_count + 1
      total_eating_time := (t.philosophers i).total_eating_time +
        (EATING_TIME_MS + r % EATING_TIME_MS) }
  simp only at h ⊢
  omega

theorem countLoc_ge (p : Loc → Bool) (s : Sys) (i : PhilId) :
    (if p (s.loc i) then 1 else 0) ≤ countLoc p s := by
  unfold countLoc
  exact Finset.single_le_sum (f := fun j => if p (s.loc j) then 1 else 0)
    (fun _ _ => Nat.zero_le _) (Finset.mem_univ i)

theorem countLoc_update_eq (p : Loc → Bool) (t : DiningTable) (s : Sys) (i : PhilId) (l : Loc) :
    countLoc p { table := t, loc := Function.update s.loc i l } =
      countLoc p s - (if p (s.loc i) then 1 else 0) + (if p l then 1 else 0) := by
  have h1 := countLoc_update p t s i l
  have h2 := countLoc_ge p s i
  omega

theorem sem_wait_some (t t1 : DiningTable) (h : sem_wait t = some t1) :
    0 < t.dining_room ∧ t1 = { t with dining_room := t.dining_room - 1 } := by
  unfold sem_wait at h
  split at h
  · simp only [Option.some.injEq] at h
    exact ⟨by assumption, h.symm⟩
  · cases h

theorem threadStep_inv (i : PhilId) (r : Nat) (s s1 : Sys) (h : threadStep i r s = some s1)
    (hinv : InvPermits s ∧ InvMeals s) : InvPermits s1 ∧ InvMeals s1 := by
  obtain ⟨hp, hm⟩ := hinv
  unfold InvPermits at hp ⊢
  unfold InvMeals at hm ⊢
  simp only [NUM_PHILOSOPHERS] at hp ⊢
  have k1 := countLoc_ge Loc.inside s i
  have k2 := countLoc_ge Loc.midEat s i
  cases hl : s.loc i <;> simp only [threadStep, hl] at h <;> rw [hl] at k1 k2 <;>
    simp [Loc.inside, Loc.midEat] at k1 k2
  case loopHead =>
    split at h <;> simp only [Option.some.injEq] at h <;> subst h <;>
      simp [countLoc_update_eq, hl, Loc.inside, Loc.midEat] <;> omega
  case thinkState =>
    simp only [Option.some.injEq] at h
    subst h
    simp [countLoc_update_eq, hl, Loc.inside, Loc.midEat, think_state]
    omega
  case thinkTime =>
    simp only [Option.some.injEq] at h
    subst h
    simp [countLoc_update_eq, hl, Loc.inside, Loc.midEat]
    simp [think_time]
    omega
  case checkStop =>
    split at h <;> simp only [Option.some.injEq] at h <;> subst h <;>
      simp [countLoc_update_eq, hl, Loc.inside, Loc.midEat] <;> omega
  case semWait =>
    split at h
    · cases h
    · rename_i t ht
      obtain ⟨hpos, rfl⟩ := sem_wait_some _ _ ht
      simp only [Option.some.injEq] at h
      subst h
      simp [countLoc_update_eq, hl, Loc.inside, Loc.midEat, sumEatingCount] at hm ⊢
      omega
  case pickupEnter =>
    split at h <;> simp only [Option.some.injEq] at h <;> subst h <;>
      simp [countLoc_update_eq, hl, Loc.inside, Loc.midEat, pickup_forks_enter] <;> omega
  case pickupWait =>
    split at h <;> simp only [Option.some.injEq] at h <;> subst h
    · exact ⟨hp, hm⟩
    · simp [countLoc_update_eq, hl, Loc.inside, Loc.midEat]
      omega
  case eatCount =>
    simp only [Option.some.injEq] at h
    subst h
    simp [countLoc_update_eq, hl, Loc.inside, Loc.midEat, sumEatingCount_eat_count]
    simp [eat_count]
    omega
  case eatStats =>
    simp only [Option.some.injEq] at h
    subst h
    simp [countLoc_update_eq, hl, Loc.inside, Loc.midEat, eat_stats, sumEatingCount] at hm ⊢
    omega
  case putdown =>
    simp only [Option.some.injEq] at h
    subst h
    simp [countLoc_update_eq, hl, Loc.inside, Loc.midEat, putdown_forks]
    omega
  case semPost =>
    simp only [Option.some.injEq] at h
    subst h
    simp [countLoc_update_eq, hl, Loc.inside, Loc.midEat, sem_post, sumEatingCount] at hm ⊢
    omega
  case done => cases h


theorem step_inv (s s1 : Sys) (a : Action) (h : step s a = some s1)
    (hinv : InvPermits s ∧ InvMeals s) : InvPermits s1 ∧ InvMeals s1 := by
  cases a with
  | run i r => exact threadStep_inv i r s s1 h hinv
  | stop =>
    simp only [step, Option.some.injEq] at h
    subst h
    exact hinv

theorem exec_invariant (P : Sys → Prop)
    (hstep : ∀ s a s1, P s → step s a = some s1 → P s1) :
    ∀ (sched : List Action) (s s1 : Sys), P s → exec s sched = some s1 → P s1 := by
  intro sched
  induction sched with
  | nil =>
    intro s s1 hP h
    simp only [exec, Option.some.injEq] at h
    subst h
    exact hP
  | cons a rest ih =>
    intro s s1 hP h
    unfold exec at h
    split at h
    · cases h
    · rename_i s2 hs2
      exact ih s2 s1 (hstep s a s2 hP hs2) h

theorem init_inv : InvPermits Sys.init ∧ InvMeals Sys.init := by
  constructor
  · unfold InvPermits countLoc
    simp [Sys.init, init_dining_table, Loc.inside]
  · unfold InvMeals countLoc sumEatingCount
    simp [Sys.init, init_dining_table, Loc.midEat]

theorem reachable_inv (s : Sys) (h : Reachable s) : InvPermits s ∧ InvMeals s := by
  obtain ⟨sched, hs⟩ := h
  exact exec_invariant (fun x => InvPermits x ∧ InvMeals x)
    (fun a b c hP hstep => step_inv a c b hstep hP) sched Sys.init s init_inv hs

/-- C5 (admission bound): the `dining_room` counter starts at `NUM_PHILOSOPHERS - 1`, and in
every state reachable from the initialised table by the threads running `philosopher_life`
(hence `semaphore_solution`), at most `NUM_PHILOSOPHERS - 1` threads are between their
`sem_wait` and their `sem_post`. -/
theorem admission_bound (s : Sys) (h : Reachable s) :
    Sys.init.table.dining_room = NUM_PHILOSOPHERS - 1 ∧
    countLoc Loc.inside s ≤ NUM_PHILOSOPHERS - 1 := by
  have hp := (reachable_inv s h).1
  unfold InvPermits at hp
  refine ⟨rfl, ?_⟩
  omega

/-- Witness for C5: after `sched_four_admitted` four threads are inside, no permit is left
and the fifth thread is blocked at `sem_wait`. -/
theorem admission_bound_witness :
    Reachable (after sched_four_admitted) ∧
    countLoc Loc.inside (after sched_four_admitted) = 4 ∧
    (after sched_four_admitted).table.dining_room = 0 ∧
    (exec Sys.init (sched_four_admitted ++ runs 4 5)).isSome = false ∧
    countLoc Loc.inside (after sched_four_admitted) ≤ NUM_PHILOSOPHERS - 1 :=
  ⟨reachable_after _ (by decide), by decide, by decide, by decide,
    (admission_bound (after sched_four_admitted) (reachable_after _ (by decide))).2⟩

/-- C6 (permit conservation): in every reachable state the permits left in `dining_room`
plus the number of threads inside `semaphore_solution` (holding a permit: after the return of
`sem_wait`, before `sem_post`, whichever path they take through `pickup_forks`) equal
`NUM_PHILOSOPHERS - 1`; hence the permit count never exceeds `NUM_PHILOSOPHERS - 1` and
is exactly `NUM_PHILOSOPHERS - 1` when no thread is inside. -/
theorem permit_conservation (s : Sys) (h : Reachable s) :
    s.table.dining_room + countLoc Loc.inside s = NUM_PHILOSOPHERS - 1 ∧
    s.table.dining_room ≤ NUM_PHILOSOPHERS - 1 ∧
    ((∀ i, (s.loc i).inside = false) → s.table.dining_room = NUM_PHILOSOPHERS - 1) := by
  have hp := (reachable_inv s h).1
  unfold InvPermits at hp
  refine ⟨hp, by omega, ?_⟩
  intro hall
  have := (countLoc_eq_zero_iff Loc.inside s).2 hall
  omega

/-- Witness for C6: after `sched_stop_while_blocked` (the stop flag ends the wait of
philosopher 0 inside `pickup_forks`, philosopher 0 then leaves `semaphore_solution`) one
thread is inside and 3 permits are left. -/
theorem permit_conservation_witness :
    Reachable (after sched_stop_while_blocked) ∧
    (after sched_stop_while_blocked).loc 0 = .done ∧
    (after sched_stop_while_blocked).table.dining_room = 3 ∧
    (after sched_stop_while_blocked).table.dining_room +
      countLoc Loc.inside (after sched_stop_while_blocked) = NUM_PHILOSOPHERS - 1 :=
  ⟨reachable_after _ (by decide), by decide, by decide,
    (permit_conservation (after sched_stop_while_blocked) (reachable_after _ (by decide))).1⟩

/-- C7 (counter consistency): in every reachable state in which no thread is inside `eat`,
`total_meals_served` equals the sum of `eating_count` over all philosophers. -/
theorem counter_consistency (s : Sys) (h : Reachable s)
    (hidle : ∀ i, (s.loc i).inEat = false) :
    s.table.total_meals_served = sumEatingCount s.table := by
  have hm := (reachable_inv s h).2
  unfold InvMeals at hm
  have hz : countLoc Loc.midEat s = 0 := by
    rw [countLoc_eq_zero_iff]
    intro i
    have := hidle i
    cases hl : s.loc i <;> simp [hl, Loc.inEat, Loc.midEat] at this ⊢
  omega

/-- Witness for C7: after one complete iteration of philosopher 0 nobody is inside `eat`
and both counters are 1. -/
theorem counter_consistency_witness :
    Reachable (after sched_one_meal) ∧
    (∀ i, ((after sched_one_meal).loc i).inEat = false) ∧
    (after sched_one_meal).table.total_meals_served = 1 ∧
    (after sched_one_meal).table.total_meals_served =
      sumEatingCount (after sched_one_meal).table :=
  ⟨reachable_after _ (by decide), by decide, by decide,
    counter_consistency (after sched_one_meal) (reachable_after _ (by decide)) (by decide)⟩

/-! ## Stop flag (C8, C9) -/

/-- C8 (early stop does not complete the cycle) evaluated on the code: after `sched_blocked`
philosopher 0 is blocked HUNGRY in `pickup_forks` (philosopher 1 is EATING) with
`eating_count == 0` and `total_meals_served == 0`; when the stop flag is then set and
philosopher 0 is woken (`sched_stop_while_blocked`), it leaves the wait loop still HUNGRY,
executes `eat` and returns from `philosopher_life` with `eating_count == 1` and
`total_meals_served == 1`. -/
theorem stop_while_blocked_still_eats :
    (exec Sys.init sched_blocked).map
        (fun s => (s.loc 0, s.table.stateOf 0, s.table.stateOf 1,
          (s.table.philosophers 0).eating_count, s.table.total_meals_served)) =
      some (.pickupWait, .HUNGRY, .EATING, 0, 0) ∧
    (exec Sys.init (sched_blocked ++ [.stop] ++ runs 0 1)).map
        (fun s => (s.loc 0, s.table.stateOf 0, s.table.simulation_running)) =
      some (.eatCount, .HUNGRY, false) ∧
    sched_stop_while_blocked = sched_blocked ++ [.stop] ++ runs 0 1 ++ runs 0 5 ∧
    (exec Sys.init sched_stop_while_blocked).map
        (fun s => (s.loc 0, (s.table.philosophers 0).eating_count,
          s.table.total_meals_served)) =
      some (.done, 1, 1) := by
  refine ⟨?_, ?_, ?_, ?_⟩ <;> decide

theorem step_invStopped (s s1 : Sys) (a : Action) (hinv : InvStopped s)
    (h : step s a = some s1) : InvStopped s1 := by
  obtain ⟨hrun, hall, htot, hroom⟩ := hinv
  cases a with
  | stop =>
    simp only [step, Option.some.injEq] at h
    subst h
    exact ⟨rfl, hall, htot, hroom⟩
  | run i r =>
    simp only [step] at h
    rcases (hall i).2.2 with hl | hl
    · simp [threadStep, hl, hrun] at h
      subst h
      refine ⟨hrun, ?_, htot, hroom⟩
      intro j
      refine ⟨(hall j).1, (hall j).2.1, ?_⟩
      by_cases hj : j = i
      · subst hj; simp
      · simp [Function.update_noteq hj, (hall j).2.2]
    · simp [threadStep, hl] at h

theorem invStopped_init : InvStopped Sys.stoppedInit := by
  refine ⟨rfl, ?_, rfl, rfl⟩
  intro i
  exact ⟨rfl, rfl, Or.inl rfl⟩

/-- C9 (stop before start): `Sys.stoppedInit` is the state after `init_dining_table` followed
by the setting of the stop flag. In every state reachable from it, every philosopher is
THINKING (it never became HUNGRY) with `eating_count == 0`, `total_meals_served == 0`, the
semaphore holds `NUM_PHILOSOPHERS - 1` permits, and every thread either has returned from
`philosopher_life` or returns at its next action, which is always enabled. -/
theorem stop_before_start (s : Sys) (h : ReachableFrom Sys.stoppedInit s) :
    exec Sys.init [.stop] = some Sys.stoppedInit ∧
    (∀ i, s.table.stateOf i = .THINKING ∧ (s.table.philosophers i).eating_count = 0) ∧
    s.table.total_meals_served = 0 ∧
    s.table.dining_room = NUM_PHILOSOPHERS - 1 ∧
    (∀ i, s.loc i = .done ∨
      ∀ r, ∃ s1, step s (.run i r) = some s1 ∧ s1.loc i = .done ∧
        (s1.table.philosophers i).eating_count = 0) := by
  obtain ⟨sched, hs⟩ := h
  have hinv : InvStopped s :=
    exec_invariant InvStopped (fun a b c hP hstep => step_invStopped a c b hP hstep)
      sched Sys.stoppedInit s invStopped_init hs
  obtain ⟨hrun, hall, htot, hroom⟩ := hinv
  refine ⟨rfl, fun i => ⟨(hall i).1, (hall i).2.1⟩, htot, hroom, ?_⟩
  intro i
  rcases (hall i).2.2 with hl | hl
  · right
    intro r
    refine ⟨{ s with loc := Function.update s.loc i .done }, ?_, ?_, ?_⟩
    · simp [step, threadStep, hl, hrun]
    · simp
    · exact (hall i).2.1
  · exact Or.inl hl

/-- Witness for C9: from `Sys.stoppedInit` the schedule `sched_all_start` is executable and
leads to a state in which every thread has returned, with no meal eaten and 4 permits. -/
theorem stop_before_start_witness :
    (∃ s, exec Sys.stoppedInit sched_all_start = some s ∧
      (∀ i, s.loc i = .done) ∧
      (∀ i, s.table.stateOf i = .THINKING ∧ (s.table.philosophers i).eating_count = 0) ∧
      s.table.total_meals_served = 0 ∧ s.table.dining_room = 4) := by
  refine ⟨(exec Sys.stoppedInit sched_all_start).getD Sys.init, rfl, by decide, ?_⟩
  have h := stop_before_start ((exec Sys.stoppedInit sched_all_start).getD Sys.init)
    ⟨sched_all_start, rfl⟩
  exact ⟨h.2.1, h.2.2.1, h.2.2.2.1⟩

/-! ## One philosopher running alone (C10) -/

theorem right_fork_ne (i : PhilId) : right_fork i ≠ i := by
  revert i; decide

theorem think_stateOf_ne (i j : PhilId) (r : Nat) (t : DiningTable) (h : j ≠ i) :
    (think i r t).stateOf j = t.stateOf j := by
  simp [think, think_time, think_state, DiningTable.stateOf, DiningTable.setState,
    Function.update_noteq h]

theorem think_eating_count (i : PhilId) (r : Nat) (t : DiningTable) :
    ((think i r t).philosophers i).eating_count = (t.philosophers i).eating_count := by
  simp [think, think_time, think_state, DiningTable.setState]

theorem think_dining_room (i : PhilId) (r : Nat) (t : DiningTable) :
    (think i r t).dining_room = t.dining_room := rfl

theorem eat_stateOf (i j : PhilId) (r : Nat) (t : DiningTable) :
    (eat i r t).stateOf j = t.stateOf j := by
  by_cases h : j = i
  · subst h; simp [eat, eat_stats, eat_count, DiningTable.stateOf]
  · simp [eat, eat_stats, eat_count, DiningTable.stateOf, Function.update_noteq h]

theorem eat_eating_count (i : PhilId) (r : Nat) (t : DiningTable) :
    ((eat i r t).philosophers i).eating_count = (t.philosophers i).eating_count + 1 := by
  simp [eat, eat_stats, eat_count]

/-- With the philosopher at index `right_fork i` not EATING, the transition test run by
`pickup_forks` promotes `i`. -/
theorem pickup_forks_enter_promotes (i : PhilId) (t : DiningTable)
    (h : t.stateOf (right_fork i) ≠ .EATING) :
    pickup_forks_enter i t = (t.setState i .HUNGRY).setState i .EATING := by
  unfold pickup_forks_enter
  rw [test_philosopher_eq]
  have h1 : (t.setState i .HUNGRY).stateOf (right_fork i) ≠ .EATING := by
    rw [setState_stateOf_ne t i _ _ (right_fork_ne i)]; exact h
  simp [h1]

/-- When all the other philosophers are THINKING, `putdown_forks` promotes nobody. -/
theorem putdown_forks_alone (i : PhilId) (t : DiningTable)
    (h : ∀ j, j ≠ i → t.stateOf j = .THINKING) :
    putdown_forks i t = t.setState i .THINKING := by
  unfold putdown_forks left_fork
  have h1 : test_philosopher i (t.setState i .THINKING) = t.setState i .THINKING := by
    rw [test_philosopher_eq]; simp
  rw [h1, test_philosopher_eq]
  have h2 : (t.setState i .THINKING).stateOf (right_fork i) = .THINKING := by
    rw [setState_stateOf_ne t i _ _ (right_fork_ne i)]; exact h _ (right_fork_ne i)
  simp [h2]

theorem life_cycle_alone (i : PhilId) (t : DiningTable)
    (h : ∀ j, j ≠ i → t.stateOf j = .THINKING) (hperm : 0 < t.dining_room)
    (r1 r2 : Nat) (wakes : List DiningTable) :
    ∃ t1, life_cycle i r1 r2 wakes t = some t1 ∧
      (t1.philosophers i).eating_count = (t.philosophers i).eating_count + 1 ∧
      (∀ j, j ≠ i → t1.stateOf j = .THINKING) ∧ t1.dining_room = t.dining_room := by
  have hth : ∀ j, j ≠ i → (think i r1 t).stateOf j = .THINKING := by
    intro j hj; rw [think_stateOf_ne i j r1 t hj]; exact h j hj
  have hpos : 0 < (think i r1 t).dining_room := hperm
  let t0 : DiningTable :=
    { think i r1 t with dining_room := (think i r1 t).dining_room - 1 }
  have hsem : sem_wait (think i r1 t) = some t0 := by
    unfold sem_wait; simp [hpos, t0]
  have ht0 : ∀ j, j ≠ i → t0.stateOf j = .THINKING := hth
  have hright : t0.stateOf (right_fork i) ≠ .EATING := by
    rw [ht0 _ (right_fork_ne i)]; decide
  have henter := pickup_forks_enter_promotes i t0 hright
  have hpick : pickup_forks i t0 wakes = some ((t0.setState i .HUNGRY).setState i .EATING) := by
    unfold pickup_forks
    rw [henter]
    unfold pickup_wait_loop
    cases wakes <;> simp [pickup_must_wait]
  let t2 : DiningTable := (t0.setState i .HUNGRY).setState i .EATING
  have ht2 : ∀ j, j ≠ i → (eat i r2 t2).stateOf j = .THINKING := by
    intro j hj
    rw [eat_stateOf, setState_stateOf_ne _ i j _ hj, setState_stateOf_ne _ i j _ hj]
    exact ht0 j hj
  refine ⟨sem_post (putdown_forks i (eat i r2 t2)), ?_, ?_, ?_, ?_⟩
  · unfold life_cycle semaphore_solution
    simp [hsem, hpick, t2]
  · rw [putdown_forks_alone i _ ht2]
    simp only [sem_post, setState_eating_count]
    rw [eat_eating_count]
    simp only [t2, setState_eating_count, t0]
    rw [think_eating_count]
  · intro j hj
    rw [putdown_forks_alone i _ ht2]
    show ((eat i r2 t2).setState i .THINKING).stateOf j = .THINKING
    rw [setState_stateOf_ne _ i j _ hj]
    exact ht2 j hj
  · rw [putdown_forks_alone i _ ht2]
    simp only [sem_post, setState_dining_room, eat, eat_stats, eat_count, t2, t0]
    rw [think_dining_room]
    omega

theorem life_cycles_alone (i : PhilId) (rs : List (Nat × Nat)) :
    ∀ t : DiningTable, (∀ j, j ≠ i → t.stateOf j = .THINKING) → 0 < t.dining_room →
      ∃ t1, life_cycles i rs t = some t1 ∧
        (t1.philosophers i).eating_count = (t.philosophers i).eating_count + rs.length := by
  induction rs with
  | nil => intro t _ _; exact ⟨t, rfl, rfl⟩
  | cons p rest ih =>
    intro t h hperm
    obtain ⟨r1, r2⟩ := p
    obtain ⟨t1, h1, hc, hth, hroom⟩ := life_cycle_alone i t h hperm r1 r2 []
    obtain ⟨t2, h2, hc2⟩ := ih t1 hth (by omega)
    refine ⟨t2, ?_, ?_⟩
    · simp [life_cycles, h1, h2]
    · rw [hc2, hc, List.length_cons]; omega

/-- C10 (single philosopher in isolation): on a table where every philosopher other than
`id` is THINKING and a permit is available, the transition test inside `pickup_forks(id)`
promotes `id` to EATING and the wait loop is not entered (the loop condition is false, and
`pickup_forks` returns the table left by the test whatever the wake-ups); every cycle
(`think` then `semaphore_solution`) returns, increments `eating_count` of `id` by exactly one
and leaves the others THINKING and the permits unchanged; after `K` cycles `eating_count` has
grown by `K`. -/
theorem single_philosopher_never_blocks (id : PhilId) (table : DiningTable)
    (hothers : ∀ j, j ≠ id → table.stateOf j = .THINKING) (hperm : 0 < table.dining_room) :
    (pickup_forks_enter id table).stateOf id = .EATING ∧
    pickup_must_wait id (pickup_forks_enter id table) = false ∧
    (∀ wakes, pickup_forks id table wakes = some (pickup_forks_enter id table)) ∧
    (∀ r1 r2 wakes, ∃ t1, life_cycle id r1 r2 wakes table = some t1 ∧
      (t1.philosophers id).eating_count = (table.philosophers id).eating_count + 1 ∧
      (∀ j, j ≠ id → t1.stateOf j = .THINKING) ∧ t1.dining_room = table.dining_room) ∧
    (∀ rs : List (Nat × Nat), ∃ t1, life_cycles id rs table = some t1 ∧
      (t1.philosophers id).eating_count = (table.philosophers id).eating_count + rs.length) := by
  have hright : table.stateOf (right_fork id) ≠ .EATING := by
    rw [hothers _ (right_fork_ne id)]; decide
  have henter := pickup_forks_enter_promotes id table hright
  have hstate : (pickup_forks_enter id table).stateOf id = .EATING := by
    rw [henter]; simp
  have hwait : pickup_must_wait id (pickup_forks_enter id table) = false := by
    simp [pickup_must_wait, hstate]
  refine ⟨hstate, hwait, ?_, ?_, ?_⟩
  · intro wakes
    unfold pickup_forks pickup_wait_loop
    cases wakes <;> simp [hwait]
  · intro r1 r2 wakes
    exact life_cycle_alone id table hothers hperm r1 r2 wakes
  · intro rs
    exact life_cycles_alone id rs table hothers hperm

/-- Witness for C10: from the initial table philosopher 0, running alone, has
`eating_count == 3` after three cycles (and `eating_count == 1 > 0` after the first). -/
theorem single_philosopher_never_blocks_witness :
    (∀ j, j ≠ (0 : PhilId) → init_dining_table.stateOf j = .THINKING) ∧
    0 < init_dining_table.dining_room ∧
    (∃ t1, life_cycles 0 [(7, 3)] init_dining_table = some t1 ∧
      (t1.philosophers 0).eating_count = 1) ∧
    (∃ t1, life_cycles 0 [(7, 3), (1, 4), (0, 9)] init_dining_table = some t1 ∧
      (t1.philosophers 0).eating_count = 3) := by
  have h := single_philosopher_never_blocks 0 init_dining_table (by decide) (by decide)
  refine ⟨by decide, by decide, ?_, ?_⟩
  · obtain ⟨t1, h1, h2⟩ := h.2.2.2.2 [(7, 3)]
    exact ⟨t1, h1, by simpa [init_dining_table] using h2⟩
  · obtain ⟨t1, h1, h2⟩ := h.2.2.2.2 [(7, 3), (1, 4), (0, 9)]
    exact ⟨t1, h1, by simpa [init_dining_table] using h2⟩

/-! ## Initialisation (C12, C13) -/

/-- Outcome of `init_dining_table` for every failure pattern: the result is 0 or -1, it is -1
exactly when some primitive fails, the primitives initialised are those that precede the
first failing one, on failure the destroyed primitives are the initialised ones, each once,
all destroyed after the initialisations; on success the table is `init_dining_table`. -/
theorem init_dining_table_run_spec (fails : Prim → Bool) (t0 : DiningTable) :
    ((init_dining_table_run fails t0).ret = 0 ∨ (init_dining_table_run fails t0).ret = -1) ∧
    ((init_dining_table_run fails t0).ret = -1 ↔ all_prims.any fails = true) ∧
    initialised (init_dining_table_run fails t0).events =
      all_prims.takeWhile (fun p => !fails p) ∧
    ((init_dining_table_run fails t0).ret = -1 →
      (destroyed (init_dining_table_run fails t0).events).Perm
        (initialised (init_dining_table_run fails t0).events) ∧
      (destroyed (init_dining_table_run fails t0).events).Nodup ∧
      (init_dining_table_run fails t0).events =
        (initialised (init_dining_table_run fails t0).events).map .init ++
        (destroyed (init_dining_table_run fails t0).events).map .destroy) ∧
    ((init_dining_table_run fails t0).ret = 0 →
      (init_dining_table_run fails t0).table = init_dining_table) := by
  unfold init_dining_table_run all_prims
  cases h0 : fails (.fork 0)
  case true =>
    simp [List.find?, inits, destroys, destroy_conds_forks, initialised, destroyed,
      List.takeWhile, List.range, List.range.loop, *]
  cases h1 : fails (.fork 1)
  case true =>
    simp [List.find?, inits, destroys, destroy_conds_forks, initialised, destroyed,
      List.takeWhile, List.range, List.range.loop, *]
  cases h2 : fails (.fork 2)
  case true =>
    simp [List.find?, inits, destroys, destroy_conds_forks, initialised, destroyed,
      List.takeWhile, List.range, List.range.loop, *]
  cases h3 : fails (.fork 3)
  case true =>
    simp [List.find?, inits, destroys, destroy_conds_forks, initialised, destroyed,
      List.takeWhile, List.range, List.range.loop, *]
  cases h4 : fails (.fork 4)
  case true =>
    simp [List.find?, inits, destroys, destroy_conds_forks, initialised, destroyed,
      List.takeWhile, List.range, List.range.loop, *]
  cases h5 : fails (.state_mutex)
  case true =>
    simp [List.find?, inits, destroys, destroy_conds_forks, initialised, destroyed,
      List.takeWhile, List.range, List.range.loop, *]
  cases h6 : fails (.condition 0)
  case true =>
    simp [List.find?, inits, destroys, destroy_conds_forks, initialised, destroyed,
      List.takeWhile, List.range, List.range.loop, *]
    all_goals decide
  cases h7 : fails (.condition 1)
  case true =>
    simp [List.find?, inits, destroys, destroy_conds_forks, initialised, destroyed,
      List.takeWhile, List.range, List.range.loop, *]
    all_goals decide
  cases h8 : fails (.condition 2)
  case true =>
    simp [List.find?, inits, destroys, destroy_conds_forks, initialised, destroyed,
      List.takeWhile, List.range, List.range.loop, *]
    all_goals decide
  cases h9 : fails (.condition 3)
  case true =>
    simp [List.find?, inits, destroys, destroy_conds_forks, initialised, destroyed,
      List.takeWhile, List.range, List.range.loop, *]
    all_goals decide
  cases h10 : fails (.condition 4)
  case true =>
    simp [List.find?, inits, destroys, destroy_conds_forks, initialised, destroyed,
      List.takeWhile, List.range, List.range.loop, *]
    all_goals decide
  cases h11 : fails (.dining_room)
  case true =>
    simp [List.find?, inits, destroys, destroy_conds_forks, initialised, destroyed,
      List.takeWhile, List.range, List.range.loop, *]
    all_goals decide
  cases h12 : fails (.stats_mutex)
  case true =>
    simp [List.find?, inits, destroys, destroy_conds_forks, initialised, destroyed,
      List.takeWhile, List.range, List.range.loop, *]
    all_goals decide
  simp [List.find?, inits, destroys, destroy_conds_forks, initialised, destroyed,
    List.takeWhile, List.range, List.range.loop, *]
  rfl

/-- C12 (initial state): whenever `init_dining_table` returns 0, the table is
`init_dining_table`: for every `i`, `philosophers[i].id == i`, the state is THINKING,
`eating_count` and both cumulative times are 0; `total_meals_served == 0`,
`simulation_running` is true and the `dining_room` semaphore holds `NUM_PHILOSOPHERS - 1`
permits, whatever the table contained before; and it does return 0 when no primitive
initialisation fails. -/
theorem init_dining_table_initial_state (fails : Prim → Bool) (t0 : DiningTable) :
    ((init_dining_table_run fails t0).ret = 0 →
      (∀ i : PhilId,
        ((init_dining_table_run fails t0).table.philosophers i).id = i.val ∧
        ((init_dining_table_run fails t0).table.philosophers i).state = .THINKING ∧
        ((init_dining_table_run fails t0).table.philosophers i).eating_count = 0 ∧
        ((init_dining_table_run fails t0).table.philosophers i).total_thinking_time = 0 ∧
        ((init_dining_table_run fails t0).table.philosophers i).total_eating_time = 0) ∧
      (init_dining_table_run fails t0).table.total_meals_served = 0 ∧
      (init_dining_table_run fails t0).table.simulation_running = true ∧
      (init_dining_table_run fails t0).table.dining_room = NUM_PHILOSOPHERS - 1 ∧
      (init_dining_table_run fails t0).table = init_dining_table) ∧
    (all_prims.any fails = false → (init_dining_table_run fails t0).ret = 0) := by
  have hspec := init_dining_table_run_spec fails t0
  constructor
  · intro h
    have ht := hspec.2.2.2.2 h
    rw [ht]
    exact ⟨fun i => ⟨rfl, rfl, rfl, rfl, rfl⟩, rfl, rfl, rfl, rfl⟩
  · intro h
    rcases hspec.1 with h0 | h1
    · exact h0
    · rw [hspec.2.1.1 h1] at h; cases h

/-- Witness for C12: with no failing primitive and arbitrary previous contents of the table,
`init_dining_table` returns 0 and philosopher 3 has id 3, state THINKING and no meal. -/
theorem init_dining_table_initial_state_witness :
    (init_dining_table_run fails_never table_garbage).ret = 0 ∧
    ((init_dining_table_run fails_never table_garbage).table.philosophers 3).id = 3 ∧
    ((init_dining_table_run fails_never table_garbage).table.philosophers 3).state =
      .THINKING ∧
    (init_dining_table_run fails_never table_garbage).table.dining_room = 4 := by
  have h0 : (init_dining_table_run fails_never table_garbage).ret = 0 :=
    (init_dining_table_initial_state fails_never table_garbage).2 (by decide)
  have h := (init_dining_table_initial_state fails_never table_garbage).1 h0
  exact ⟨h0, (h.1 3).1, (h.1 3).2.1, h.2.2.2.1⟩

/-- C13 (atomic initialisation failure): for every failure pattern, `init_dining_table`
returns -1 exactly when some primitive initialisation fails; the primitives initialised are
those that precede the first failing one in program order; and when it returns -1 the
primitives destroyed are exactly the initialised ones (a permutation of them, without
repetition), every destruction coming after all the initialisations. -/
theorem init_failure_unwinds (fails : Prim → Bool) (t0 : DiningTable) :
    ((init_dining_table_run fails t0).ret = -1 ↔ all_prims.any fails = true) ∧
    initialised (init_dining_table_run fails t0).events =
      all_prims.takeWhile (fun p => !fails p) ∧
    ((init_dining_table_run fails t0).ret = -1 →
      (destroyed (init_dining_table_run fails t0).events).Perm
        (initialised (init_dining_table_run fails t0).events) ∧
      (destroyed (init_dining_table_run fails t0).events).Nodup ∧
      (init_dining_table_run fails t0).events =
        (initialised (init_dining_table_run fails t0).events).map .init ++
        (destroyed (init_dining_table_run fails t0).events).map .destroy) :=
  ⟨(init_dining_table_run_spec fails t0).2.1, (init_dining_table_run_spec fails t0).2.2.1,
    (init_dining_table_run_spec fails t0).2.2.2.1⟩

/-- Witness for C13: when only `condition[2]` fails, the call returns -1 after initialising
the five forks, the state mutex and conditions 0 and 1, and destroys conditions 0 and 1, the
state mutex and the five forks. -/
theorem init_failure_unwinds_witness :
    (init_dining_table_run fails_condition_2 table_garbage).ret = -1 ∧
    initialised (init_dining_table_run fails_condition_2 table_garbage).events =
      [.fork 0, .fork 1, .fork 2, .fork 3, .fork 4, .state_mutex, .condition 0,
        .condition 1] ∧
    destroyed (init_dining_table_run fails_condition_2 table_garbage).events =
      [.condition 0, .condition 1, .state_mutex, .fork 0, .fork 1, .fork 2, .fork 3,
        .fork 4] ∧
    (destroyed (init_dining_table_run fails_condition_2 table_garbage).events).Perm
      (initialised (init_dining_table_run fails_condition_2 table_garbage).events) := by
  have h1 : (init_dining_table_run fails_condition_2 table_garbage).ret = -1 :=
    (init_failure_unwinds fails_condition_2 table_garbage).1.2 (by decide)
  exact ⟨h1, by decide, by decide,
    ((init_failure_unwinds fails_condition_2 table_garbage).2.2 h1).1⟩

/-! ## Frame properties of the atomic actions -/

theorem sameCounters_refl (t : DiningTable) : sameCounters t t :=
  ⟨rfl, fun _ => ⟨rfl, rfl, rfl⟩⟩

theorem sameCounters_trans {a b c : DiningTable} (h1 : sameCounters a b)
    (h2 : sameCounters b c) : sameCounters a c :=
  ⟨h1.1.trans h2.1, fun j =>
    ⟨(h1.2 j).1.trans (h2.2 j).1, (h1.2 j).2.1.trans (h2.2 j).2.1,
      (h1.2 j).2.2.trans (h2.2 j).2.2⟩⟩

theorem sameCounters_symm {a b : DiningTable} (h : sameCounters a b) : sameCounters b a :=
  ⟨h.1.symm, fun j => ⟨(h.2 j).1.symm, (h.2 j).2.1.symm, (h.2 j).2.2.symm⟩⟩

theorem sameCounters_setState (t : DiningTable) (i : PhilId) (x : PhilosopherState) :
    sameCounters t (t.setState i x) :=
  ⟨rfl, fun j => ⟨by simp, by simp, by simp⟩⟩

theorem sameCounters_test_philosopher (i : PhilId) (t : DiningTable) :
    sameCounters t (test_philosopher i t) := by
  rw [test_philosopher_eq]
  split
  · exact sameCounters_setState t i _
  · exact sameCounters_refl t

theorem sameCounters_pickup_forks_enter (i : PhilId) (t : DiningTable) :
    sameCounters t (pickup_forks_enter i t) :=
  sameCounters_trans (sameCounters_setState t i _) (sameCounters_test_philosopher i _)

theorem sameCounters_putdown_forks (i : PhilId) (t : DiningTable) :
    sameCounters t (putdown_forks i t) :=
  sameCounters_trans (sameCounters_setState t i _)
    (sameCounters_trans (sameCounters_test_philosopher _ _)
      (sameCounters_test_philosopher _ _))

/-- A call of `test_philosopher` leaves the state of every philosopher unchanged or turns it
from HUNGRY to EATING. -/
theorem test_philosopher_stateOf_cases (k i : PhilId) (t : DiningTable) :
    (test_philosopher k t).stateOf i = t.stateOf i ∨
      (t.stateOf i = .HUNGRY ∧ (test_philosopher k t).stateOf i = .EATING) := by
  rw [test_philosopher_eq]
  split
  · rename_i h
    by_cases hik : i = k
    · subst hik; right; exact ⟨h.1, by simp⟩
    · left; exact setState_stateOf_ne t k i _ hik
  · left; rfl

theorem think_time_stateOf (i j : PhilId) (r : Nat) (t : DiningTable) :
    (think_time i r t).stateOf j = t.stateOf j := by
  by_cases h : j = i
  · subst h; simp [think_time, DiningTable.stateOf]
  · simp [think_time, DiningTable.stateOf, Function.update_noteq h]

theorem think_time_philosophers_ne (i j : PhilId) (r : Nat) (t : DiningTable) (h : j ≠ i) :
    (think_time i r t).philosophers j = t.philosophers j := by
  simp [think_time, Function.update_noteq h]

theorem think_time_eating_count (i j : PhilId) (r : Nat) (t : DiningTable) :
    ((think_time i r t).philosophers j).eating_count = (t.philosophers j).eating_count := by
  by_cases h : j = i
  · subst h; simp [think_time]
  · rw [think_time_philosophers_ne i j r t h]

theorem eat_count_stateOf (i j : PhilId) (r : Nat) (t : DiningTable) :
    (eat_count i r t).stateOf j = t.stateOf j := by
  by_cases h : j = i
  · subst h; simp [eat_count, DiningTable.stateOf]
  · simp [eat_count, DiningTable.stateOf, Function.update_noteq h]

theorem eat_count_philosophers_ne (i j : PhilId) (r : Nat) (t : DiningTable) (h : j ≠ i) :
    (eat_count i r t).philosophers j = t.philosophers j := by
  simp [eat_count, Function.update_noteq h]

theorem eat_count_eating_count_self (i : PhilId) (r : Nat) (t : DiningTable) :
    ((eat_count i r t).philosophers i).eating_count = (t.philosophers i).eating_count + 1 := by
  simp [eat_count]

theorem pickup_forks_enter_stateOf_ne (i j : PhilId) (t : DiningTable) (h : j ≠ i) :
    (pickup_forks_enter i t).stateOf j = t.stateOf j := by
  unfold pickup_forks_enter
  rw [test_philosopher_stateOf_ne i j _ h, setState_stateOf_ne t i j _ h]

theorem pickup_forks_enter_stateOf_self (i : PhilId) (t : DiningTable) :
    (pickup_forks_enter i t).stateOf i = .HUNGRY ∨
      (pickup_forks_enter i t).stateOf i = .EATING := by
  unfold pickup_forks_enter
  rcases test_philosopher_stateOf_cases i i (t.setState i .HUNGRY) with h | h
  · left; rw [h]; simp
  · right; exact h.2

theorem putdown_forks_stateOf_self (i : PhilId) (t : DiningTable) :
    (putdown_forks i t).stateOf i = .THINKING := by
  unfold putdown_forks left_fork
  rw [test_philosopher_stateOf_ne _ _ _ (right_fork_ne i).symm]
  rcases test_philosopher_stateOf_cases i i (t.setState i .THINKING) with h | h
  · rw [h]; simp
  · simp at h

theorem putdown_forks_stateOf_ne (i j : PhilId) (t : DiningTable) (h : j ≠ i) :
    (putdown_forks i t).stateOf j = t.stateOf j ∨
      (t.stateOf j = .HUNGRY ∧ (putdown_forks i t).stateOf j = .EATING) := by
  unfold putdown_forks left_fork
  have h1 : (test_philosopher i (t.setState i .THINKING)).stateOf j = t.stateOf j := by
    rw [test_philosopher_stateOf_ne i j _ h, setState_stateOf_ne t i j _ h]
  rcases test_philosopher_stateOf_cases (right_fork i) j
    (test_philosopher i (t.setState i .THINKING)) with h2 | h2
  · left; rw [h2, h1]
  · right; rw [h1] at h2; exact h2

/-- Effect of an atomic action of thread `j` on the rest of the system: the stop flag is
not changed; for every other philosopher the location of its thread and its counters are
unchanged, and its state is unchanged or goes from HUNGRY to EATING. -/
theorem threadStep_frame (j : PhilId) (r : Nat) (s s1 : Sys)
    (h : threadStep j r s = some s1) :
    s1.table.simulation_running = s.table.simulation_running ∧
    ∀ i, i ≠ j →
      s1.loc i = s.loc i ∧
      (s1.table.philosophers i).eating_count = (s.table.philosophers i).eating_count ∧
      (s1.table.philosophers i).total_thinking_time =
        (s.table.philosophers i).total_thinking_time ∧
      (s1.table.philosophers i).total_eating_time =
        (s.table.philosophers i).total_eating_time ∧
      (s1.table.stateOf i = s.table.stateOf i ∨
        (s.table.stateOf i = .HUNGRY ∧ s1.table.stateOf i = .EATING)) := by
  cases hl : s.loc j <;> simp only [threadStep, hl] at h
  case loopHead =>
    split at h <;> simp only [Option.some.injEq] at h <;> subst h <;>
      exact ⟨rfl, fun i hi => ⟨by simp [Function.update_noteq hi], rfl, rfl, rfl, Or.inl rfl⟩⟩
  case thinkState =>
    simp only [Option.some.injEq] at h
    subst h
    refine ⟨rfl, fun i hi => ⟨by simp [Function.update_noteq hi], ?_, ?_, ?_, Or.inl ?_⟩⟩
    · simp [think_state]
    · simp [think_state]
    · simp [think_state]
    · exact setState_stateOf_ne _ _ _ _ hi
  case thinkTime =>
    simp only [Option.some.injEq] at h
    subst h
    refine ⟨rfl, fun i hi => ⟨by simp [Function.update_noteq hi], ?_, ?_, ?_, Or.inl ?_⟩⟩
    · simp only [think_time_philosophers_ne j i r _ hi]
    · simp only [think_time_philosophers_ne j i r _ hi]
    · simp only [think_time_philosophers_ne j i r _ hi]
    · exact think_time_stateOf _ _ _ _
  case checkStop =>
    split at h <;> simp only [Option.some.injEq] at h <;> subst h <;>
      exact ⟨rfl, fun i hi => ⟨by simp [Function.update_noteq hi], rfl, rfl, rfl, Or.inl rfl⟩⟩
  case semWait =>
    split at h
    · cases h
    · rename_i t ht
      obtain ⟨_, rfl⟩ := sem_wait_some _ _ ht
      simp only [Option.some.injEq] at h
      subst h
      exact ⟨rfl, fun i hi => ⟨by simp [Function.update_noteq hi], rfl, rfl, rfl, Or.inl rfl⟩⟩
  case pickupEnter =>
    have hc := sameCounters_pickup_forks_enter j s.table
    split at h <;> simp only [Option.some.injEq] at h <;> subst h <;>
      exact ⟨by simp [pickup_forks_enter], fun i hi =>
        ⟨by simp [Function.update_noteq hi], ((hc.2 i).1).symm, ((hc.2 i).2.1).symm,
          ((hc.2 i).2.2).symm, Or.inl (pickup_forks_enter_stateOf_ne j i _ hi)⟩⟩
  case pickupWait =>
    split at h <;> simp only [Option.some.injEq] at h <;> subst h
    · exact ⟨rfl, fun i _ => ⟨rfl, rfl, rfl, rfl, Or.inl rfl⟩⟩
    · exact ⟨rfl, fun i hi => ⟨by simp [Function.update_noteq hi], rfl, rfl, rfl, Or.inl rfl⟩⟩
  case eatCount =>
    simp only [Option.some.injEq] at h
    subst h
    refine ⟨rfl, fun i hi => ⟨by simp [Function.update_noteq hi], ?_, ?_, ?_, Or.inl ?_⟩⟩
    · simp only [eat_count_philosophers_ne j i r _ hi]
    · simp only [eat_count_philosophers_ne j i r _ hi]
    · simp only [eat_count_philosophers_ne j i r _ hi]
    · exact eat_count_stateOf _ _ _ _
  case eatStats =>
    simp only [Option.some.injEq] at h
    subst h
    exact ⟨rfl, fun i hi => ⟨by simp [Function.update_noteq hi], rfl, rfl, rfl, Or.inl rfl⟩⟩
  case putdown =>
    have hc := sameCounters_putdown_forks j s.table
    simp only [Option.some.injEq] at h
    subst h
    exact ⟨by simp [putdown_forks], fun i hi =>
      ⟨by simp [Function.update_noteq hi], ((hc.2 i).1).symm, ((hc.2 i).2.1).symm,
        ((hc.2 i).2.2).symm, putdown_forks_stateOf_ne j i _ hi⟩⟩
  case semPost =>
    simp only [Option.some.injEq] at h
    subst h
    exact ⟨rfl, fun i hi => ⟨by simp [Function.update_noteq hi], rfl, rfl, rfl, Or.inl rfl⟩⟩
  case done => cases h

theorem threadStep_invStates_self (i : PhilId) (r : Nat) (s s1 : Sys)
    (h : threadStep i r s = some s1) (hinv : InvStates s) :
    ((s1.loc i).thinking = true → s1.table.stateOf i = .THINKING) ∧
    ((s1.loc i).thinking = false → s1.table.stateOf i ≠ .THINKING) ∧
    (s1.table.simulation_running = true → (s1.loc i).eating = true →
      s1.table.stateOf i = .EATING) ∧
    (s1.table.philosophers i).eating_count ≤ MAX_EATING_CYCLES ∧
    ((s1.loc i).beforeEat = true →
      (s1.table.philosophers i).eating_count < MAX_EATING_CYCLES) ∧
    (s1.table.simulation_running = true → s1.loc i = .done →
      (s1.table.philosophers i).eating_count = MAX_EATING_CYCLES) := by
  obtain ⟨ha, hb, hc, hd, he, hf⟩ := hinv i
  cases hl : s.loc i <;> simp only [threadStep, hl] at h <;>
    simp only [hl, Loc.thinking, Loc.eating, Loc.beforeEat] at ha hb hc he hf
  case loopHead =>
    split at h <;> simp only [Option.some.injEq] at h <;> subst h <;>
      simp_all [Loc.thinking, Loc.eating, Loc.beforeEat]
    intro hr
    rename_i hcond
    have := hcond hr
    omega
  case thinkState =>
    simp only [Option.some.injEq] at h
    subst h
    simp_all [Loc.thinking, Loc.eating, Loc.beforeEat, think_state]
  case thinkTime =>
    simp only [Option.some.injEq] at h
    subst h
    simp_all [Loc.thinking, Loc.eating, Loc.beforeEat, think_time_stateOf,
      think_time_eating_count]
  case checkStop =>
    split at h <;> simp only [Option.some.injEq] at h <;> subst h <;>
      simp_all [Loc.thinking, Loc.eating, Loc.beforeEat]
  case semWait =>
    split at h
    · cases h
    · rename_i t ht
      obtain ⟨_, rfl⟩ := sem_wait_some _ _ ht
      simp only [Option.some.injEq] at h
      subst h
      simp_all [Loc.thinking, Loc.eating, Loc.beforeEat, DiningTable.stateOf]
  case pickupEnter =>
    have hc1 := (sameCounters_pickup_forks_enter i s.table).2 i
    have hs1 := pickup_forks_enter_stateOf_self i s.table
    split at h <;> simp only [Option.some.injEq] at h <;> subst h <;>
      rename_i hw <;>
      simp [pickup_must_wait] at hw <;>
      simp [Loc.thinking, Loc.eating, Loc.beforeEat, ← hc1.1, hd, he]
    · rcases hs1 with h1 | h1 <;> simp [h1]
    · refine ⟨?_, ?_⟩
      · rcases hs1 with h1 | h1 <;> simp [h1]
      · intro hr
        have : (pickup_forks_enter i s.table).simulation_running =
            s.table.simulation_running := by simp [pickup_forks_enter]
        by_contra hne
        have h2 := hw hne
        have h3 : s.table.simulation_running = true := by
          first
            | exact hr
            | exact this ▸ hr
        have h4 : s.table.simulation_running = false := by
          first
            | exact h2
            | exact this ▸ h2
        rw [h3] at h4
        cases h4
  case pickupWait =>
    split at h <;> simp only [Option.some.injEq] at h <;> subst h <;>
      rename_i hw <;>
      simp [pickup_must_wait] at hw
    · simp_all [Loc.thinking, Loc.eating, Loc.beforeEat]
    · simp_all [Loc.thinking, Loc.eating, Loc.beforeEat]
      intro hr
      by_contra hne
      have := hw hne
      rw [hr] at this
      cases this
  case eatCount =>
    simp only [Option.some.injEq] at h
    subst h
    simp_all [Loc.thinking, Loc.eating, Loc.beforeEat, eat_count_stateOf,
      eat_count_eating_count_self]
    exact ⟨fun hr => hc hr, by omega⟩
  case eatStats =>
    simp only [Option.some.injEq] at h
    subst h
    simp_all [Loc.thinking, Loc.eating, Loc.beforeEat, eat_stats, DiningTable.stateOf]
  case putdown =>
    have hc1 := (sameCounters_putdown_forks i s.table).2 i
    simp only [Option.some.injEq] at h
    subst h
    simp [Loc.thinking, Loc.eating, Loc.beforeEat, putdown_forks_stateOf_self, ← hc1.1, hd]
  case semPost =>
    simp only [Option.some.injEq] at h
    subst h
    simp_all [Loc.thinking, Loc.eating, Loc.beforeEat, sem_post, DiningTable.stateOf]
  case done => cases h

theorem threadStep_invStates (j : PhilId) (r : Nat) (s s1 : Sys)
    (h : threadStep j r s = some s1) (hinv : InvStates s) : InvStates s1 := by
  intro i
  by_cases hij : i = j
  · subst hij
    exact threadStep_invStates_self i r s s1 h hinv
  · obtain ⟨hrun, hfr⟩ := threadStep_frame j r s s1 h
    obtain ⟨hloc, hec, _, _, hst⟩ := hfr i hij
    obtain ⟨ha, hb, hc, hd, he, hf⟩ := hinv i
    rw [hloc, hec, hrun]
    refine ⟨?_, ?_, ?_, hd, he, hf⟩
    · intro ht
      have h1 := ha ht
      rcases hst with h2 | h2
      · rw [h2]; exact h1
      · rw [h1] at h2; cases h2.1
    · intro ht
      have h1 := hb ht
      rcases hst with h2 | h2
      · rw [h2]; exact h1
      · rw [h2.2]; decide
    · intro hr he1
      have h1 := hc hr he1
      rcases hst with h2 | h2
      · rw [h2]; exact h1
      · exact h2.2

theorem step_invStates (s s1 : Sys) (a : Action) (h : step s a = some s1)
    (hinv : InvStates s) : InvStates s1 := by
  cases a with
  | run i r => exact threadStep_invStates i r s s1 h hinv
  | stop =>
    simp only [step, Option.some.injEq] at h
    subst h
    intro i
    obtain ⟨ha, hb, _, hd, he, _⟩ := hinv i
    refine ⟨ha, hb, ?_, hd, he, ?_⟩
    · intro hr; simp [request_stop] at hr
    · intro hr; simp [request_stop] at hr

theorem invStates_init : InvStates Sys.init := by
  intro i
  simp [Sys.init, init_dining_table, Loc.thinking, Loc.eating, Loc.beforeEat,
    DiningTable.stateOf, MAX_EATING_CYCLES]

theorem reachable_invStates (s : Sys) (h : Reachable s) : InvStates s := by
  obtain ⟨sched, hs⟩ := h
  exact exec_invariant InvStates (fun a b c hP hstep => step_invStates a c b hstep hP)
    sched Sys.init s invStates_init hs

/-! ## Completed runs (C11) -/

theorem exec_after (sched : List Action) (h : (exec Sys.init sched).isSome = true) :
    exec Sys.init sched = some (after sched) := by
  unfold after
  cases hx : exec Sys.init sched with
  | none => rw [hx] at h; cases h
  | some x => rfl

theorem exec_running_of_no_stop (sched : List Action) :
    ∀ (s s1 : Sys), exec s sched = some s1 → Action.stop ∉ sched →
      s1.table.simulation_running = s.table.simulation_running := by
  induction sched with
  | nil =>
    intro s s1 h _
    simp only [exec, Option.some.injEq] at h
    subst h
    rfl
  | cons a rest ih =>
    intro s s1 h hns
    unfold exec at h
    split at h
    · cases h
    · rename_i s2 hs2
      have h1 := ih s2 s1 h (fun hm => hns (List.mem_cons_of_mem _ hm))
      cases a with
      | stop => exact absurd (List.mem_cons_self _ _) hns
      | run i r =>
        rw [h1]
        exact (threadStep_frame i r s s2 hs2).1

/-- C11 (completed run totals): for every schedule without a `stop` action (the stop flag
is never set) that is executable from the initialised table and after which every thread
has returned from `philosopher_life`, every philosopher has
`eating_count == MAX_EATING_CYCLES` and is THINKING, and
`total_meals_served == NUM_PHILOSOPHERS * MAX_EATING_CYCLES`. -/
theorem completed_run_totals (sched : List Action) (s : Sys)
    (h : exec Sys.init sched = some s) (hnostop : Action.stop ∉ sched)
    (hdone : ∀ i, s.loc i = .done) :
    (∀ i, (s.table.philosophers i).eating_count = MAX_EATING_CYCLES ∧
      s.table.stateOf i = .THINKING) ∧
    s.table.total_meals_served = NUM_PHILOSOPHERS * MAX_EATING_CYCLES := by
  have hreach : Reachable s := ⟨sched, h⟩
  have hrun : s.table.simulation_running = true :=
    exec_running_of_no_stop sched Sys.init s h hnostop
  have hst := reachable_invStates s hreach
  have hec : ∀ i, (s.table.philosophers i).eating_count = MAX_EATING_CYCLES :=
    fun i => (hst i).2.2.2.2.2 hrun (hdone i)
  refine ⟨fun i => ⟨hec i, (hst i).1 (by rw [hdone i]; rfl)⟩, ?_⟩
  have hm := (reachable_inv s hreach).2
  unfold InvMeals at hm
  have hz : countLoc Loc.midEat s = 0 := by
    rw [countLoc_eq_zero_iff]
    intro i
    rw [hdone i]
    rfl
  have hsum : sumEatingCount s.table = NUM_PHILOSOPHERS * MAX_EATING_CYCLES := by
    unfold sumEatingCount
    rw [Finset.sum_congr rfl (fun i _ => hec i)]
    simp
  omega

set_option maxRecDepth 100000 in
/-- Witness for C11: the schedule `sched_all_complete`, in which the five threads run one
after the other, is executable, contains no `stop` and ends with every thread returned;
every philosopher has eaten 5 times and 25 meals were served. -/
theorem completed_run_totals_witness :
    Action.stop ∉ sched_all_complete ∧
    (∀ i, (after sched_all_complete).loc i = .done) ∧
    (∀ i, ((after sched_all_complete).table.philosophers i).eating_count = 5 ∧
      (after sched_all_complete).table.stateOf i = .THINKING) ∧
    (after sched_all_complete).table.total_meals_served = 25 :=
  ⟨by decide, by decide,
    completed_run_totals sched_all_complete (after sched_all_complete)
      (exec_after _ (by decide)) (by decide) (by decide)⟩

/-! ## Cyclic state machine (C14) -/

theorem applyAssigns_append (t : DiningTable) (a b : List Assign) :
    applyAssigns t (a ++ b) = applyAssigns (applyAssigns t a) b := by
  induction a generalizing t with
  | nil => rfl
  | cons x rest ih =>
    obtain ⟨j, v⟩ := x
    simp only [List.cons_append, applyAssigns]
    exact ih _

theorem changes_append (t : DiningTable) (a b : List Assign) :
    changes t (a ++ b) = changes t a ++ changes (applyAssigns t a) b := by
  induction a generalizing t with
  | nil => rfl
  | cons x rest ih =>
    obtain ⟨j, v⟩ := x
    simp only [List.cons_append, changes, applyAssigns]
    split
    · exact ih _
    · exact congrArg (List.cons _) (ih _)

/-- The assignments listed by `test_assigns` are the ones `test_philosopher` makes. -/
theorem applyAssigns_test_assigns (j : PhilId) (t : DiningTable) :
    applyAssigns t (test_assigns j t) = test_philosopher j t := by
  unfold test_assigns test_philosopher
  by_cases hc : t.stateOf j = .HUNGRY ∧ t.stateOf (left_fork j) ≠ .EATING ∧
      t.stateOf (right_fork j) ≠ .EATING
  · simp only [hc, and_self, ↓reduceIte, ne_eq, not_false_eq_true]
    rfl
  · simp only [hc, ↓reduceIte]
    rfl

theorem changes_test_assigns (j : PhilId) (t : DiningTable) :
    ∀ c ∈ changes t (test_assigns j t), c = (j, .HUNGRY, .EATING) := by
  intro c hc
  unfold test_assigns at hc
  split at hc
  · rename_i hcond
    simp only [changes] at hc
    split at hc
    · cases hc
    · simp only [List.mem_singleton] at hc
      rw [hc, hcond.1]
  · cases hc

/-- The assignments listed by `stepAssigns` are the ones the atomic action makes: they lead
to the states of the table after the action. -/
theorem stepAssigns_faithful (i : PhilId) (r : Nat) (s s1 : Sys)
    (h : threadStep i r s = some s1) :
    ∀ j, s1.table.stateOf j = (applyAssigns s.table (stepAssigns i s)).stateOf j := by
  intro j
  cases hl : s.loc i <;> simp only [threadStep, hl] at h <;>
    simp only [stepAssigns, hl, applyAssigns]
  case loopHead =>
    split at h <;> simp only [Option.some.injEq] at h <;> subst h <;> rfl
  case thinkState =>
    simp only [Option.some.injEq] at h
    subst h
    rfl
  case thinkTime =>
    simp only [Option.some.injEq] at h
    subst h
    exact think_time_stateOf _ _ _ _
  case checkStop =>
    split at h <;> simp only [Option.some.injEq] at h <;> subst h <;> rfl
  case semWait =>
    split at h
    · cases h
    · rename_i t ht
      obtain ⟨_, rfl⟩ := sem_wait_some _ _ ht
      simp only [Option.some.injEq] at h
      subst h
      rfl
  case pickupEnter =>
    rw [applyAssigns_test_assigns]
    split at h <;> simp only [Option.some.injEq] at h <;> subst h <;> rfl
  case pickupWait =>
    split at h <;> simp only [Option.some.injEq] at h <;> subst h <;> rfl
  case eatCount =>
    simp only [Option.some.injEq] at h
    subst h
    exact eat_count_stateOf _ _ _ _
  case eatStats =>
    simp only [Option.some.injEq] at h
    subst h
    rfl
  case putdown =>
    simp only [Option.some.injEq] at h
    subst h
    rw [applyAssigns_append, applyAssigns_test_assigns, applyAssigns_test_assigns]
    rfl
  case semPost =>
    simp only [Option.some.injEq] at h
    subst h
    rfl
  case done => cases h

/-- Every change of state made by an atomic action in a state satisfying `InvStates` is a
transition of the cycle, or is HUNGRY to THINKING made with the stop flag set. -/
theorem changes_stepAssigns (i : PhilId) (s : Sys) (hinv : InvStates s) :
    ∀ c ∈ changes s.table (stepAssigns i s),
      allowedChange c.2.1 c.2.2 = true ∨
        (c = (i, .HUNGRY, .THINKING) ∧ s.table.simulation_running = false) := by
  obtain ⟨ha, hb, hc, _, _, _⟩ := hinv i
  intro c hmem
  cases hl : s.loc i <;> simp only [stepAssigns, hl] at hmem <;>
    simp only [hl, Loc.thinking, Loc.eating] at ha hb hc
  case thinkState =>
    simp [changes, ha] at hmem
  case pickupEnter =>
    have h0 : s.table.stateOf i = .THINKING := ha trivial
    simp only [changes, h0] at hmem
    simp only [reduceCtorEq, ↓reduceIte, List.mem_cons] at hmem
    rcases hmem with h1 | h1
    · left; rw [h1]; rfl
    · left; rw [changes_test_assigns _ _ c h1]; rfl
  case putdown =>
    have h0 : s.table.stateOf i ≠ .THINKING := hb trivial
    simp only [changes, h0] at hmem
    simp only [↓reduceIte, List.mem_cons, changes_append, List.mem_append] at hmem
    rcases hmem with h1 | h1 | h1
    · cases hs : s.table.stateOf i with
      | THINKING => exact absurd hs h0
      | EATING => left; rw [h1, hs]; rfl
      | HUNGRY =>
        right
        rw [h1, hs]
        refine ⟨rfl, ?_⟩
        cases hr : s.table.simulation_running with
        | false => rfl
        | true =>
          have := hc hr trivial
          rw [hs] at this
          cases this
    · left; rw [changes_test_assigns _ _ c h1]; rfl
    · left; rw [changes_test_assigns _ _ c h1]; rfl
  all_goals cases hmem

/-- C14 as stated fails: after `sched_stopped_before_putdown` (philosopher 0 released from
the wait in `pickup_forks` by the stop flag while HUNGRY) thread 0 stands before
`putdown_forks`, and the change of state that this action makes is HUNGRY to THINKING,
which is not a transition of the cycle. -/
theorem hungry_to_thinking_after_stop :
    (exec Sys.init sched_stopped_before_putdown).map
        (fun s => (s.loc 0, s.table.simulation_running,
          changes s.table (stepAssigns 0 s))) =
      some (.putdown, false, [(0, .HUNGRY, .THINKING)]) ∧
    allowedChange .HUNGRY .THINKING = false := by
  decide

/-- C14 (amended): in every reachable state, the assignments listed for the next atomic
action of a thread are the ones the action makes; every change of a philosopher's state made
while the stop flag is unset is one of THINKING to HUNGRY, HUNGRY to EATING, EATING to
THINKING; and THINKING to EATING never occurs, whatever the stop flag. -/
theorem state_changes_cyclic (s : Sys) (h : Reachable s) (i : PhilId) :
    (∀ r s1, threadStep i r s = some s1 →
      ∀ j, s1.table.stateOf j = (applyAssigns s.table (stepAssigns i s)).stateOf j) ∧
    (s.table.simulation_running = true →
      ∀ c ∈ changes s.table (stepAssigns i s), allowedChange c.2.1 c.2.2 = true) ∧
    (∀ c ∈ changes s.table (stepAssigns i s),
      ¬ (c.2.1 = .THINKING ∧ c.2.2 = .EATING)) := by
  have hinv := reachable_invStates s h
  refine ⟨fun r s1 hstep => stepAssigns_faithful i r s s1 hstep, ?_, ?_⟩
  · intro hr c hc
    rcases changes_stepAssigns i s hinv c hc with h1 | h1
    · exact h1
    · rw [hr] at h1; cases h1.2
  · intro c hc hte
    rcases changes_stepAssigns i s hinv c hc with h1 | h1
    · rw [hte.1, hte.2] at h1; cases h1
    · rw [h1.1] at hte; cases hte.1

/-- Witness for C14: in the reachable state where thread 0 stands before the critical
section of `pickup_forks` (stop flag unset), the action changes the state of philosopher 0
from THINKING to HUNGRY and then from HUNGRY to EATING. -/
theorem state_changes_cyclic_witness :
    Reachable (after (runs 0 5)) ∧
    (after (runs 0 5)).table.simulation_running = true ∧
    changes (after (runs 0 5)).table (stepAssigns 0 (after (runs 0 5))) =
      [(0, .THINKING, .HUNGRY), (0, .HUNGRY, .EATING)] ∧
    (∀ c ∈ changes (after (runs 0 5)).table (stepAssigns 0 (after (runs 0 5))),
      allowedChange c.2.1 c.2.2 = true) :=
  ⟨reachable_after _ (by decide), by decide, by decide,
    (state_changes_cyclic (after (runs 0 5)) (reachable_after _ (by decide)) 0).2.1
      (by decide)⟩

/-! ## Effect of one cycle on the counters (C17) -/

theorem eat_philosophers_ne (i j : PhilId) (r : Nat) (t : DiningTable) (h : j ≠ i) :
    (eat i r t).philosophers j = t.philosophers j := by
  simp [eat, eat_stats, eat_count, Function.update_noteq h]

theorem eat_total_meals_served (i : PhilId) (r : Nat) (t : DiningTable) :
    (eat i r t).total_meals_served = t.total_meals_served + 1 := rfl

theorem semaphore_solution_some (id : PhilId) (r : Nat) (wakes : List DiningTable)
    (t t1 : DiningTable) (h : semaphore_solution id r wakes t = some t1) :
    0 < t.dining_room ∧
    ∃ t2, pickup_forks id { t with dining_room := t.dining_room - 1 } wakes = some t2 ∧
      t1 = sem_post (putdown_forks id (eat id r t2)) := by
  unfold semaphore_solution at h
  split at h
  · cases h
  · rename_i t0 ht0
    obtain ⟨hpos, rfl⟩ := sem_wait_some _ _ ht0
    split at h
    · cases h
    · rename_i t2 ht2
      simp only [Option.some.injEq] at h
      exact ⟨hpos, t2, ht2, h.symm⟩

/-- C17 (one cycle's effect on counters): whenever `semaphore_solution(id)` returns, with
the counters found at the wake-ups inside `pickup_forks` equal to those at the call (no other
thread changed them meanwhile), `eating_count` of `id` and `total_meals_served` are each
incremented by exactly 1 and `eating_count`, `total_thinking_time` and `total_eating_time`
of every other philosopher are unchanged; in general the same holds relative to the table
`t2` on which `pickup_forks` returned. The call returns when a permit is available and the
transition test promotes `id`. This holds for every value of the stop flag. -/
theorem cycle_effect_on_counters (id : PhilId) (r : Nat) (wakes : List DiningTable)
    (t : DiningTable) :
    (∀ t1, semaphore_solution id r wakes t = some t1 →
      (∃ t2, pickup_forks id { t with dining_room := t.dining_room - 1 } wakes = some t2 ∧
        (t1.philosophers id).eating_count = (t2.philosophers id).eating_count + 1 ∧
        t1.total_meals_served = t2.total_meals_served + 1 ∧
        ∀ j, j ≠ id →
          (t1.philosophers j).eating_count = (t2.philosophers j).eating_count ∧
          (t1.philosophers j).total_thinking_time =
            (t2.philosophers j).total_thinking_time ∧
          (t1.philosophers j).total_eating_time = (t2.philosophers j).total_eating_time) ∧
      ((∀ w ∈ wakes, sameCounters t w) →
        (t1.philosophers id).eating_count = (t.philosophers id).eating_count + 1 ∧
        t1.total_meals_served = t.total_meals_served + 1 ∧
        ∀ j, j ≠ id →
          (t1.philosophers j).eating_count = (t.philosophers j).eating_count ∧
          (t1.philosophers j).total_thinking_time = (t.philosophers j).total_thinking_time ∧
          (t1.philosophers j).total_eating_time = (t.philosophers j).total_eating_time)) ∧
    (0 < t.dining_room →
      (pickup_forks_enter id { t with dining_room := t.dining_room - 1 }).stateOf id =
        .EATING →
      ∃ t1, semaphore_solution id r wakes t = some t1) := by
  constructor
  · intro t1 h
    obtain ⟨_, t2, hp, rfl⟩ := semaphore_solution_some id r wakes t t1 h
    have hput := sameCounters_putdown_forks id (eat id r t2)
    have hgen : ((sem_post (putdown_forks id (eat id r t2))).philosophers id).eating_count =
          (t2.philosophers id).eating_count + 1 ∧
        (sem_post (putdown_forks id (eat id r t2))).total_meals_served =
          t2.total_meals_served + 1 ∧
        ∀ j, j ≠ id →
          ((sem_post (putdown_forks id (eat id r t2))).philosophers j).eating_count =
            (t2.philosophers j).eating_count ∧
          ((sem_post (putdown_forks id (eat id r t2))).philosophers j).total_thinking_time =
            (t2.philosophers j).total_thinking_time ∧
          ((sem_post (putdown_forks id (eat id r t2))).philosophers j).total_eating_time =
            (t2.philosophers j).total_eating_time := by
      refine ⟨?_, ?_, ?_⟩
      · show ((putdown_forks id (eat id r t2)).philosophers id).eating_count = _
        rw [← (hput.2 id).1, eat_eating_count]
      · show (putdown_forks id (eat id r t2)).total_meals_served = _
        rw [← hput.1, eat_total_meals_served]
      · intro j hj
        have he := eat_philosophers_ne id j r t2 hj
        refine ⟨?_, ?_, ?_⟩
        · show ((putdown_forks id (eat id r t2)).philosophers j).eating_count = _
          rw [← (hput.2 j).1, he]
        · show ((putdown_forks id (eat id r t2)).philosophers j).total_thinking_time = _
          rw [← (hput.2 j).2.1, he]
        · show ((putdown_forks id (eat id r t2)).philosophers j).total_eating_time = _
          rw [← (hput.2 j).2.2, he]
    refine ⟨⟨t2, hp, hgen⟩, ?_⟩
    intro hw
    have hmem := (pickup_wait_loop_some id wakes _ t2 hp).2
    have hsame : sameCounters t t2 := by
      rcases List.mem_cons.1 hmem with h1 | h1
      · rw [h1]
        exact sameCounters_trans (⟨rfl, fun _ => ⟨rfl, rfl, rfl⟩⟩ :
            sameCounters t { t with dining_room := t.dining_room - 1 })
          (sameCounters_pickup_forks_enter id _)
      · exact hw t2 h1
    obtain ⟨g1, g2, g3⟩ := hgen
    refine ⟨?_, ?_, ?_⟩
    · rw [g1, (hsame.2 id).1]
    · rw [g2, hsame.1]
    · intro j hj
      obtain ⟨k1, k2, k3⟩ := g3 j hj
      exact ⟨k1.trans (hsame.2 j).1.symm, k2.trans (hsame.2 j).2.1.symm,
        k3.trans (hsame.2 j).2.2.symm⟩
  · intro hpos hst
    have hw : pickup_must_wait id
        (pickup_forks_enter id { t with dining_room := t.dining_room - 1 }) = false :=
      (pickup_must_wait_false_iff id _).2 (Or.inl hst)
    obtain ⟨t2, ht2⟩ := pickup_wait_loop_returns id wakes
      (pickup_forks_enter id { t with dining_room := t.dining_room - 1 })
      ⟨_, List.mem_cons_self _ _, hw⟩
    refine ⟨sem_post (putdown_forks id (eat id r t2)), ?_⟩
    unfold semaphore_solution sem_wait
    simp only [hpos, ↓reduceIte]
    unfold pickup_forks
    rw [ht2]

/-- Witness for C17: from the initial table one cycle of philosopher 2 returns with
`eating_count[2] == 1`, `total_meals_served == 1` and the counters of philosopher 3
unchanged. -/
theorem cycle_effect_on_counters_witness :
    ∃ t1, semaphore_solution 2 7 [] init_dining_table = some t1 ∧
      (t1.philosophers 2).eating_count = 1 ∧ t1.total_meals_served = 1 ∧
      (t1.philosophers 3).eating_count = 0 ∧ (t1.philosophers 3).total_eating_time = 0 := by
  obtain ⟨t1, h1⟩ := (cycle_effect_on_counters 2 7 [] init_dining_table).2
    (by decide) (by decide)
  have h2 := ((cycle_effect_on_counters 2 7 [] init_dining_table).1 t1 h1).2
    (fun w hw => by cases hw)
  exact ⟨t1, h1, h2.1, h2.2.1, (h2.2.2 3 (by decide)).1, (h2.2.2 3 (by decide)).2.2⟩

/-! ## Fixed-order acquisition (C15, C16) -/

theorem left_fork_ne_right_fork (i : PhilId) : left_fork i ≠ right_fork i := by
  revert i; decide

/-- After both locks, unlocking the left fork leaves only the right fork held, and unlocking
the right fork then restores the fork mutexes. -/
theorem unlock_lock_restore (forks : Forks) (a b i : PhilId) (hab : a ≠ b)
    (ha : forks a = none) (hb : forks b = none) :
    mutex_unlock a (Function.update (Function.update forks a (some i)) b (some i)) =
      Function.update forks b (some i) ∧
    mutex_unlock a (Function.update (Function.update forks b (some i)) a (some i)) =
      Function.update forks b (some i) ∧
    mutex_unlock b (Function.update forks b (some i)) = forks := by
  refine ⟨?_, ?_, ?_⟩ <;> funext f <;> unfold mutex_unlock <;>
    by_cases h1 : f = b <;> by_cases h2 : f = a <;>
    simp_all [Function.update_apply]

/-- C16 (fixed-order acquisition order): `left_fork id` is index `id` and `right_fork id`
is index `(id + 1) % N`; the fork locked first is the left one for an even `id` and the
right one for an odd `id`, the fork locked second is the other one. A call of
`asymmetric_solution(id)` is blocked in the lock of its first fork, holding nothing, when
that fork is held; it is blocked in the lock of its second fork, holding the first, when the
first is free and the second is held; and it returns when both are free. When it returns,
its operations are, in order, lock first, lock second, `eat`, unlock left, unlock right: after
the first lock `id` holds the first fork, after the second both, `eat` runs with both held,
after the first unlock only the right fork is held, and at the return every fork mutex is in
the state it had before the call. -/
theorem asymmetric_solution_order (id : PhilId) (r : Nat) (forks : Forks)
    (table : DiningTable) :
    (left_fork id).val = id.val ∧
    (right_fork id).val = (id.val + 1) % NUM_PHILOSOPHERS ∧
    first_fork id = (if id.val % 2 = 0 then left_fork id else right_fork id) ∧
    second_fork id = (if id.val % 2 = 0 then right_fork id else left_fork id) ∧
    (forks (first_fork id) ≠ none →
      asymmetric_solution id r forks table = .blocked (first_fork id) forks) ∧
    (forks (first_fork id) = none → forks (second_fork id) ≠ none →
      asymmetric_solution id r forks table =
        .blocked (second_fork id) (Function.update forks (first_fork id) (some id))) ∧
    (forks (first_fork id) = none → forks (second_fork id) = none →
      asymmetric_solution id r forks table =
        .returned
          { forks := forks
            table := eat id r table
            events :=
              [.lock (first_fork id), .lock (second_fork id), .eat,
                .unlock (left_fork id), .unlock (right_fork id)]
            trace :=
              [(Function.update forks (first_fork id) (some id), table),
                (Function.update (Function.update forks (first_fork id) (some id))
                  (second_fork id) (some id), table),
                (Function.update (Function.update forks (first_fork id) (some id))
                  (second_fork id) (some id), eat id r table),
                (Function.update forks (right_fork id) (some id), eat id r table),
                (forks, eat id r table)] }) := by
  have hne := left_fork_ne_right_fork id
  refine ⟨rfl, rfl, rfl, rfl, ?_, ?_, ?_⟩
  · intro h1
    unfold asymmetric_solution mutex_lock first_fork at *
    by_cases hev : id.val % 2 = 0 <;> simp only [hev, if_true, if_false] at h1 ⊢ <;>
      simp [h1]
  · intro h1 h2
    unfold asymmetric_solution mutex_lock first_fork second_fork at *
    by_cases hev : id.val % 2 = 0 <;> simp only [hev, if_true, if_false] at h1 h2 ⊢ <;>
      simp [h1, h2, Function.update_apply, hne, hne.symm]
  · intro h1 h2
    unfold asymmetric_solution mutex_lock first_fork second_fork at *
    by_cases hev : id.val % 2 = 0 <;> simp only [hev, if_true, if_false] at h1 h2 ⊢
    · have k := unlock_lock_restore forks (left_fork id) (right_fork id) id hne h1 h2
      simp [h1, h2, Function.update_apply, hne, hne.symm]
      rw [k.1, k.2.2]
      exact ⟨rfl, rfl, rfl⟩
    · have k := unlock_lock_restore forks (left_fork id) (right_fork id) id hne h2 h1
      simp [h1, h2, Function.update_apply, hne, hne.symm]
      rw [k.2.1, k.2.2]
      exact ⟨rfl, rfl, rfl⟩

/-- Witness for C16: with all forks free, philosopher 1 (odd) locks fork 2 then fork 1, eats
and returns with all forks free again; with fork 0 held by thread 0, philosopher 4 (even)
locks fork 4 and is blocked in the lock of fork 0, holding fork 4; philosopher 0 (even) is
blocked in the lock of fork 0, holding nothing. -/
theorem asymmetric_solution_order_witness :
    (∃ res, asymmetric_solution 1 3 (fun _ => none) init_dining_table = .returned res ∧
      res.events = [.lock 2, .lock 1, .eat, .unlock 1, .unlock 2] ∧
      res.forks = (fun _ => none) ∧
      res.table = eat 1 3 init_dining_table) ∧
    asymmetric_solution 4 3 forks_zero_held init_dining_table =
      .blocked 0 (Function.update forks_zero_held 4 (some 4)) ∧
    asymmetric_solution 0 3 forks_zero_held init_dining_table = .blocked 0 forks_zero_held := by
  have k1 := (asymmetric_solution_order 1 3 (fun _ => none) init_dining_table).2.2.2.2.2.2
    rfl rfl
  have k4 := (asymmetric_solution_order 4 3 forks_zero_held init_dining_table).2.2.2.2.2.1
    (by decide) (by decide)
  have k0 := (asymmetric_solution_order 0 3 forks_zero_held init_dining_table).2.2.2.2.1
    (by decide)
  exact ⟨⟨_, k1, rfl, rfl, rfl⟩, k4, k0⟩

theorem invForks_lock (s : ASys) (i g : PhilId) (l1 : ALoc) (t : DiningTable)
    (hinv : InvForks s) (hfree : s.forks g = none)
    (hholds : ∀ f, holds l1 i f = (holds (s.loc i) i f || decide (f = g))) :
    InvForks
      { table := t, forks := Function.update s.forks g (some i),
        loc := Function.update s.loc i l1 } := by
  intro f j
  by_cases hj : j = i <;> by_cases hf : f = g
  · subst hj; subst hf
    simp [hholds]
  · subst hj
    simp [hholds, hf, Function.update_noteq hf, hinv f j]
  · subst hf
    have h1 : ¬ holds (s.loc j) j f = true := by
      rw [← hinv f j, hfree]; simp
    simp [Function.update_noteq hj, h1]
    exact fun h => hj h.symm
  · simp [Function.update_noteq hj, Function.update_noteq hf, hinv f j]

theorem invForks_unlock (s : ASys) (i g : PhilId) (l1 : ALoc) (t : DiningTable)
    (hinv : InvForks s) (hheld : holds (s.loc i) i g = true)
    (hholds : ∀ f, holds l1 i f = (holds (s.loc i) i f && !decide (f = g))) :
    InvForks
      { table := t, forks := Function.update s.forks g none,
        loc := Function.update s.loc i l1 } := by
  have hown : s.forks g = some i := (hinv g i).2 hheld
  intro f j
  by_cases hj : j = i <;> by_cases hf : f = g
  · subst hj; subst hf
    simp [hholds]
  · subst hj
    simp [hholds, hf, Function.update_noteq hf, hinv f j]
  · subst hf
    have h1 : ¬ holds (s.loc j) j f = true := by
      rw [← hinv f j, hown]
      simp
      exact fun h => hj h.symm
    simp [Function.update_noteq hj, h1]
  · simp [Function.update_noteq hj, Function.update_noteq hf, hinv f j]

theorem invForks_neutral (s : ASys) (i : PhilId) (l1 : ALoc) (t : DiningTable)
    (hinv : InvForks s) (hholds : ∀ f, holds l1 i f = holds (s.loc i) i f) :
    InvForks { table := t, forks := s.forks, loc := Function.update s.loc i l1 } := by
  intro f j
  by_cases hj : j = i
  · subst hj
    simp [hholds, hinv f j]
  · simp [Function.update_noteq hj, hinv f j]

theorem mutex_lock_some (f i : PhilId) (forks forks1 : Forks)
    (h : mutex_lock f i forks = some forks1) :
    forks f = none ∧ forks1 = Function.update forks f (some i) := by
  unfold mutex_lock at h
  split at h
  · simp only [Option.some.injEq] at h
    exact ⟨by assumption, h.symm⟩
  · cases h

theorem holds_second (i f : PhilId) :
    (decide (f = left_fork i) || decide (f = right_fork i)) =
      (decide (f = first_fork i) || decide (f = second_fork i)) := by
  revert i f; decide

theorem holds_after_unlock_left (i f : PhilId) :
    decide (f = right_fork i) =
      ((decide (f = left_fork i) || decide (f = right_fork i)) &&
        !decide (f = left_fork i)) := by
  revert i f; decide

theorem athreadStep_invForks (i : PhilId) (r : Nat) (s s1 : ASys)
    (h : athreadStep i r s = some s1) (hinv : InvForks s) : InvForks s1 := by
  cases hl : s.loc i <;> simp only [athreadStep, hl] at h
  case start =>
    split at h
    · cases h
    · rename_i f1 hf1
      obtain ⟨hfree, rfl⟩ := mutex_lock_some _ _ _ _ hf1
      simp only [Option.some.injEq] at h
      subst h
      apply invForks_lock s i _ .haveFirst s.table hinv hfree
      intro f
      simp [holds, hl, first_fork]
  case haveFirst =>
    split at h
    · cases h
    · rename_i f1 hf1
      obtain ⟨hfree, rfl⟩ := mutex_lock_some _ _ _ _ hf1
      simp only [Option.some.injEq] at h
      subst h
      apply invForks_lock s i _ .eatCount s.table hinv hfree
      intro f
      rw [hl]
      simp only [holds]
      rw [holds_second]
      rfl
  case eatCount =>
    simp only [Option.some.injEq] at h
    subst h
    exact invForks_neutral s i .eatStats _ hinv (fun f => by rw [hl]; rfl)
  case eatStats =>
    simp only [Option.some.injEq] at h
    subst h
    exact invForks_neutral s i .unlockLeft _ hinv (fun f => by rw [hl]; rfl)
  case unlockLeft =>
    simp only [Option.some.injEq] at h
    subst h
    apply invForks_unlock s i (left_fork i) .unlockRight s.table hinv
    · rw [hl]; simp [holds]
    · intro f
      rw [hl]
      simp only [holds]
      exact holds_after_unlock_left i f
  case unlockRight =>
    simp only [Option.some.injEq] at h
    subst h
    apply invForks_unlock s i (right_fork i) .start s.table hinv
    · rw [hl]; simp [holds]
    · intro f
      rw [hl]
      simp [holds]
  case finished => cases h

theorem astep_invForks (s s1 : ASys) (a : AAction) (h : astep s a = some s1)
    (hinv : InvForks s) : InvForks s1 := by
  cases a with
  | run i r => exact athreadStep_invForks i r s s1 h hinv
  | quit i =>
    simp only [astep] at h
    split at h
    · rename_i hl
      simp only [Option.some.injEq] at h
      subst h
      exact invForks_neutral s i .finished _ hinv (fun f => by rw [hl]; rfl)
    · cases h

theorem areachable_invForks (s : ASys) (h : AReachable s) : InvForks s := by
  obtain ⟨sched, hs⟩ := h
  have key : ∀ (sched : List AAction) (a b : ASys), InvForks a → aexec a sched = some b →
      InvForks b := by
    intro sched
    induction sched with
    | nil =>
      intro a b hP hx
      simp only [aexec, Option.some.injEq] at hx
      subst hx
      exact hP
    | cons x rest ih =>
      intro a b hP hx
      unfold aexec at hx
      split at hx
      · cases hx
      · rename_i a2 ha2
        exact ih a2 b (astep_invForks a a2 x ha2 hP) hx
  refine key sched ASys.init s ?_ hs
  intro f i
  simp [ASys.init, holds]

theorem fork_rank_increases (i : PhilId) :
    fork_rank (first_fork i) < fork_rank (second_fork i) := by
  revert i; decide

theorem fork_rank_lt (f : PhilId) : fork_rank f < NUM_PHILOSOPHERS := by
  revert f; decide

/-- In a state where every unfinished thread is blocked, a thread waiting for fork `f` leads
to another unfinished thread that waits for a fork of higher rank. -/
theorem blocked_chain (s : ASys) (hinv : InvForks s)
    (hdead : ∀ i, s.loc i ≠ .finished → blocked s i = true)
    (i f : PhilId) (hi : s.loc i ≠ .finished) (hw : waitsFor s i = some f) :
    ∃ h g, s.loc h ≠ .finished ∧ waitsFor s h = some g ∧ fork_rank f < fork_rank g := by
  have hb := hdead i hi
  unfold blocked at hb
  rw [hw] at hb
  simp only [Option.isSome_iff_exists] at hb
  obtain ⟨h, hh⟩ := hb
  have hholds := (hinv f h).1 hh
  have hfin : s.loc h ≠ .finished := by
    intro hx; rw [hx] at hholds; cases hholds
  have hbh := hdead h hfin
  unfold blocked waitsFor at hbh
  cases hl : s.loc h <;> rw [hl] at hbh hholds <;> simp [holds] at hbh hholds
  case haveFirst =>
    refine ⟨h, second_fork h, hfin, ?_, ?_⟩
    · simp [waitsFor, hl]
    · rw [hholds]; exact fork_rank_increases h

theorem deadlock_rank_unbounded (s : ASys) (hinv : InvForks s) (hdead : deadlocked s) :
    ∀ n : Nat, ∃ i f, s.loc i ≠ .finished ∧ waitsFor s i = some f ∧ n ≤ fork_rank f := by
  intro n
  induction n with
  | zero =>
    obtain ⟨i, hi⟩ := hdead.1
    have hb := hdead.2 i hi
    unfold blocked at hb
    cases hw : waitsFor s i with
    | none => rw [hw] at hb; cases hb
    | some f => exact ⟨i, f, hi, hw, Nat.zero_le _⟩
  | succ n ih =>
    obtain ⟨i, f, hi, hw, hn⟩ := ih
    obtain ⟨h, g, hh, hg, hlt⟩ := blocked_chain s hinv hdead.2 i f hi hw
    exact ⟨h, g, hh, hg, by omega⟩

theorem athreadStep_none_iff (i : PhilId) (r : Nat) (s : ASys) :
    athreadStep i r s = none ↔ (s.loc i = .finished ∨ blocked s i = true) := by
  cases hl : s.loc i <;>
    simp [athreadStep, blocked, waitsFor, hl, mutex_lock, first_fork, second_fork]
  case start =>
    cases hf : s.forks (if i.val % 2 = 0 then left_fork i else right_fork i) <;> simp
  case haveFirst =>
    cases hf : s.forks (if i.val % 2 = 0 then right_fork i else left_fork i) <;> simp

/-- C15 (no circular wait): in every state reachable by five threads that repeatedly run
`asymmetric_solution`, it is not the case that some thread is unfinished and every
unfinished thread is blocked at a `pthread_mutex_lock` on a held fork; a thread has no
enabled action exactly when it has finished or is blocked in that sense, so as long as some
thread is unfinished, some thread can take a step. -/
theorem asymmetric_no_deadlock (s : ASys) (h : AReachable s) :
    ¬ deadlocked s ∧
    (∀ i r, athreadStep i r s = none ↔ (s.loc i = .finished ∨ blocked s i = true)) ∧
    ((∃ i, s.loc i ≠ .finished) → ∃ i r s1, athreadStep i r s = some s1) := by
  have hinv := areachable_invForks s h
  have hnd : ¬ deadlocked s := by
    intro hdead
    obtain ⟨i, f, _, _, hn⟩ := deadlock_rank_unbounded s hinv hdead NUM_PHILOSOPHERS
    have := fork_rank_lt f
    omega
  refine ⟨hnd, fun i r => athreadStep_none_iff i r s, ?_⟩
  intro hex
  by_contra hno
  apply hnd
  refine ⟨hex, ?_⟩
  intro i hi
  have hnone : athreadStep i 0 s = none := by
    cases hx : athreadStep i 0 s with
    | none => rfl
    | some s1 => exact absurd ⟨i, 0, s1, hx⟩ hno
  rcases (athreadStep_none_iff i 0 s).1 hnone with h1 | h1
  · exact absurd h1 hi
  · exact h1

/-- Witness for C15: after threads 0, 1 and 3 have locked their first forks, threads 2 and 4
are blocked on forks 2 and 4, and thread 0 can lock its second fork. -/
theorem asymmetric_no_deadlock_witness :
    AReachable (aafter asched_first_locks) ∧
    blocked (aafter asched_first_locks) 2 = true ∧
    blocked (aafter asched_first_locks) 4 = true ∧
    blocked (aafter asched_first_locks) 0 = false ∧
    ¬ deadlocked (aafter asched_first_locks) :=
  ⟨⟨asched_first_locks, rfl⟩, by decide, by decide, by decide,
    (asymmetric_no_deadlock (aafter asched_first_locks) ⟨asched_first_locks, rfl⟩).1⟩

/-! ## Ring indexing and blocked philosophers (C24, C25) -/

/-- C24 (ring indexing): for every `i` in `0..N-1`, `left_fork(i) == i` and
`right_fork((i-1+N)%N) == i`, where `left_neighbour i` is `(i-1+N)%N`; both functions yield
indices in `0..N-1`, `right_fork(i)` being `(i+1)%N`, and `left_fork(i) != right_fork(i)`. -/
theorem ring_indexing (i : PhilId) :
    (left_fork i).val = i.val ∧
    ((left_neighbour i).val : Int) = ((i.val : Int) - 1 + NUM_PHILOSOPHERS) % NUM_PHILOSOPHERS ∧
    right_fork (left_neighbour i) = i ∧
    (right_fork i).val = (i.val + 1) % NUM_PHILOSOPHERS ∧
    (left_fork i).val < NUM_PHILOSOPHERS ∧ (right_fork i).val < NUM_PHILOSOPHERS ∧
    left_fork i ≠ right_fork i := by
  revert i
  decide

/-- C25 (no needlessly blocked participant) evaluated on the code: after
`sched_after_putdown` the stop flag is unset, philosopher 0 is HUNGRY and blocked in the wait
loop of `pickup_forks` (the loop condition still holds at a wake-up), and both its
neighbours, 4 and 1, are THINKING: `putdown_forks(1)` re-tested philosophers 1 and 2 and
never philosopher 0. -/
theorem hungry_with_no_eating_neighbour :
    (exec Sys.init sched_after_putdown).map
        (fun s => (s.table.simulation_running, s.loc 0, s.table.stateOf 0,
          s.table.stateOf (left_neighbour 0), s.table.stateOf (right_neighbour 0),
          pickup_must_wait 0 s.table)) =
      some (true, .pickupWait, .HUNGRY, .THINKING, .THINKING, true) ∧
    left_neighbour 0 = 4 ∧ right_neighbour 0 = 1 := by
  refine ⟨?_, ?_, ?_⟩ <;> decide

end DiningPhilosophers

namespace TSQueue

/-! ## Circular buffer: representation lemmas -/

theorem mod_add_inj (c f a b : Nat) (ha : a < c) (hb : b < c)
    (h : (f + a) % c = (f + b) % c) : a = b := by
  have h1 : Nat.ModEq c (f + a) (f + b) := h
  have h2 : Nat.ModEq c a b := Nat.ModEq.add_left_cancel' f h1
  have h3 : a % c = b % c := h2
  rwa [Nat.mod_eq_of_lt ha, Nat.mod_eq_of_lt hb] at h3

theorem contents_length (q : ThreadSafeQueue) : (contents q).length = q.size := by
  simp [contents]

/-- Storing an item in a queue that is not full keeps the invariant and appends the item to
the contents. -/
theorem enqueue_store_spec (q : ThreadSafeQueue) (x : Int) (hwf : WF q)
    (hroom : q.size < q.capacity) :
    WF (enqueue_store q x) ∧ contents (enqueue_store q x) = contents q ++ [x] := by
  obtain ⟨hc, hs, hf, hr⟩ := hwf
  constructor
  · refine ⟨hc, ?_, hf, ?_⟩
    · show q.size + 1 ≤ q.capacity
      omega
    · show (q.rear + 1) % q.capacity = (q.front + (q.size + 1)) % q.capacity
      rw [hr, Nat.mod_add_mod, Nat.add_assoc]
  · unfold contents
    show List.map (fun k => Function.update q.items q.rear x ((q.front + k) % q.capacity))
        (List.range (q.size + 1)) = _
    rw [List.range_succ, List.map_append]
    congr 1
    · apply List.map_congr_left
      intro k hk
      have hk1 : k < q.size := List.mem_range.1 hk
      have hne : (q.front + k) % q.capacity ≠ q.rear := by
        rw [hr]
        intro heq
        have := mod_add_inj q.capacity q.front k q.size (by omega) hroom heq
        omega
      exact Function.update_noteq hne _ _
    · simp only [List.map_cons, List.map_nil]
      rw [← hr, Function.update_same]

/-- Taking the front item of a non-empty queue keeps the invariant and removes the head of
the contents, which is the value delivered. -/
theorem dequeue_take_spec (q : ThreadSafeQueue) (hwf : WF q) (hne : 0 < q.size) :
    WF (dequeue_take q).2 ∧ contents q = (dequeue_take q).1 :: contents (dequeue_take q).2 := by
  obtain ⟨hc, hs, hf, hr⟩ := hwf
  constructor
  · refine ⟨hc, ?_, Nat.mod_lt _ hc, ?_⟩
    · show q.size - 1 ≤ q.capacity
      omega
    · show q.rear = ((q.front + 1) % q.capacity + (q.size - 1)) % q.capacity
      rw [hr, Nat.mod_add_mod]
      congr 1
      omega
  · unfold contents dequeue_take
    obtain ⟨n, hn⟩ : ∃ n, q.size = n + 1 := ⟨q.size - 1, by omega⟩
    simp only [hn, Nat.add_sub_cancel]
    rw [List.range_succ_eq_map, List.map_cons, List.map_map]
    congr 1
    · simp [Nat.mod_eq_of_lt hf]
    · apply List.map_congr_left
      intro k _
      simp only [Function.comp]
      rw [Nat.mod_add_mod]
      congr 2
      omega

theorem enqueue_no_wait (q : ThreadSafeQueue) (x : Int) (h : q.size ≠ q.capacity) :
    enqueue (some q) x [] = some (0, some (enqueue_store q x)) := by
  simp [enqueue, enqueue_wait, h]

theorem dequeue_no_wait (q : ThreadSafeQueue) (v : Int) (h : q.size ≠ 0) :
    dequeue (some q) (some v) [] =
      some (0, some (dequeue_take q).2, some (dequeue_take q).1) := by
  simp [dequeue, dequeue_wait, h]

theorem enqueue_all_spec (xs : List Int) :
    ∀ q : ThreadSafeQueue, WF q → q.size + xs.length ≤ q.capacity →
      ∃ q1, enqueue_all q xs = some (List.replicate xs.length 0, q1) ∧ WF q1 ∧
        contents q1 = contents q ++ xs ∧ q1.capacity = q.capacity ∧
        q1.size = q.size + xs.length := by
  induction xs with
  | nil =>
    intro q hwf _
    exact ⟨q, rfl, hwf, by simp, rfl, rfl⟩
  | cons x rest ih =>
    intro q hwf hlen
    simp only [List.length_cons] at hlen
    have hroom : q.size < q.capacity := by omega
    obtain ⟨hwf1, hc1⟩ := enqueue_store_spec q x hwf hroom
    have hsz : (enqueue_store q x).size = q.size + 1 := rfl
    have hcap : (enqueue_store q x).capacity = q.capacity := rfl
    obtain ⟨q2, h2, hwf2, hc2, hcap2, hsz2⟩ := ih (enqueue_store q x) hwf1
      (by rw [hsz, hcap]; omega)
    refine ⟨q2, ?_, hwf2, ?_, ?_, ?_⟩
    · simp only [enqueue_all, enqueue_no_wait q x (by omega), h2, List.length_cons,
        List.replicate_succ]
    · rw [hc2, hc1, List.append_assoc]; rfl
    · rw [hcap2, hcap]
    · rw [hsz2, hsz, List.length_cons]; omega

theorem dequeue_n_spec (n : Nat) :
    ∀ q : ThreadSafeQueue, WF q → n ≤ q.size →
      ∃ q1, dequeue_n q n = some (List.replicate n 0, (contents q).take n, q1) ∧ WF q1 ∧
        contents q1 = (contents q).drop n ∧ q1.size = q.size - n := by
  induction n with
  | zero =>
    intro q hwf _
    exact ⟨q, rfl, hwf, rfl, rfl⟩
  | succ n ih =>
    intro q hwf hle
    have hpos : 0 < q.size := by omega
    obtain ⟨hwf1, hc1⟩ := dequeue_take_spec q hwf hpos
    have hsz : (dequeue_take q).2.size = q.size - 1 := rfl
    obtain ⟨q2, h2, hwf2, hc2, hsz2⟩ := ih (dequeue_take q).2 hwf1 (by rw [hsz]; omega)
    refine ⟨q2, ?_, hwf2, ?_, ?_⟩
    · simp only [dequeue_n, dequeue_no_wait q 0 (by omega), h2, List.replicate_succ, hc1,
        List.take_succ_cons]
    · rw [hc2, hc1, List.drop_succ_cons]
    · rw [hsz2, hsz]; omega

/-! ## FIFO order and the non-blocking operations (C18, C19, C20) -/

theorem fifo_from_empty (q : ThreadSafeQueue) (xs : List Int) (hwf : WF q)
    (hempty : q.size = 0) (hlen : xs.length ≤ q.capacity) :
    ∃ q1 q2, enqueue_all q xs = some (List.replicate xs.length 0, q1) ∧
      dequeue_n q1 xs.length = some (List.replicate xs.length 0, xs, q2) ∧
      q2.size = 0 := by
  obtain ⟨q1, h1, hwf1, hc1, _, hsz1⟩ := enqueue_all_spec xs q hwf (by omega)
  have hcq : contents q = [] := by simp [contents, hempty]
  rw [hcq, List.nil_append] at hc1
  obtain ⟨q2, h2, _, _, hsz2⟩ := dequeue_n_spec xs.length q1 hwf1 (by omega)
  refine ⟨q1, q2, h1, ?_, by omega⟩
  rw [h2, hc1, List.take_length]

/-- C18 (the queue is FIFO): for every capacity `c > 0` and every list of `k <= c` items,
`queue_init` (with no failing allocation or primitive) returns 0 and on the queue it yields
the `k` calls of `enqueue` each return 0 and the `k` following calls of `dequeue` each
return 0 and deliver the items in the order in which they were enqueued, leaving the queue
empty; the same holds on every empty queue that satisfies the representation invariant,
wherever `front == rear` stands in the array (after earlier enqueue/dequeue pairs). -/
theorem queue_fifo (c : Int) (hc : 0 < c) (q0 : ThreadSafeQueue) (mem : Nat → Int)
    (xs : List Int) (hk : (xs.length : Int) ≤ c) :
    (∃ q, queue_init (some q0) c
        { malloc := some mem, lock_ok := true, not_empty_ok := true, not_full_ok := true } =
          (0, some q) ∧
      ∃ q1 q2, enqueue_all q xs = some (List.replicate xs.length 0, q1) ∧
        dequeue_n q1 xs.length = some (List.replicate xs.length 0, xs, q2) ∧
        q2.size = 0) ∧
    (∀ qw, WF qw → qw.size = 0 → (qw.capacity : Int) = c →
      ∃ q1 q2, enqueue_all qw xs = some (List.replicate xs.length 0, q1) ∧
        dequeue_n q1 xs.length = some (List.replicate xs.length 0, xs, q2) ∧
        q2.size = 0) := by
  constructor
  · refine ⟨{ items := mem, front := 0, rear := 0, size := 0, capacity := c.toNat }, ?_, ?_⟩
    · have hnot : ¬ c ≤ 0 := by omega
      simp [queue_init, hnot]
    · apply fifo_from_empty
      · refine ⟨?_, Nat.zero_le _, ?_, ?_⟩
        · show 0 < c.toNat
          omega
        · show 0 < c.toNat
          omega
        · show 0 = (0 + 0) % c.toNat
          simp
      · rfl
      · show xs.length ≤ c.toNat
        omega
  · intro qw hwf hempty hcap
    exact fifo_from_empty qw xs hwf hempty (by omega)

/-- Witness for C18: capacity 3 and the items 7, 8, 9, on a fresh queue and on the empty
queue `queue_wrapped` whose `front` is the last slot of the array. -/
theorem queue_fifo_witness :
    (∃ q, queue_init (some queue_full) 3
        { malloc := some mem_zero, lock_ok := true, not_empty_ok := true,
          not_full_ok := true } = (0, some q) ∧
      ∃ q1 q2, enqueue_all q [7, 8, 9] = some ([0, 0, 0], q1) ∧
        dequeue_n q1 3 = some ([0, 0, 0], [7, 8, 9], q2) ∧ q2.size = 0) ∧
    (∃ q1 q2, enqueue_all queue_wrapped [7, 8, 9] = some ([0, 0, 0], q1) ∧
        dequeue_n q1 3 = some ([0, 0, 0], [7, 8, 9], q2) ∧ q2.size = 0) :=
  ⟨(queue_fifo 3 (by decide) queue_full mem_zero [7, 8, 9] (by decide)).1,
    (queue_fifo 3 (by decide) queue_full mem_zero [7, 8, 9] (by decide)).2 queue_wrapped
      ⟨by decide, by decide, by decide, by decide⟩ rfl rfl⟩

/-- C19 (`enqueue_nonblocking` on a non-null queue): it returns -1 exactly when
`size == capacity`, and then the queue is unchanged; otherwise it returns 0, stores the item
in slot `rear` (no other slot changes), advances `rear` by one modulo `capacity`, keeps
`front` and increases `size` by exactly 1; on a queue satisfying the representation
invariant the item is appended after the stored items. -/
theorem enqueue_nonblocking_spec (q : ThreadSafeQueue) (item : Int) :
    ((enqueue_nonblocking (some q) item).1 = -1 ↔ q.size = q.capacity) ∧
    (q.size = q.capacity → enqueue_nonblocking (some q) item = (-1, some q)) ∧
    (q.size ≠ q.capacity →
      ∃ q1, enqueue_nonblocking (some q) item = (0, some q1) ∧
        q1.items q.rear = item ∧ (∀ k, k ≠ q.rear → q1.items k = q.items k) ∧
        q1.rear = (q.rear + 1) % q.capacity ∧ q1.front = q.front ∧
        q1.capacity = q.capacity ∧ q1.size = q.size + 1 ∧
        (WF q → WF q1 ∧ contents q1 = contents q ++ [item])) := by
  refine ⟨?_, ?_, ?_⟩
  · by_cases h : q.size = q.capacity <;> simp [enqueue_nonblocking, h]
  · intro h
    simp [enqueue_nonblocking, h]
  · intro h
    refine ⟨enqueue_store q item, by simp [enqueue_nonblocking, h], ?_, ?_, rfl, rfl, rfl,
      rfl, ?_⟩
    · simp [enqueue_store]
    · intro k hk
      simp [enqueue_store, Function.update_noteq hk]
    · intro hwf
      exact enqueue_store_spec q item hwf (lt_of_le_of_ne hwf.2.1 h)

/-- Witness for C19: on the full queue `queue_full` the call returns -1 and changes
nothing; on the empty queue `queue_wrapped` it returns 0 and the contents become `[4]`. -/
theorem enqueue_nonblocking_spec_witness :
    enqueue_nonblocking (some queue_full) 9 = (-1, some queue_full) ∧
    (∃ q1, enqueue_nonblocking (some queue_wrapped) 4 = (0, some q1) ∧
      q1.size = 1 ∧ q1.rear = 0 ∧ contents q1 = [4]) := by
  refine ⟨(enqueue_nonblocking_spec queue_full 9).2.1 (by decide), ?_⟩
  obtain ⟨q1, h1, _, _, h4, _, _, h7, h8⟩ :=
    (enqueue_nonblocking_spec queue_wrapped 4).2.2 (by decide)
  refine ⟨q1, h1, h7, h4, ?_⟩
  have := (h8 ⟨by decide, by decide, by decide, by decide⟩).2
  rw [this]
  decide

/-- C20 (`dequeue_nonblocking` on a non-null queue with a non-null output): it returns -1
exactly when `size == 0`, and then the queue and the output cell are unchanged; otherwise it
returns 0, writes `items[front]` to the output, advances `front` by one modulo `capacity`
and decreases `size` by exactly 1, the array and `rear` being unchanged; on a queue
satisfying the representation invariant the value written is the oldest stored item and the
others remain in order. -/
theorem dequeue_nonblocking_spec (q : ThreadSafeQueue) (v : Int) :
    ((dequeue_nonblocking (some q) (some v)).1 = -1 ↔ q.size = 0) ∧
    (q.size = 0 → dequeue_nonblocking (some q) (some v) = (-1, some q, some v)) ∧
    (q.size ≠ 0 →
      ∃ q1 x, dequeue_nonblocking (some q) (some v) = (0, some q1, some x) ∧
        x = q.items q.front ∧ q1.size + 1 = q.size ∧
        q1.front = (q.front + 1) % q.capacity ∧ q1.rear = q.rear ∧
        q1.items = q.items ∧ q1.capacity = q.capacity ∧
        (WF q → WF q1 ∧ contents q = x :: contents q1)) := by
  refine ⟨?_, ?_, ?_⟩
  · by_cases h : q.size = 0 <;> simp [dequeue_nonblocking, h]
  · intro h
    simp [dequeue_nonblocking, h]
  · intro h
    refine ⟨(dequeue_take q).2, (dequeue_take q).1, by simp [dequeue_nonblocking, h], rfl,
      ?_, rfl, rfl, rfl, rfl, ?_⟩
    · show q.size - 1 + 1 = q.size
      omega
    · intro hwf
      exact dequeue_take_spec q hwf (by omega)

/-- Witness for C20: on the empty queue `queue_wrapped` the call returns -1 and leaves the
queue and the output cell (holding 33) unchanged; on `queue_full`, which holds 5 and 6, it
returns 0 and delivers 5, the oldest item. -/
theorem dequeue_nonblocking_spec_witness :
    dequeue_nonblocking (some queue_wrapped) (some 33) =
      (-1, some queue_wrapped, some 33) ∧
    contents queue_full = [5, 6] ∧
    (∃ q1, dequeue_nonblocking (some queue_full) (some 33) = (0, some q1, some 5) ∧
      q1.size = 1 ∧ contents q1 = [6]) := by
  refine ⟨(dequeue_nonblocking_spec queue_wrapped 33).2.1 (by decide), by decide, ?_⟩
  obtain ⟨q1, x, h1, h2, h3, _, _, _, _, h8⟩ :=
    (dequeue_nonblocking_spec queue_full 33).2.2 (by decide)
  have hx : x = 5 := by rw [h2]; decide
  subst hx
  refine ⟨q1, h1, ?_, ?_⟩
  · have : queue_full.size = 2 := rfl
    omega
  · have hc := (h8 ⟨by decide, by decide, by decide, by decide⟩).2
    have hfull : contents queue_full = [5, 6] := by decide
    rw [hfull] at hc
    exact (List.cons.inj hc).2.symm

/-! ## Blocking dequeue, initialisation and the representation invariant (C21, C22, C26) -/

theorem dequeue_wait_some (wakes : List ThreadSafeQueue) :
    ∀ (q q1 : ThreadSafeQueue), dequeue_wait q wakes = some q1 →
      q1.size ≠ 0 ∧ q1 ∈ q :: wakes := by
  induction wakes with
  | nil =>
    intro q q1 h
    unfold dequeue_wait at h
    by_cases hs : q.size = 0
    · simp [hs] at h
    · simp [hs] at h
      subst h
      simp [hs]
  | cons w ws ih =>
    intro q q1 h
    unfold dequeue_wait at h
    by_cases hs : q.size = 0
    · simp [hs] at h
      have := ih w q1 h
      exact ⟨this.1, List.mem_cons_of_mem _ this.2⟩
    · simp [hs] at h
      subst h
      simp [hs]

theorem dequeue_wait_returns (wakes : List ThreadSafeQueue) :
    ∀ (q : ThreadSafeQueue), (∃ w ∈ q :: wakes, w.size ≠ 0) →
      ∃ q1, dequeue_wait q wakes = some q1 := by
  induction wakes with
  | nil =>
    intro q h
    obtain ⟨w, hw, hs⟩ := h
    simp at hw
    subst hw
    exact ⟨w, by unfold dequeue_wait; simp [hs]⟩
  | cons w ws ih =>
    intro q h
    by_cases hq : q.size = 0
    · obtain ⟨x, hx, hs⟩ := h
      have hx1 : x ∈ w :: ws := by
        rcases List.mem_cons.1 hx with hx0 | hx0
        · subst hx0; exact absurd hq hs
        · exact hx0
      obtain ⟨q1, h1⟩ := ih w ⟨x, hx1, hs⟩
      exact ⟨q1, by unfold dequeue_wait; simp [hq, h1]⟩
    · exact ⟨q, by unfold dequeue_wait; simp [hq]⟩

theorem dequeue_wait_none (wakes : List ThreadSafeQueue) :
    ∀ (q : ThreadSafeQueue), (∀ w ∈ q :: wakes, w.size = 0) → dequeue_wait q wakes = none := by
  induction wakes with
  | nil =>
    intro q h
    unfold dequeue_wait
    simp [h q (List.mem_cons_self _ _)]
  | cons w ws ih =>
    intro q h
    unfold dequeue_wait
    simp only [h q (List.mem_cons_self _ _), ↓reduceIte]
    exact ih w (fun x hx => h x (List.mem_cons_of_mem _ hx))

/-- C21 as stated fails: on the empty queue `queue_wrapped`, `dequeue` with no wake-up never
returns, and when a wake-up finds the queue holding the item 41 it returns 0 (success) and
delivers 41; it does not return a non-zero value. -/
theorem dequeue_empty_does_not_fail :
    queue_wrapped.size = 0 ∧
    (dequeue (some queue_wrapped) (some 33) []).isSome = false ∧
    (dequeue (some queue_wrapped) (some 33) [queue_wrapped, queue_one_item]).map
        (fun r => (r.1, r.2.2)) = some (0, some 41) := by
  decide

/-- C21 (amended): on a non-null queue whose size is 0, with a non-null output, `dequeue`
waits while the queue is empty: it does not return as long as the wake-ups find the queue
empty (in particular with no wake-up), it returns once a wake-up finds an item, and whenever
it returns the value is 0 and the output is the front item of the queue found at that
wake-up. It never returns a non-zero value. -/
theorem dequeue_empty_waits (q : ThreadSafeQueue) (v : Int) (wakes : List ThreadSafeQueue)
    (hempty : q.size = 0) :
    dequeue (some q) (some v) [] = none ∧
    ((∀ w ∈ wakes, w.size = 0) → dequeue (some q) (some v) wakes = none) ∧
    ((∃ w ∈ wakes, w.size ≠ 0) → ∃ res, dequeue (some q) (some v) wakes = some res) ∧
    (∀ res, dequeue (some q) (some v) wakes = some res →
      res.1 = 0 ∧
      ∃ w ∈ wakes, w.size ≠ 0 ∧
        res = (0, some (dequeue_take w).2, some (dequeue_take w).1)) := by
  have hnone : ∀ ws : List ThreadSafeQueue, (∀ w ∈ ws, w.size = 0) →
      dequeue (some q) (some v) ws = none := by
    intro ws hws
    have := dequeue_wait_none ws q (by
      intro w hw
      rcases List.mem_cons.1 hw with h1 | h1
      · rw [h1]; exact hempty
      · exact hws w h1)
    simp [dequeue, this]
  refine ⟨hnone [] (by simp), hnone wakes, ?_, ?_⟩
  · rintro ⟨w, hw, hs⟩
    obtain ⟨q1, h1⟩ := dequeue_wait_returns wakes q ⟨w, List.mem_cons_of_mem _ hw, hs⟩
    exact ⟨(0, some (dequeue_take q1).2, some (dequeue_take q1).1), by simp [dequeue, h1]⟩
  · intro res h
    simp only [dequeue] at h
    split at h
    · cases h
    · rename_i q1 hq1
      simp only [Option.some.injEq] at h
      obtain ⟨hs, hmem⟩ := dequeue_wait_some wakes q q1 hq1
      have hw : q1 ∈ wakes := by
        rcases List.mem_cons.1 hmem with h1 | h1
        · rw [h1] at hs; exact absurd hempty hs
        · exact h1
      exact ⟨by rw [← h], q1, hw, hs, h.symm⟩

/-- Witness for C21: on `queue_wrapped` (size 0) with the wake-ups `queue_wrapped` then
`queue_one_item`, `dequeue` returns, with value 0. -/
theorem dequeue_empty_waits_witness :
    queue_wrapped.size = 0 ∧
    ∃ res, dequeue (some queue_wrapped) (some 33) [queue_wrapped, queue_one_item] =
      some res ∧ res.1 = 0 := by
  have h := dequeue_empty_waits queue_wrapped 33 [queue_wrapped, queue_one_item] rfl
  obtain ⟨res, hres⟩ := h.2.2.1 ⟨queue_one_item, by simp, by decide⟩
  exact ⟨rfl, res, hres, (h.2.2.2 res hres).1⟩

/-- C22 (`queue_init`): it returns -1 for a null queue and for every capacity `<= 0`;
whenever it returns 0 the queue is empty: `size == 0`, `front == rear == 0`, `capacity` is
the requested capacity, `queue_size` is 0, `queue_is_empty` is true and `queue_is_full` is
false; and it returns 0 for a non-null queue, a positive capacity and no failing allocation
or primitive. -/
theorem queue_init_spec (q : Option ThreadSafeQueue) (capacity : Int) (env : InitEnv) :
    ((q = none ∨ capacity ≤ 0) → (queue_init q capacity env).1 = -1) ∧
    ((queue_init q capacity env).1 = 0 →
      ∃ q1, (queue_init q capacity env).2 = some q1 ∧
        q1.size = 0 ∧ q1.front = 0 ∧ q1.rear = 0 ∧ (q1.capacity : Int) = capacity ∧
        queue_size (some q1) = 0 ∧ queue_is_empty (some q1) = true ∧
        queue_is_full (some q1) = false) ∧
    (∀ q0 mem, q = some q0 → 0 < capacity → env = env_ok mem →
      (queue_init q capacity env).1 = 0) := by
  refine ⟨?_, ?_, ?_⟩
  · rintro (h | h)
    · subst h; rfl
    · cases q with
      | none => rfl
      | some q0 => simp [queue_init, h]
  · intro h
    cases q with
    | none => simp [queue_init] at h
    | some q0 =>
      unfold queue_init at h ⊢
      by_cases hc : capacity ≤ 0
      · simp [hc] at h
      · cases hm : env.malloc with
        | none => simp [hc, hm] at h
        | some mem =>
          cases h1 : env.lock_ok <;> cases h2 : env.not_empty_ok <;>
            cases h3 : env.not_full_ok <;> simp [hc, hm, h1, h2, h3] at h ⊢
          refine ⟨by omega, ?_, ?_, ?_⟩
          · simp [queue_size]
          · simp [queue_is_empty]
          · simp [queue_is_full]
            omega
  · intro q0 mem hq hc he
    subst hq; subst he
    have hnot : ¬ capacity ≤ 0 := by omega
    simp [queue_init, env_ok, hnot]

/-- Witness for C22: capacity 3 on a structure with previous contents gives an empty queue of
capacity 3; capacity 0 and a null queue give -1. -/
theorem queue_init_spec_witness :
    (queue_init (some queue_full) 0 (env_ok mem_zero)).1 = -1 ∧
    (queue_init none 3 (env_ok mem_zero)).1 = -1 ∧
    (queue_init (some queue_full) 3 (env_ok mem_zero)).1 = 0 ∧
    (∃ q1, (queue_init (some queue_full) 3 (env_ok mem_zero)).2 = some q1 ∧
      q1.size = 0 ∧ (q1.capacity : Int) = 3 ∧ queue_is_full (some q1) = false) := by
  have h := queue_init_spec (some queue_full) 3 (env_ok mem_zero)
  have h0 := h.2.2 queue_full mem_zero rfl (by decide) rfl
  obtain ⟨q1, k1, k2, _, _, k5, _, _, k8⟩ := h.2.1 h0
  exact ⟨(queue_init_spec (some queue_full) 0 (env_ok mem_zero)).1 (Or.inr (by decide)),
    (queue_init_spec none 3 (env_ok mem_zero)).1 (Or.inl rfl), h0, q1, k1, k2, k5, k8⟩

theorem qstep_wf (q q1 : ThreadSafeQueue) (op : QOp) (hwf : WF q)
    (h : qstep q op = some q1) : WF q1 ∧ q1.capacity = q.capacity := by
  cases op with
  | enqueue item =>
    by_cases hs : q.size = q.capacity
    · simp [qstep, enqueue, enqueue_wait, hs] at h
    · simp [qstep, enqueue, enqueue_wait, hs] at h
      subst h
      exact ⟨(enqueue_store_spec q item hwf (lt_of_le_of_ne hwf.2.1 hs)).1, rfl⟩
  | dequeue =>
    by_cases hs : q.size = 0
    · simp [qstep, dequeue, dequeue_wait, hs] at h
    · simp [qstep, dequeue, dequeue_wait, hs] at h
      subst h
      exact ⟨(dequeue_take_spec q hwf (by omega)).1, rfl⟩
  | enqueue_nonblocking item =>
    by_cases hs : q.size = q.capacity
    · simp [qstep, enqueue_nonblocking, hs] at h
      subst h
      exact ⟨hwf, rfl⟩
    · simp [qstep, enqueue_nonblocking, hs] at h
      subst h
      exact ⟨(enqueue_store_spec q item hwf (lt_of_le_of_ne hwf.2.1 hs)).1, rfl⟩
  | dequeue_nonblocking =>
    by_cases hs : q.size = 0
    · simp [qstep, dequeue_nonblocking, hs] at h
      subst h
      exact ⟨hwf, rfl⟩
    · simp [qstep, dequeue_nonblocking, hs] at h
      subst h
      exact ⟨(dequeue_take_spec q hwf (by omega)).1, rfl⟩

theorem qexec_wf (ops : List QOp) :
    ∀ (q q1 : ThreadSafeQueue), WF q → qexec q ops = some q1 →
      WF q1 ∧ q1.capacity = q.capacity := by
  induction ops with
  | nil =>
    intro q q1 hwf h
    simp only [qexec, Option.some.injEq] at h
    subst h
    exact ⟨hwf, rfl⟩
  | cons op rest ih =>
    intro q q1 hwf h
    unfold qexec at h
    split at h
    · cases h
    · rename_i q2 hq2
      obtain ⟨hwf2, hc2⟩ := qstep_wf q q2 op hwf hq2
      obtain ⟨hwf1, hc1⟩ := ih q2 q1 hwf2 h
      exact ⟨hwf1, hc1.trans hc2⟩

/-- C26 (representation invariant): after `queue_init` with capacity `c > 0` (returning 0)
and any sequence of `enqueue`, `dequeue`, `enqueue_nonblocking` and `dequeue_nonblocking`
steps, the blocking ones taken only when enabled, the queue satisfies `size <= c`,
`front < c`, `rear < c` and `rear == (front + size) % c`, with `capacity == c`. -/
theorem queue_representation_invariant (c : Int) (hc : 0 < c) (q0 : ThreadSafeQueue)
    (mem : Nat → Int) (ops : List QOp) :
    ∃ qi, queue_init (some q0) c (env_ok mem) = (0, some qi) ∧
      ∀ q, qexec qi ops = some q →
        (q.size : Int) ≤ c ∧ (q.front : Int) < c ∧ (q.rear : Int) < c ∧
        ((q.rear : Int) = ((q.front : Int) + (q.size : Int)) % c) ∧
        (q.capacity : Int) = c := by
  refine ⟨{ items := mem, front := 0, rear := 0, size := 0, capacity := c.toNat }, ?_, ?_⟩
  · have hnot : ¬ c ≤ 0 := by omega
    simp [queue_init, env_ok, hnot]
  · intro q h
    have hwf0 : WF { items := mem, front := 0, rear := 0, size := 0, capacity := c.toNat } := by
      refine ⟨?_, Nat.zero_le _, ?_, ?_⟩
      · show 0 < c.toNat
        omega
      · show 0 < c.toNat
        omega
      · show 0 = (0 + 0) % c.toNat
        simp
    obtain ⟨⟨h1, h2, h3, h4⟩, hcap⟩ := qexec_wf ops _ q hwf0 h
    have hcap1 : (q.capacity : Int) = c := by
      rw [hcap]
      show ((c.toNat : Nat) : Int) = c
      omega
    have hrear : q.rear < q.capacity := by
      rw [h4]; exact Nat.mod_lt _ h1
    refine ⟨by omega, by omega, by omega, ?_, hcap1⟩
    rw [← hcap1, h4]
    push_cast
    rfl

/-- Witness for C26: capacity 2 and the operations `ops_sample`, which include an
`enqueue_nonblocking` on the full queue and a `dequeue_nonblocking` on the empty queue; the
final queue has `front == 0`, `rear == 1`, `size == 1`. -/
theorem queue_representation_invariant_witness :
    ∃ qi q, queue_init (some queue_full) 2 (env_ok mem_zero) = (0, some qi) ∧
      qexec qi ops_sample = some q ∧
      q.front = 0 ∧ q.rear = 1 ∧ q.size = 1 ∧
      (q.size : Int) ≤ 2 ∧ ((q.rear : Int) = ((q.front : Int) + (q.size : Int)) % 2) := by
  obtain ⟨qi, h1, h2⟩ :=
    queue_representation_invariant 2 (by decide) queue_full mem_zero ops_sample
  have hinit : queue_init (some queue_full) 2 (env_ok mem_zero) = (0, some queue_fresh2) := rfl
  have hqi : qi = queue_fresh2 := by
    rw [hinit] at h1
    simp only [Prod.mk.injEq, Option.some.injEq, true_and] at h1
    exact h1.symm
  subst hqi
  have hx : qexec queue_fresh2 ops_sample =
      some ((qexec queue_fresh2 ops_sample).getD queue_full) := rfl
  exact ⟨queue_fresh2, (qexec queue_fresh2 ops_sample).getD queue_full, h1, hx, by decide,
    by decide, by decide, (h2 _ hx).1, (h2 _ hx).2.2.2.1⟩

end TSQueue

namespace ProducerConsumer

/-! ## Counting threads -/

theorem sum_update_fin {n : Nat} {α : Type} (g : α → Nat) (f : Fin n → α) (i : Fin n)
    (v : α) :
    (∑ j : Fin n, g (Function.update f i v j)) + g (f i) = (∑ j : Fin n, g (f j)) + g v := by
  have h1 := Finset.add_sum_erase Finset.univ (fun j => g (Function.update f i v j))
    (Finset.mem_univ i)
  have h2 := Finset.add_sum_erase Finset.univ (fun j => g (f j)) (Finset.mem_univ i)
  have h3 : ∑ x ∈ Finset.univ.erase i, g (Function.update f i v x) =
      ∑ x ∈ Finset.univ.erase i, g (f x) := by
    apply Finset.sum_congr rfl
    intro x hx
    rw [Function.update_noteq (Finset.ne_of_mem_erase hx)]
  beta_reduce at h1 h2
  rw [Function.update_same] at h1
  omega

theorem countP_update {np nc : Nat} (f : PLoc → Bool) (s s1 : PCSys np nc) (p : Fin np)
    (l : PLoc) (h : s1.ploc = Function.update s.ploc p l) :
    countP f s1 + (if f (s.ploc p) then 1 else 0) = countP f s + (if f l then 1 else 0) := by
  unfold countP
  rw [h]
  exact sum_update_fin (fun x => if f x then 1 else 0) s.ploc p l

theorem countC_update {np nc : Nat} (f : CLoc → Bool) (s s1 : PCSys np nc) (c : Fin nc)
    (l : CLoc) (h : s1.cloc = Function.update s.cloc c l) :
    countC f s1 + (if f (s.cloc c) then 1 else 0) = countC f s + (if f l then 1 else 0) := by
  unfold countC
  rw [h]
  exact sum_update_fin (fun x => if f x then 1 else 0) s.cloc c l

theorem countP_ge {np nc : Nat} (f : PLoc → Bool) (s : PCSys np nc) (p : Fin np) :
    (if f (s.ploc p) then 1 else 0) ≤ countP f s := by
  unfold countP
  exact Finset.single_le_sum (f := fun j => if f (s.ploc j) then 1 else 0)
    (fun _ _ => Nat.zero_le _) (Finset.mem_univ p)

theorem countP_congr {np nc : Nat} (f : PLoc → Bool) (s s1 : PCSys np nc)
    (h : s1.ploc = s.ploc) : countP f s1 = countP f s := by
  unfold countP; rw [h]

theorem countC_congr {np nc : Nat} (f : CLoc → Bool) (s s1 : PCSys np nc)
    (h : s1.cloc = s.cloc) : countC f s1 = countC f s := by
  unfold countC; rw [h]

/-! ## The bounded-buffer invariant is preserved -/

theorem producerStep_inv {np nc : Nat} (p : Fin np) (s s1 : PCSys np nc)
    (h : producerStep p s = some s1) (hinv : PCInv s) : PCInv s1 := by
  obtain ⟨h1, h2, h3, h4⟩ := hinv
  have kge := countP_ge PLoc.holdsEmpty s p
  unfold PCInv
  simp only [BUFFER_SIZE] at h1 h2 h4 ⊢
  cases hl : s.ploc p <;> simp only [producerStep, hl] at h <;> rw [hl] at kge
  case loop =>
    split at h <;> simp only [Option.some.injEq] at h
    · have e1 : s1.ploc = Function.update s.ploc p .wait := by rw [← h]
      have e2 : s1.cloc = s.cloc := by rw [← h]
      have e3 : s1.buf = s.buf := by rw [← h]
      have kP := countP_update PLoc.holdsEmpty s s1 p .wait e1
      have kC := countC_congr CLoc.owesEmpty s s1 e2
      simp [hl, PLoc.holdsEmpty] at kP kge
      rw [e3, kC]
      exact ⟨h1, h2, h3, by omega⟩
    · have e1 : s1.ploc = Function.update s.ploc p .done := by rw [← h]
      have e2 : s1.cloc = s.cloc := by rw [← h]
      have e3 : s1.buf = s.buf := by rw [← h]
      have kP := countP_update PLoc.holdsEmpty s s1 p .done e1
      have kC := countC_congr CLoc.owesEmpty s s1 e2
      simp [hl, PLoc.holdsEmpty] at kP kge
      rw [e3, kC]
      exact ⟨h1, h2, h3, by omega⟩
  case wait =>
    split at h
    · rename_i hpos
      simp only [Option.some.injEq] at h
      have e1 : s1.ploc = Function.update s.ploc p .check := by rw [← h]
      have e2 : s1.cloc = s.cloc := by rw [← h]
      have e3 : s1.buf = { s.buf with empty := s.buf.empty - 1 } := by rw [← h]
      have kP := countP_update PLoc.holdsEmpty s s1 p .check e1
      have kC := countC_congr CLoc.owesEmpty s s1 e2
      simp [hl, PLoc.holdsEmpty] at kP kge
      rw [e3, kC]
      exact ⟨h1, h2, h3, by dsimp only; omega⟩
    · cases h
  case check =>
    split at h <;> simp only [Option.some.injEq] at h
    · have e1 : s1.ploc = Function.update s.ploc p .repost := by rw [← h]
      have e2 : s1.cloc = s.cloc := by rw [← h]
      have e3 : s1.buf = s.buf := by rw [← h]
      have kP := countP_update PLoc.holdsEmpty s s1 p .repost e1
      have kC := countC_congr CLoc.owesEmpty s s1 e2
      simp [hl, PLoc.holdsEmpty] at kP kge
      rw [e3, kC]
      exact ⟨h1, h2, h3, by omega⟩
    · have e1 : s1.ploc = Function.update s.ploc p .insert := by rw [← h]
      have e2 : s1.cloc = s.cloc := by rw [← h]
      have e3 : s1.buf = s.buf := by rw [← h]
      have kP := countP_update PLoc.holdsEmpty s s1 p .insert e1
      have kC := countC_congr CLoc.owesEmpty s s1 e2
      simp [hl, PLoc.holdsEmpty] at kP kge
      rw [e3, kC]
      exact ⟨h1, h2, h3, by omega⟩
  case repost =>
    simp only [Option.some.injEq] at h
    have e1 : s1.ploc = Function.update s.ploc p .done := by rw [← h]
    have e2 : s1.cloc = s.cloc := by rw [← h]
    have e3 : s1.buf = { s.buf with empty := s.buf.empty + 1 } := by rw [← h]
    have kP := countP_update PLoc.holdsEmpty s s1 p .done e1
    have kC := countC_congr CLoc.owesEmpty s s1 e2
    simp [hl, PLoc.holdsEmpty] at kP kge
    rw [e3, kC]
    exact ⟨h1, h2, h3, by dsimp only; omega⟩
  case insert =>
    simp only [Option.some.injEq] at h
    have e1 : s1.ploc = Function.update s.ploc p .postFull := by rw [← h]
    have e2 : s1.cloc = s.cloc := by rw [← h]
    have e3 : s1.buf = insert_item (s.pitem p) s.buf := by rw [← h]
    have kP := countP_update PLoc.holdsEmpty s s1 p .postFull e1
    have kC := countC_congr CLoc.owesEmpty s s1 e2
    simp [hl, PLoc.holdsEmpty] at kP kge
    rw [e3, kC]
    simp only [insert_item, BUFFER_SIZE]
    refine ⟨by omega, h2, by omega, by omega⟩
  case postFull =>
    simp only [Option.some.injEq] at h
    have e1 : s1.ploc = Function.update s.ploc p .loop := by rw [← h]
    have e2 : s1.cloc = s.cloc := by rw [← h]
    have e3 : s1.buf = { s.buf with full := s.buf.full + 1 } := by rw [← h]
    have kP := countP_update PLoc.holdsEmpty s s1 p .loop e1
    have kC := countC_congr CLoc.owesEmpty s s1 e2
    simp [hl, PLoc.holdsEmpty] at kP kge
    rw [e3, kC]
    exact ⟨h1, h2, h3, by dsimp only; omega⟩
  case done => cases h

theorem countC_ge {np nc : Nat} (f : CLoc → Bool) (s : PCSys np nc) (c : Fin nc) :
    (if f (s.cloc c) then 1 else 0) ≤ countC f s := by
  unfold countC
  exact Finset.single_le_sum (f := fun j => if f (s.cloc j) then 1 else 0)
    (fun _ _ => Nat.zero_le _) (Finset.mem_univ c)

theorem consumerStep_inv {np nc : Nat} (c : Fin nc) (s s1 : PCSys np nc)
    (h : consumerStep c s = some s1) (hinv : PCInv s) : PCInv s1 := by
  obtain ⟨h1, h2, h3, h4⟩ := hinv
  have kge := countC_ge CLoc.owesEmpty s c
  unfold PCInv
  simp only [BUFFER_SIZE] at h1 h2 h4 ⊢
  cases hl : s.cloc c <;> simp only [consumerStep, hl] at h <;> rw [hl] at kge
  case loop =>
    split at h <;> simp only [Option.some.injEq] at h
    · have e1 : s1.cloc = Function.update s.cloc c .done := by rw [← h]
      have e2 : s1.ploc = s.ploc := by rw [← h]
      have e3 : s1.buf = s.buf := by rw [← h]
      have kC := countC_update CLoc.owesEmpty s s1 c .done e1
      have kP := countP_congr PLoc.holdsEmpty s s1 e2
      simp [hl, CLoc.owesEmpty] at kC kge
      rw [e3, kP]
      exact ⟨h1, h2, h3, by omega⟩
    · have e1 : s1.cloc = Function.update s.cloc c .wait := by rw [← h]
      have e2 : s1.ploc = s.ploc := by rw [← h]
      have e3 : s1.buf = s.buf := by rw [← h]
      have kC := countC_update CLoc.owesEmpty s s1 c .wait e1
      have kP := countP_congr PLoc.holdsEmpty s s1 e2
      simp [hl, CLoc.owesEmpty] at kC kge
      rw [e3, kP]
      exact ⟨h1, h2, h3, by omega⟩
  case wait =>
    split at h
    · simp only [Option.some.injEq] at h
      have e1 : s1.cloc = Function.update s.cloc c .check := by rw [← h]
      have e2 : s1.ploc = s.ploc := by rw [← h]
      have e3 : s1.buf = { s.buf with full := s.buf.full - 1 } := by rw [← h]
      have kC := countC_update CLoc.owesEmpty s s1 c .check e1
      have kP := countP_congr PLoc.holdsEmpty s s1 e2
      simp [hl, CLoc.owesEmpty] at kC kge
      rw [e3, kP]
      exact ⟨h1, h2, h3, by dsimp only; omega⟩
    · cases h
  case check =>
    split at h <;> simp only [Option.some.injEq] at h
    · have e1 : s1.cloc = Function.update s.cloc c .repostBreak := by rw [← h]
      have e2 : s1.ploc = s.ploc := by rw [← h]
      have e3 : s1.buf = s.buf := by rw [← h]
      have kC := countC_update CLoc.owesEmpty s s1 c .repostBreak e1
      have kP := countP_congr PLoc.holdsEmpty s s1 e2
      simp [hl, CLoc.owesEmpty] at kC kge
      rw [e3, kP]
      exact ⟨h1, h2, h3, by omega⟩
    · have e1 : s1.cloc = Function.update s.cloc c .crit := by rw [← h]
      have e2 : s1.ploc = s.ploc := by rw [← h]
      have e3 : s1.buf = s.buf := by rw [← h]
      have kC := countC_update CLoc.owesEmpty s s1 c .crit e1
      have kP := countP_congr PLoc.holdsEmpty s s1 e2
      simp [hl, CLoc.owesEmpty] at kC kge
      rw [e3, kP]
      exact ⟨h1, h2, h3, by omega⟩
  case repostBreak =>
    simp only [Option.some.injEq] at h
    have e1 : s1.cloc = Function.update s.cloc c .done := by rw [← h]
    have e2 : s1.ploc = s.ploc := by rw [← h]
    have e3 : s1.buf = { s.buf with full := s.buf.full + 1 } := by rw [← h]
    have kC := countC_update CLoc.owesEmpty s s1 c .done e1
    have kP := countP_congr PLoc.holdsEmpty s s1 e2
    simp [hl, CLoc.owesEmpty] at kC kge
    rw [e3, kP]
    exact ⟨h1, h2, h3, by dsimp only; omega⟩
  case crit =>
    split at h <;> simp only [Option.some.injEq] at h
    · have e1 : s1.cloc = Function.update s.cloc c .repost := by rw [← h]
      have e2 : s1.ploc = s.ploc := by rw [← h]
      have e3 : s1.buf = s.buf := by rw [← h]
      have kC := countC_update CLoc.owesEmpty s s1 c .repost e1
      have kP := countP_congr PLoc.holdsEmpty s s1 e2
      simp [hl, CLoc.owesEmpty] at kC kge
      rw [e3, kP]
      exact ⟨h1, h2, h3, by omega⟩
    · rename_i hne
      have e1 : s1.cloc = Function.update s.cloc c .postEmpty := by rw [← h]
      have e2 : s1.ploc = s.ploc := by rw [← h]
      have e3 : s1.buf = (extract_item s.buf).2 := by rw [← h]
      have kC := countC_update CLoc.owesEmpty s s1 c .postEmpty e1
      have kP := countP_congr PLoc.holdsEmpty s s1 e2
      simp [hl, CLoc.owesEmpty] at kC kge
      rw [e3, kP]
      simp only [extract_item, BUFFER_SIZE]
      refine ⟨h1, by omega, by omega, by omega⟩
  case repost =>
    simp only [Option.some.injEq] at h
    have e1 : s1.cloc = Function.update s.cloc c .loop := by rw [← h]
    have e2 : s1.ploc = s.ploc := by rw [← h]
    have e3 : s1.buf = { s.buf with full := s.buf.full + 1 } := by rw [← h]
    have kC := countC_update CLoc.owesEmpty s s1 c .loop e1
    have kP := countP_congr PLoc.holdsEmpty s s1 e2
    simp [hl, CLoc.owesEmpty] at kC kge
    rw [e3, kP]
    exact ⟨h1, h2, h3, by dsimp only; omega⟩
  case postEmpty =>
    simp only [Option.some.injEq] at h
    have e1 : s1.cloc = Function.update s.cloc c .loop := by rw [← h]
    have e2 : s1.ploc = s.ploc := by rw [← h]
    have e3 : s1.buf = { s.buf with empty := s.buf.empty + 1 } := by rw [← h]
    have kC := countC_update CLoc.owesEmpty s s1 c .loop e1
    have kP := countP_congr PLoc.holdsEmpty s s1 e2
    simp [hl, CLoc.owesEmpty] at kC kge
    rw [e3, kP]
    exact ⟨h1, h2, h3, by dsimp only; omega⟩
  case done => cases h

theorem pcStep_inv {np nc : Nat} (s s1 : PCSys np nc) (a : PCAction np nc)
    (h : pcStep s a = some s1) (hinv : PCInv s) : PCInv s1 := by
  cases a with
  | prod p => exact producerStep_inv p s s1 h hinv
  | cons c => exact consumerStep_inv c s s1 h hinv
  | prod_wait_fails p =>
    simp only [pcStep] at h
    split at h
    · rename_i hl
      simp only [Option.some.injEq] at h
      obtain ⟨h1, h2, h3, h4⟩ := hinv
      have e1 : s1.ploc = Function.update s.ploc p .done := by rw [← h]
      have e2 : s1.cloc = s.cloc := by rw [← h]
      have e3 : s1.buf = s.buf := by rw [← h]
      have kP := countP_update PLoc.holdsEmpty s s1 p .done e1
      have kC := countC_congr CLoc.owesEmpty s s1 e2
      simp [hl, PLoc.holdsEmpty] at kP
      unfold PCInv
      rw [e3, kC, kP]
      exact ⟨h1, h2, h3, h4⟩
    · cases h
  | cons_wait_eintr c =>
    simp only [pcStep] at h
    split at h
    · rename_i hl
      simp only [Option.some.injEq] at h
      obtain ⟨h1, h2, h3, h4⟩ := hinv
      have e1 : s1.cloc = Function.update s.cloc c .loop := by rw [← h]
      have e2 : s1.ploc = s.ploc := by rw [← h]
      have e3 : s1.buf = s.buf := by rw [← h]
      have kC := countC_update CLoc.owesEmpty s s1 c .loop e1
      have kP := countP_congr PLoc.holdsEmpty s s1 e2
      simp [hl, CLoc.owesEmpty] at kC
      unfold PCInv
      rw [e3, kC, kP]
      exact ⟨h1, h2, h3, h4⟩
    · cases h
  | cons_wait_fails c =>
    simp only [pcStep] at h
    split at h
    · rename_i hl
      simp only [Option.some.injEq] at h
      obtain ⟨h1, h2, h3, h4⟩ := hinv
      have e1 : s1.cloc = Function.update s.cloc c .done := by rw [← h]
      have e2 : s1.ploc = s.ploc := by rw [← h]
      have e3 : s1.buf = s.buf := by rw [← h]
      have kC := countC_update CLoc.owesEmpty s s1 c .done e1
      have kP := countP_congr PLoc.holdsEmpty s s1 e2
      simp [hl, CLoc.owesEmpty] at kC
      unfold PCInv
      rw [e3, kC, kP]
      exact ⟨h1, h2, h3, h4⟩
    · cases h
  | set_shutdown =>
    simp only [pcStep, Option.some.injEq] at h
    subst h
    exact hinv
  | post_full =>
    simp only [pcStep, Option.some.injEq] at h
    subst h
    exact hinv

theorem pcExec_inv {np nc : Nat} (sched : List (PCAction np nc)) :
    ∀ (s s1 : PCSys np nc), PCInv s → pcExec s sched = some s1 → PCInv s1 := by
  induction sched with
  | nil =>
    intro s s1 hP h
    simp only [pcExec, Option.some.injEq] at h
    subst h
    exact hP
  | cons a rest ih =>
    intro s s1 hP h
    unfold pcExec at h
    split at h
    · cases h
    · rename_i s2 hs2
      exact ih s2 s1 (pcStep_inv s s2 a hs2 hP) h

theorem pcInv_init {np : Nat} (nc : Nat) (data : Fin np → ThreadData)
    (b0 : ProducerConsumerBuffer) : PCInv (PCSys.init nc data b0) := by
  unfold PCInv countP countC
  simp [PCSys.init, init_buffer, PLoc.holdsEmpty, CLoc.owesEmpty]

theorem pcReachable_inv {np nc : Nat} (data : Fin np → ThreadData)
    (b0 : ProducerConsumerBuffer) (s : PCSys np nc) (h : PCReachable data b0 s) :
    PCInv s := by
  obtain ⟨sched, hs⟩ := h
  exact pcExec_inv sched _ s (pcInv_init nc data b0) hs

/-! ## The counters stay within the requested number of items -/

theorem sum_change_fin {n : Nat} (g g1 : Fin n → Nat) (i : Fin n)
    (h : ∀ j, j ≠ i → g1 j = g j) :
    (∑ j : Fin n, g1 j) + g i = (∑ j : Fin n, g j) + g1 i := by
  have h1 := Finset.add_sum_erase Finset.univ g1 (Finset.mem_univ i)
  have h2 := Finset.add_sum_erase Finset.univ g (Finset.mem_univ i)
  have h3 : ∑ x ∈ Finset.univ.erase i, g1 x = ∑ x ∈ Finset.univ.erase i, g x := by
    apply Finset.sum_congr rfl
    intro x hx
    exact h x (Finset.ne_of_mem_erase hx)
  omega

theorem pcCount_producer {np nc : Nat} (data : Fin np → ThreadData) (s s1 : PCSys np nc)
    (p : Fin np) (l : PLoc) (k : Nat) (hinv : PCCount data s)
    (e0 : s1.pdata = s.pdata)
    (e1 : s1.ploc = Function.update s.ploc p l)
    (e2 : s1.pi = Function.update s.pi p k)
    (e3 : s1.buf.items_produced + producedBy s p =
      s.buf.items_produced + (k + if l = .postFull then 1 else 0))
    (e4 : k + (if l.started then 1 else 0) ≤ ((data p).items_to_produce).toNat) :
    PCCount data s1 := by
  obtain ⟨h0, h1, h2⟩ := hinv
  have hp : producedBy s1 p = k + if l = .postFull then 1 else 0 := by
    unfold producedBy
    rw [e1, e2, Function.update_same, Function.update_same]
  have hsum := sum_change_fin (producedBy s) (producedBy s1) p (by
    intro j hj
    unfold producedBy
    rw [e1, e2, Function.update_noteq hj, Function.update_noteq hj])
  refine ⟨by rw [e0, h0], by omega, ?_⟩
  intro j
  by_cases hj : j = p
  · subst hj
    rw [e1, e2, Function.update_same, Function.update_same]
    exact e4
  · rw [e1, e2, Function.update_noteq hj, Function.update_noteq hj]
    exact h2 j

theorem pcCount_congr {np nc : Nat} (data : Fin np → ThreadData) (s s1 : PCSys np nc)
    (hinv : PCCount data s) (e0 : s1.pdata = s.pdata) (e1 : s1.ploc = s.ploc)
    (e2 : s1.pi = s.pi) (e3 : s1.buf.items_produced = s.buf.items_produced) :
    PCCount data s1 := by
  obtain ⟨h0, h1, h2⟩ := hinv
  refine ⟨by rw [e0, h0], ?_, ?_⟩
  · rw [e3, h1]
    apply Finset.sum_congr rfl
    intro j _
    unfold producedBy
    rw [e1, e2]
  · intro j
    rw [e1, e2]
    exact h2 j

theorem producerStep_count {np nc : Nat} (data : Fin np → ThreadData) (p : Fin np)
    (s s1 : PCSys np nc) (h : producerStep p s = some s1) (hinv : PCCount data s) :
    PCCount data s1 := by
  have hb := hinv.2.2 p
  have hd : (s.pdata p).items_to_produce = (data p).items_to_produce := by rw [hinv.1]
  cases hl : s.ploc p <;> simp only [producerStep, hl] at h <;> rw [hl] at hb <;>
    simp [PLoc.started] at hb
  case loop =>
    split at h
    · rename_i hc
      simp only [Option.some.injEq] at h
      refine pcCount_producer data s s1 p .wait (s.pi p) hinv (by rw [← h]) (by rw [← h])
        (by rw [← h]; simp) ?_ ?_
      · rw [← h]; simp [producedBy, hl]
      · rw [hd] at hc
        simp [PLoc.started]
        omega
    · simp only [Option.some.injEq] at h
      refine pcCount_producer data s s1 p .done (s.pi p) hinv (by rw [← h]) (by rw [← h])
        (by rw [← h]; simp) ?_ ?_
      · rw [← h]; simp [producedBy, hl]
      · simp [PLoc.started]; omega
  case wait =>
    split at h
    · simp only [Option.some.injEq] at h
      refine pcCount_producer data s s1 p .check (s.pi p) hinv (by rw [← h]) (by rw [← h])
        (by rw [← h]; simp) ?_ ?_
      · rw [← h]; simp [producedBy, hl]
      · simp [PLoc.started]; omega
    · cases h
  case check =>
    split at h <;> simp only [Option.some.injEq] at h
    · refine pcCount_producer data s s1 p .repost (s.pi p) hinv (by rw [← h]) (by rw [← h])
        (by rw [← h]; simp) ?_ ?_
      · rw [← h]; simp [producedBy, hl]
      · simp [PLoc.started]; omega
    · refine pcCount_producer data s s1 p .insert (s.pi p) hinv (by rw [← h]) (by rw [← h])
        (by rw [← h]; simp) ?_ ?_
      · rw [← h]; simp [producedBy, hl]
      · simp [PLoc.started]; omega
  case repost =>
    simp only [Option.some.injEq] at h
    refine pcCount_producer data s s1 p .done (s.pi p) hinv (by rw [← h]) (by rw [← h])
      (by rw [← h]; simp) ?_ ?_
    · rw [← h]; simp [producedBy, hl]
    · simp [PLoc.started]; omega
  case insert =>
    simp only [Option.some.injEq] at h
    refine pcCount_producer data s s1 p .postFull (s.pi p) hinv (by rw [← h]) (by rw [← h])
      (by rw [← h]; simp) ?_ ?_
    · rw [← h]; simp [producedBy, hl, insert_item]; omega
    · simp [PLoc.started]; omega
  case postFull =>
    simp only [Option.some.injEq] at h
    refine pcCount_producer data s s1 p .loop (s.pi p + 1) hinv (by rw [← h]) (by rw [← h])
      (by rw [← h]) ?_ ?_
    · rw [← h]; simp [producedBy, hl]
    · simp [PLoc.started]; omega
  case done => cases h

theorem consumerStep_count {np nc : Nat} (data : Fin np → ThreadData) (c : Fin nc)
    (s s1 : PCSys np nc) (h : consumerStep c s = some s1) (hinv : PCCount data s) :
    PCCount data s1 := by
  cases hl : s.cloc c <;> simp only [consumerStep, hl] at h
  case loop =>
    split at h <;> simp only [Option.some.injEq] at h <;>
      exact pcCount_congr data s s1 hinv (by rw [← h]) (by rw [← h]) (by rw [← h])
        (by rw [← h])
  case wait =>
    split at h
    · simp only [Option.some.injEq] at h
      exact pcCount_congr data s s1 hinv (by rw [← h]) (by rw [← h]) (by rw [← h])
        (by rw [← h])
    · cases h
  case check =>
    split at h <;> simp only [Option.some.injEq] at h <;>
      exact pcCount_congr data s s1 hinv (by rw [← h]) (by rw [← h]) (by rw [← h])
        (by rw [← h])
  case repostBreak =>
    simp only [Option.some.injEq] at h
    exact pcCount_congr data s s1 hinv (by rw [← h]) (by rw [← h]) (by rw [← h])
      (by rw [← h])
  case crit =>
    split at h <;> simp only [Option.some.injEq] at h
    · exact pcCount_congr data s s1 hinv (by rw [← h]) (by rw [← h]) (by rw [← h])
        (by rw [← h])
    · exact pcCount_congr data s s1 hinv (by rw [← h]) (by rw [← h]) (by rw [← h])
        (by rw [← h]; rfl)
  case repost =>
    simp only [Option.some.injEq] at h
    exact pcCount_congr data s s1 hinv (by rw [← h]) (by rw [← h]) (by rw [← h])
      (by rw [← h])
  case postEmpty =>
    simp only [Option.some.injEq] at h
    exact pcCount_congr data s s1 hinv (by rw [← h]) (by rw [← h]) (by rw [← h])
      (by rw [← h])
  case done => cases h

theorem pcStep_count {np nc : Nat} (data : Fin np → ThreadData) (s s1 : PCSys np nc)
    (a : PCAction np nc) (h : pcStep s a = some s1) (hinv : PCCount data s) :
    PCCount data s1 := by
  cases a with
  | prod p => exact producerStep_count data p s s1 h hinv
  | cons c => exact consumerStep_count data c s s1 h hinv
  | prod_wait_fails p =>
    simp only [pcStep] at h
    split at h
    · rename_i hl
      simp only [Option.some.injEq] at h
      have hb := hinv.2.2 p
      rw [hl] at hb
      refine pcCount_producer data s s1 p .done (s.pi p) hinv (by rw [← h]) (by rw [← h])
        (by rw [← h]; simp) ?_ ?_
      · rw [← h]; simp [producedBy, hl]
      · simp [PLoc.started] at hb ⊢
        omega
    · cases h
  | cons_wait_eintr c =>
    simp only [pcStep] at h
    split at h
    · simp only [Option.some.injEq] at h
      exact pcCount_congr data s s1 hinv (by rw [← h]) (by rw [← h]) (by rw [← h])
        (by rw [← h])
    · cases h
  | cons_wait_fails c =>
    simp only [pcStep] at h
    split at h
    · simp only [Option.some.injEq] at h
      exact pcCount_congr data s s1 hinv (by rw [← h]) (by rw [← h]) (by rw [← h])
        (by rw [← h])
    · cases h
  | set_shutdown =>
    simp only [pcStep, Option.some.injEq] at h
    exact pcCount_congr data s s1 hinv (by rw [← h]) (by rw [← h]) (by rw [← h])
      (by rw [← h])
  | post_full =>
    simp only [pcStep, Option.some.injEq] at h
    exact pcCount_congr data s s1 hinv (by rw [← h]) (by rw [← h]) (by rw [← h])
      (by rw [← h])

theorem pcExec_count {np nc : Nat} (data : Fin np → ThreadData)
    (sched : List (PCAction np nc)) :
    ∀ s s1 : PCSys np nc, pcExec s sched = some s1 → PCCount data s → PCCount data s1 := by
  induction sched with
  | nil =>
    intro s s1 h hinv
    simp only [pcExec, Option.some.injEq] at h
    rw [← h]; exact hinv
  | cons a rest ih =>
    intro s s1 h hinv
    simp only [pcExec] at h
    cases hs : pcStep s a with
    | none => rw [hs] at h; cases h
    | some s2 =>
      rw [hs] at h
      exact ih s2 s1 h (pcStep_count data s s2 a hs hinv)

theorem pcCount_init {np : Nat} (nc : Nat) (data : Fin np → ThreadData)
    (b0 : ProducerConsumerBuffer) : PCCount data (PCSys.init nc data b0 : PCSys np nc) := by
  refine ⟨rfl, ?_, ?_⟩
  · simp [producedBy, PCSys.init, init_buffer]
  · intro p
    simp [PCSys.init, PLoc.started]

/-- In every reachable state `items_produced` is at most the total number of items the
producers were asked for, so the counters of the buffer stay within the range of `int`
whenever that total does. -/
theorem items_produced_le_requested {np nc : Nat} (data : Fin np → ThreadData)
    (b0 : ProducerConsumerBuffer) (s : PCSys np nc) (h : PCReachable data b0 s) :
    s.buf.items_produced ≤ ∑ p : Fin np, ((data p).items_to_produce).toNat := by
  obtain ⟨sched, hs⟩ := h
  obtain ⟨_, h1, h2⟩ := pcExec_count data sched _ s hs (pcCount_init nc data b0)
  rw [h1]
  apply Finset.sum_le_sum
  intro p _
  have := h2 p
  unfold producedBy
  split <;> rename_i hl
  · rw [hl] at this
    simpa [PLoc.started] using this
  · omega

/-! ## Items, occupancy predicates and the bounded buffer (C23, C27, C28) -/

/-- C23 as stated fails: the distinct pairs `(0, 1000)` and `(1, 0)` of non-negative
integers give the same item, 1000; and in 32-bit `int` arithmetic `(4294967, 296)` gives the
same item as `(0, 0)`. -/
theorem produce_item_collision :
    produce_item 0 1000 = produce_item 1 0 ∧ produce_item 0 1000 = 1000 ∧
    ((0 : Int), (1000 : Int)) ≠ (1, 0) ∧
    produce_item 4294967 296 = produce_item 0 0 := by
  decide

theorem int32_of_range (x : Int) (h0 : 0 ≤ x) (h1 : x < 2 ^ 31) : int32 x = x := by
  unfold int32
  omega

/-- C23 (amended): for every two distinct pairs `(thread_id, item_number)` of non-negative
integers with `item_number < 1000` and `thread_id * 1000 + item_number` representable as an
`int`, `produce_item` returns distinct values, namely `thread_id * 1000 + item_number`. -/
theorem produce_item_injective (t1 n1 t2 n2 : Int)
    (ht1 : 0 ≤ t1) (hn1 : 0 ≤ n1) (ht2 : 0 ≤ t2) (hn2 : 0 ≤ n2)
    (hb1 : n1 < 1000) (hb2 : n2 < 1000)
    (hr1 : t1 * 1000 + n1 < 2 ^ 31) (hr2 : t2 * 1000 + n2 < 2 ^ 31)
    (hne : (t1, n1) ≠ (t2, n2)) :
    produce_item t1 n1 = t1 * 1000 + n1 ∧ produce_item t2 n2 = t2 * 1000 + n2 ∧
    produce_item t1 n1 ≠ produce_item t2 n2 := by
  have e1 : produce_item t1 n1 = t1 * 1000 + n1 := by
    unfold produce_item
    rw [int32_of_range (t1 * 1000) (by omega) (by omega),
      int32_of_range (t1 * 1000 + n1) (by omega) hr1]
  have e2 : produce_item t2 n2 = t2 * 1000 + n2 := by
    unfold produce_item
    rw [int32_of_range (t2 * 1000) (by omega) (by omega),
      int32_of_range (t2 * 1000 + n2) (by omega) hr2]
  refine ⟨e1, e2, ?_⟩
  rw [e1, e2]
  intro heq
  apply hne
  have ht : t1 = t2 := by omega
  have hn : n1 = n2 := by omega
  rw [ht, hn]

/-- Witness for C23: producers 0 and 1 with item numbers 999 and 0 give 999 and 1000. -/
theorem produce_item_injective_witness :
    produce_item 0 999 = 999 ∧ produce_item 1 0 = 1000 ∧
    produce_item 0 999 ≠ produce_item 1 0 := by
  have h := produce_item_injective 0 999 1 0 (by decide) (by decide) (by decide) (by decide)
    (by decide) (by decide) (by decide) (by decide) (by decide)
  exact ⟨h.1, h.2.1, h.2.2⟩

/-- C27 (occupancy predicates) evaluated on the code: after the producer has inserted 10
items and nothing was extracted, the buffer holds `BUFFER_SIZE` items, `is_buffer_full`
returns false and `is_buffer_empty` returns true (`in == out == 0`); after 9 insertions the
buffer holds 9 items and `is_buffer_full` returns true. -/
theorem occupancy_predicates_disagree :
    (pcExec pcInit (sched_produce 10)).map
        (fun s => (s.buf.items_produced, s.buf.items_consumed, s.buf.in_, s.buf.out,
          is_buffer_full s.buf, is_buffer_empty s.buf)) =
      some (10, 0, 0, 0, false, true) ∧
    (pcExec pcInit (sched_produce 9)).map
        (fun s => (s.buf.items_produced, s.buf.items_consumed, s.buf.in_, s.buf.out,
          is_buffer_full s.buf, is_buffer_empty s.buf)) =
      some (9, 0, 9, 0, true, false) := by
  exact ⟨rfl, rfl⟩

/-- C28 (bounded-buffer invariant): the semaphore counters start at `BUFFER_SIZE` (`empty`)
and 0 (`full`); in every state reachable by producer and consumer steps, including the
shutdown paths that re-post a semaphore, failing `sem_wait` calls, the setting of `shutdown`
and posts of `full` from outside, `items_consumed <= items_produced`,
`items_produced - items_consumed <= BUFFER_SIZE`, `in == items_produced % BUFFER_SIZE` and
`out == items_consumed % BUFFER_SIZE`; a consumer that extracts (critical section with
`items_produced != items_consumed`) takes slot `items_consumed % BUFFER_SIZE` of an item
already produced, and a producer about to insert finds fewer than `BUFFER_SIZE` items, its
slot `in` being none of the slots of the unconsumed items. The counters never exceed the
total number of items requested from the producers, so they stay within `int` whenever that
total does. -/
theorem bounded_buffer_invariant {np nc : Nat} (data : Fin np → ThreadData)
    (b0 : ProducerConsumerBuffer) (s : PCSys np nc) (h : PCReachable data b0 s) :
    ((PCSys.init nc data b0 : PCSys np nc).buf.empty = BUFFER_SIZE ∧
      (PCSys.init nc data b0 : PCSys np nc).buf.full = 0) ∧
    s.buf.items_consumed ≤ s.buf.items_produced ∧
    s.buf.items_produced - s.buf.items_consumed ≤ BUFFER_SIZE ∧
    s.buf.in_ = s.buf.items_produced % BUFFER_SIZE ∧
    s.buf.out = s.buf.items_consumed % BUFFER_SIZE ∧
    (∀ c, s.cloc c = .crit → s.buf.items_produced ≠ s.buf.items_consumed →
      s.buf.items_consumed < s.buf.items_produced ∧
      s.buf.out = s.buf.items_consumed % BUFFER_SIZE) ∧
    (∀ p, s.ploc p = .insert →
      s.buf.items_produced - s.buf.items_consumed < BUFFER_SIZE ∧
      ∀ k, s.buf.items_consumed ≤ k → k < s.buf.items_produced →
        k % BUFFER_SIZE ≠ s.buf.in_) ∧
    s.buf.items_produced ≤ ∑ p : Fin np, ((data p).items_to_produce).toNat := by
  obtain ⟨h1, h2, h3, h4⟩ := pcReachable_inv data b0 s h
  have hle := items_produced_le_requested data b0 s h
  simp only [BUFFER_SIZE] at h1 h2 h4 ⊢
  refine ⟨⟨rfl, rfl⟩, h3, by omega, h1, h2, ?_, ?_, hle⟩
  · intro c _ hne
    exact ⟨by omega, h2⟩
  · intro p hp
    have kge := countP_ge PLoc.holdsEmpty s p
    rw [hp] at kge
    simp [PLoc.holdsEmpty] at kge
    refine ⟨by omega, ?_⟩
    intro k hk1 hk2
    omega

/-- Witness for C28: the state after `sched_shutdown` (three insertions, one extraction, a
shutdown with an outside post of `full` and the consumer's re-post) is reachable, with
`items_produced == 3`, `items_consumed == 1`, `in == 3`, `out == 1`. -/
theorem bounded_buffer_invariant_witness :
    PCReachable data_one buffer_garbage (pcAfter sched_shutdown) ∧
    (pcAfter sched_shutdown).buf.items_produced = 3 ∧
    (pcAfter sched_shutdown).buf.items_consumed = 1 ∧
    (pcAfter sched_shutdown).buf.full = 3 ∧
    (pcAfter sched_shutdown).buf.items_produced - (pcAfter sched_shutdown).buf.items_consumed ≤
      BUFFER_SIZE ∧
    (pcAfter sched_shutdown).buf.in_ = 3 % BUFFER_SIZE ∧
    (pcAfter sched_shutdown).buf.out = 1 % BUFFER_SIZE := by
  have hr : PCReachable data_one buffer_garbage (pcAfter sched_shutdown) :=
    ⟨sched_shutdown, rfl⟩
  have h := bounded_buffer_invariant data_one buffer_garbage (pcAfter sched_shutdown) hr
  have e3 : (pcAfter sched_shutdown).buf.items_produced = 3 := by decide
  have e1 : (pcAfter sched_shutdown).buf.items_consumed = 1 := by decide
  have hin := h.2.2.2.1
  have hout := h.2.2.2.2.1
  rw [e3] at hin
  rw [e1] at hout
  exact ⟨hr, e3, e1, by decide, h.2.2.1, hin, hout⟩

end ProducerConsumer
